import Mathlib

/-!
# simd-hashmap: a shallow embedding of `hashmap.h`

The table of `hashmap::HashMap<Key, Value, Hash>` is embedded as a record of two
parallel lists (`buckets`, the control bytes, and `values`, the key/value cells)
and the two counters `_size` and `load`.  Bytes and counters are natural
numbers; a byte written by the code is reduced modulo `256`, the hash value
modulo `2 ^ 64`.  The NEON branch of the header is the one embedded
(`HASH_SIMD_SIZE = 16`, `match_type = uint64_t`); the AVX2 branch has no matcher
bodies.  `std::vector::capacity()` is taken to be `size()`, which is what the
constructor and `resize` on a moved-from vector give.

Loops that the source leaves unbounded (`while (true)` in `insert_impl`, the
recursion `insert_impl → rehash_if_needed → insert_impl`) carry an explicit fuel
argument; running out of fuel is the result `none`.

The development has three layers: the embedding of the source, a specification
vocabulary (lane masks, the representation invariant `Inv`, reachable states, and
lane-by-lane forms of the three operations that are proved equal to the embedded
ones and serve to evaluate them on concrete tables), and the theorems.
-/

set_option linter.unusedSectionVars false

namespace hashmap

/-! ## Constants and the table record -/

/-- The group width, `HASH_SIMD_SIZE` under `__ARM_NEON`. -/
def HASH_SIMD_SIZE : Nat := 16

/-- Control byte of an erased slot. -/
def deleted_mask : Nat := 0b01

/-- Control byte of a never used slot. -/
def empty_mask : Nat := 0b10

/-- The two tag bits of an occupied control byte. -/
def occupied_mask : Nat := 0b11

/-- The data members of `HashMap` (the hasher is passed to the operations). -/
structure HashMap (K V : Type) where
  buckets : List Nat
  values : List (K × V)
  _size : Nat
  load : Nat
deriving DecidableEq

variable {K V : Type}

/-- The default constructor: 64 `EMPTY` control bytes, 64 value-initialised cells. -/
def HashMap.new [Inhabited K] [Inhabited V] : HashMap K V :=
  { buckets := List.replicate 64 empty_mask
    values := List.replicate 64 default
    _size := 0
    load := 0 }

/-- Member `size()`. -/
def HashMap.size (m : HashMap K V) : Nat := m._size

/-- Member `empty()`. -/
def HashMap.empty (m : HashMap K V) : Bool := m._size == 0

/-! ## NEON intrinsics used by the group matcher -/

/-- Load of 16 bytes starting at the head of `p`. -/
def vld1q_u8 (p : List Nat) : List Nat := p.take 16

/-- Broadcast of one byte to 16 lanes. -/
def vdupq_n_u8 (b : Nat) : List Nat := List.replicate 16 b

/-- Lane-wise equality: `0xFF` where the lanes agree, `0` elsewhere. -/
def vceqq_u8 (a b : List Nat) : List Nat :=
  List.zipWith (fun x y => if x = y then 255 else 0) a b

/-- Reading 16 bytes as 8 little-endian 16-bit lanes. -/
def vreinterpretq_u16_u8 : List Nat → List Nat
  | a :: b :: rest => (a + 256 * b) :: vreinterpretq_u16_u8 rest
  | _ => []

/-- Shift each 16-bit lane right by `n` and keep its low byte. -/
def vshrn_n_u16 (v : List Nat) (n : Nat) : List Nat :=
  v.map (fun x => (x >>> n) % 256)

/-- Reading 8 bytes as one little-endian 64-bit lane and extracting it. -/
def vget_lane_u64 : List Nat → Nat
  | [] => 0
  | b :: rest => b + 256 * vget_lane_u64 rest

/-- Member `vec_to_bitmask`: four mask bits per byte lane. -/
def vec_to_bitmask (vec : List Nat) : Nat :=
  let equalMask := vreinterpretq_u16_u8 vec
  let res := vshrn_n_u16 equalMask 4
  vget_lane_u64 res

/-- Member `match_hash`. -/
def match_hash (group : List Nat) (h2 : Nat) : Nat :=
  let vec := vld1q_u8 group
  let target := ((h2 <<< 2) ||| 3) % 256
  let target_vec := vdupq_n_u8 target
  let cmp := vceqq_u8 vec target_vec
  vec_to_bitmask cmp

/-- Member `match_empty`. -/
def match_empty (group : List Nat) : Nat :=
  let vec := vld1q_u8 group
  let target := 0b10
  let target_vec := vdupq_n_u8 target
  let cmp := vceqq_u8 vec target_vec
  vec_to_bitmask cmp

/-- Member `match_deleted`. -/
def match_deleted (group : List Nat) : Nat :=
  let vec := vld1q_u8 group
  let target := 0b01
  let target_vec := vdupq_n_u8 target
  let cmp := vceqq_u8 vec target_vec
  vec_to_bitmask cmp

/-- Count of trailing zero bits, by halving; the first argument bounds the width. -/
def ctzAux : Nat → Nat → Nat
  | 0, _ => 0
  | w + 1, n => if n % 2 = 1 then 0 else 1 + ctzAux w (n / 2)

/-- The builtin `__builtin_ctzll` on a 64-bit operand (unspecified at `0`). -/
def __builtin_ctzll (mask : Nat) : Nat := ctzAux 64 mask

/-! ## The three operations -/

/-- The inner loop `while (mask) { ... mask &= mask-1; }` shared by `insert_impl`,
`at_impl` and `delete_impl`: the index of the first visited slot whose key equals
`key`.  Each round clears one bit of a 64-bit mask, so 64 rounds exhaust it. -/
def probe_mask [DecidableEq K] [Inhabited K] [Inhabited V] (values : List (K × V)) (key : K)
    (start_group : Nat) : Nat → Nat → Option Nat
  | 0, _ => none
  | rounds + 1, mask =>
    if mask = 0 then none
    else
      let slot := __builtin_ctzll mask >>> 2
      let idx := start_group + slot
      if (values.getD idx default).1 = key then some idx
      else probe_mask values key start_group rounds (mask &&& (mask - 1))

/-- The loop `while (true)` of `insert_impl`, run for at most `fuel` groups. -/
def insert_loop [DecidableEq K] [Inhabited K] [Inhabited V] (m : HashMap K V) (key : K)
    (value : V) (h2 insertion num_groups : Nat) : Nat → Nat → Option (Bool × HashMap K V)
  | 0, _ => none
  | fuel + 1, group_index =>
    let start_group := group_index * HASH_SIMD_SIZE
    let group := m.buckets.drop start_group
    match probe_mask m.values key start_group 64 (match_hash group h2) with
    | some _ => some (false, m)
    | none =>
      let empty_match := match_empty group
      let deleted_match := match_deleted group
      let mask := empty_match ||| deleted_match
      if mask ≠ 0 then
        let slot := __builtin_ctzll mask >>> 2
        let idx := start_group + slot
        some (true,
          { buckets := m.buckets.set idx insertion
            values := m.values.set idx (key, value)
            _size := m._size + 1
            load := m.load + 1 })
      else insert_loop m key value h2 insertion num_groups fuel ((group_index + 1) % num_groups)

/-- The re-insertion loop of `rehash_if_needed` over the detached arrays. -/
def reinsert_all (ins : HashMap K V → K → V → Option (Bool × HashMap K V)) :
    List (Nat × (K × V)) → HashMap K V → Option (HashMap K V)
  | [], m => some m
  | (b, kv) :: rest, m =>
    if b &&& occupied_mask = occupied_mask then
      match ins m kv.1 kv.2 with
      | some r => reinsert_all ins rest r.2
      | none => none
    else reinsert_all ins rest m

/-- Member `rehash_if_needed`; `ins` is the member `insert_impl` it calls back. -/
def rehash_if_needed [Inhabited K] [Inhabited V]
    (ins : HashMap K V → K → V → Option (Bool × HashMap K V)) (m : HashMap K V) :
    Option (HashMap K V) :=
  if m.load * 8 > m.buckets.length * 7 then
    let new_size := ((m.buckets.length * 2 + HASH_SIMD_SIZE - 1) / HASH_SIMD_SIZE) * HASH_SIMD_SIZE
    let old_buckets := m.buckets
    let old_values := m.values
    reinsert_all ins (old_buckets.zip old_values)
      { buckets := List.replicate new_size empty_mask
        values := List.replicate new_size default
        _size := 0
        load := 0 }
  else some m

/-- Member `insert_impl`.  `fuel` bounds the depth of the recursion through
`rehash_if_needed` and the number of groups the probe loop visits. -/
def insert_impl [DecidableEq K] [Inhabited K] [Inhabited V] (hasher : K → Nat) :
    Nat → HashMap K V → K → V → Option (Bool × HashMap K V)
  | 0, _, _, _ => none
  | fuel + 1, m, key, value =>
    match rehash_if_needed (insert_impl hasher fuel) m with
    | none => none
    | some m1 =>
      let num_groups := m1.buckets.length / HASH_SIMD_SIZE
      let hash := hasher key % 2 ^ 64
      let index := hash % m1.buckets.length
      let h2 := (hash >>> 23) &&& 0b111111
      let insertion := ((h2 <<< 2) ||| 3) % 256
      let group_index := index / HASH_SIMD_SIZE
      insert_loop m1 key value h2 insertion num_groups (fuel + 1) group_index

/-- The loop `for (i < num_groups)` of `at_impl`; `none` is `std::out_of_range`. -/
def at_loop [DecidableEq K] [Inhabited K] [Inhabited V] (m : HashMap K V) (key : K)
    (h2 num_groups : Nat) : Nat → Nat → Option V
  | 0, _ => none
  | n + 1, group_index =>
    let start_group := group_index * HASH_SIMD_SIZE
    let group := m.buckets.drop start_group
    match probe_mask m.values key start_group 64 (match_hash group h2) with
    | some idx => some (m.values.getD idx default).2
    | none =>
      if match_empty group ≠ 0 then none
      else at_loop m key h2 num_groups n ((group_index + 1) % num_groups)

/-- Member `at_impl`; `none` is the exception `std::out_of_range`. -/
def at_impl [DecidableEq K] [Inhabited K] [Inhabited V] (hasher : K → Nat)
    (m : HashMap K V) (key : K) : Option V :=
  let num_groups := m.buckets.length / HASH_SIMD_SIZE
  let hash := hasher key % 2 ^ 64
  let index := hash % m.buckets.length
  let h2 := (hash >>> 23) &&& 0b111111
  let group_index := index / HASH_SIMD_SIZE
  at_loop m key h2 num_groups num_groups group_index

/-- The loop `for (i < num_groups)` of `delete_impl`. -/
def delete_loop [DecidableEq K] [Inhabited K] [Inhabited V] (m : HashMap K V) (key : K)
    (h2 num_groups : Nat) : Nat → Nat → Bool × HashMap K V
  | 0, _ => (false, m)
  | n + 1, group_index =>
    let start_group := group_index * HASH_SIMD_SIZE
    let group := m.buckets.drop start_group
    let mask := match_hash group h2
    if mask = 0 then (false, m)
    else
      match probe_mask m.values key start_group 64 mask with
      | some idx =>
        (true, { m with buckets := m.buckets.set idx deleted_mask, _size := m._size - 1 })
      | none =>
        if match_empty group ≠ 0 then (false, m)
        else delete_loop m key h2 num_groups n ((group_index + 1) % num_groups)

/-- Member `delete_impl`. -/
def delete_impl [DecidableEq K] [Inhabited K] [Inhabited V] (hasher : K → Nat)
    (m : HashMap K V) (key : K) : Bool × HashMap K V :=
  let num_groups := m.buckets.length / HASH_SIMD_SIZE
  let hash := hasher key % 2 ^ 64
  let index := hash % m.buckets.length
  let h2 := (hash >>> 23) &&& 0b111111
  let group_index := index / HASH_SIMD_SIZE
  delete_loop m key h2 num_groups num_groups group_index

/-! ## Operation sequences -/

/-- One public call: `insert(key, value)` or `erase(key)`. -/
inductive Op (K V : Type) where
  | insert (key : K) (value : V)
  | erase (key : K)
deriving DecidableEq

/-- Run a call sequence, collecting the boolean results in call order. -/
def run [DecidableEq K] [Inhabited K] [Inhabited V] (hasher : K → Nat) (fuel : Nat) :
    List (Op K V) → HashMap K V → Option (List Bool × HashMap K V)
  | [], m => some ([], m)
  | Op.insert key value :: rest, m =>
    match insert_impl hasher fuel m key value with
    | none => none
    | some (b, m1) =>
      match run hasher fuel rest m1 with
      | none => none
      | some (bs, m2) => some (b :: bs, m2)
  | Op.erase key :: rest, m =>
    let r := delete_impl hasher m key
    match run hasher fuel rest r.2 with
    | none => none
    | some (bs, m2) => some (r.1 :: bs, m2)

/-! ## Specification vocabulary -/

/-- The 64-bit value whose nibble `i` is all ones exactly when lane `i` is flagged. -/
def nibbles : List Bool → Nat
  | [] => 0
  | b :: bs => (if b then 15 else 0) + 16 * nibbles bs

/-- The lane flags of a group against a target byte. -/
def lanes (group : List Nat) (target : Nat) : List Bool :=
  (group.take 16).map (fun x => decide (x = target))

/-- The first flagged lane, from lane `i` on, whose slot passes the test `P`. -/
def first_hit (P : Nat → Bool) : Nat → List Bool → Option Nat
  | _, [] => none
  | i, b :: bs => if b && P i then some i else first_hit P (i + 1) bs

/-- The control byte of slot `i`. -/
def byteAt (m : HashMap K V) (i : Nat) : Nat := m.buckets.getD i 0

/-- The cell of slot `i`. -/
def cellAt [Inhabited K] [Inhabited V] (m : HashMap K V) (i : Nat) : K × V :=
  m.values.getD i default

/-- The test of `rehash_if_needed` for a live slot: `(b & occupied_mask) == occupied_mask`. -/
def is_occupied (b : Nat) : Prop := b &&& occupied_mask = occupied_mask

instance (b : Nat) : Decidable (is_occupied b) := by
  unfold is_occupied
  infer_instance

/-- The fingerprint `h2 = (hash >> 23) & 0b111111` of a key. -/
def fingerprint (hasher : K → Nat) (key : K) : Nat :=
  ((hasher key % 2 ^ 64) >>> 23) &&& 0b111111

/-- The control byte `h2 << 2 | 3` written for a fingerprint. -/
def occupied_byte (h2 : Nat) : Nat := ((h2 <<< 2) ||| 3) % 256

/-- The group at which the probe of a key starts. -/
def home_group (hasher : K → Nat) (m : HashMap K V) (key : K) : Nat :=
  (hasher key % 2 ^ 64 % m.buckets.length) / HASH_SIMD_SIZE

/-- No lane of group `g` is `EMPTY`. -/
def GroupNoEmpty (m : HashMap K V) (g : Nat) : Prop :=
  ∀ j, j < 16 → byteAt m (g * 16 + j) ≠ 2

/-- No lane of group `g` is `EMPTY` or `DELETED`. -/
def GroupNoFree (m : HashMap K V) (g : Nat) : Prop :=
  ∀ j, j < 16 → byteAt m (g * 16 + j) ≠ 2 ∧ byteAt m (g * 16 + j) ≠ 1

/-- Some lane of group `g` carries the occupied byte of `h2` and the key `key`. -/
def GroupHasKey [Inhabited K] [Inhabited V] (m : HashMap K V) (h2 : Nat) (key : K) (g : Nat) :
    Prop :=
  ∃ j, j < 16 ∧ byteAt m (g * 16 + j) = occupied_byte h2 ∧ (cellAt m (g * 16 + j)).1 = key

/-- Slot `i` is live and holds `key`. -/
def HoldsKey [Inhabited K] [Inhabited V] (m : HashMap K V) (key : K) : Prop :=
  ∃ i, i < m.buckets.length ∧ is_occupied (byteAt m i) ∧ (cellAt m i).1 = key

/-- Some live slot holds the pair `(key, value)`. -/
def Holds [Inhabited K] [Inhabited V] (m : HashMap K V) (key : K) (value : V) : Prop :=
  ∃ i, i < m.buckets.length ∧ is_occupied (byteAt m i) ∧ cellAt m i = (key, value)

/-- The representation invariant of the table: the arrays are parallel and made of
whole groups, every control byte is a sentinel or the occupied byte of the key in
its cell, every live key is reached from its home group through groups without an
`EMPTY` lane, and the load count bounds the number of slots that are not `EMPTY`. -/
structure Inv [Inhabited K] [Inhabited V] (hasher : K → Nat) (m : HashMap K V) : Prop where
  len_values : m.values.length = m.buckets.length
  whole_groups : m.buckets.length = (m.buckets.length / 16) * 16
  one_group : 0 < m.buckets.length / 16
  bytes : ∀ i, i < m.buckets.length →
    byteAt m i = 1 ∨ byteAt m i = 2 ∨
      byteAt m i = occupied_byte (fingerprint hasher (cellAt m i).1)
  chain : ∀ i, i < m.buckets.length → is_occupied (byteAt m i) →
    ∃ d, d < m.buckets.length / 16 ∧
      (home_group hasher m (cellAt m i).1 + d) % (m.buckets.length / 16) = i / 16 ∧
      ∀ e, e < d →
        GroupNoEmpty m ((home_group hasher m (cellAt m i).1 + e) % (m.buckets.length / 16))
  used_le_load : m.buckets.countP (fun b => decide (b ≠ 2)) ≤ m.load

/-- The states reached from the fresh table by `insert` and `erase` calls. -/
inductive Reachable [DecidableEq K] [Inhabited K] [Inhabited V] (hasher : K → Nat) :
    HashMap K V → Prop where
  | new : Reachable hasher HashMap.new
  | insert (m m1 : HashMap K V) (fuel : Nat) (key : K) (value : V) (b : Bool) :
      Reachable hasher m → insert_impl hasher fuel m key value = some (b, m1) →
      Reachable hasher m1
  | erase (m : HashMap K V) (key : K) :
      Reachable hasher m → Reachable hasher (delete_impl hasher m key).2

/-- The table after `insert_impl` has written `key, value` under the control byte
`insertion` at slot `idx`. -/
def place (m : HashMap K V) (idx insertion : Nat) (key : K) (value : V) : HashMap K V :=
  { buckets := m.buckets.set idx insertion
    values := m.values.set idx (key, value)
    _size := m._size + 1
    load := m.load + 1 }

/-- No control byte is the `DELETED` sentinel. -/
def NoTomb (m : HashMap K V) : Prop := ∀ i, i < m.buckets.length → byteAt m i ≠ 1

/-- No two live slots hold the same key. -/
def Distinct [Inhabited K] [Inhabited V] (m : HashMap K V) : Prop :=
  ∀ i j, i < m.buckets.length → j < m.buckets.length →
    is_occupied (byteAt m i) → is_occupied (byteAt m j) →
    (cellAt m i).1 = (cellAt m j).1 → i = j

/-- The table after `delete_impl` has turned slot `idx` into a tombstone. -/
def erased (m : HashMap K V) (idx : Nat) : HashMap K V :=
  { m with buckets := m.buckets.set idx deleted_mask, _size := m._size - 1 }

/-- The fresh arrays that `rehash_if_needed` allocates for a table of `len` slots. -/
def grown [Inhabited K] [Inhabited V] (len : Nat) : HashMap K V :=
  { buckets := List.replicate
      (((len * 2 + HASH_SIMD_SIZE - 1) / HASH_SIMD_SIZE) * HASH_SIMD_SIZE) empty_mask
    values := List.replicate
      (((len * 2 + HASH_SIMD_SIZE - 1) / HASH_SIMD_SIZE) * HASH_SIMD_SIZE) default
    _size := 0
    load := 0 }

/-- The states reached from the fresh table by `insert` calls alone. -/
inductive InsertReachable [DecidableEq K] [Inhabited K] [Inhabited V] (hasher : K → Nat) :
    HashMap K V → Prop where
  | new : InsertReachable hasher HashMap.new
  | insert (m m1 : HashMap K V) (fuel : Nat) (key : K) (value : V) (b : Bool) :
      InsertReachable hasher m → insert_impl hasher fuel m key value = some (b, m1) →
      InsertReachable hasher m1

/-- The call sequence that inserts the given pairs in order. -/
def inserts (kvs : List (K × V)) : List (Op K V) :=
  kvs.map (fun p => Op.insert p.1 p.2)

/-! ### Lane-by-lane forms of the operations -/

/-- The first lane, counted from `i`, whose control byte is `target` and whose cell
holds `key`, walking the bytes and the cells of a group side by side. -/
def scan_group [DecidableEq K] (key : K) (target : Nat) : Nat → List Nat → List (K × V) → Option Nat
  | i, b :: bs, c :: cs =>
    if b = target ∧ c.1 = key then some i else scan_group key target (i + 1) bs cs
  | _, _, _ => none

/-- The first lane, counted from `i`, whose control byte is `EMPTY` or `DELETED`. -/
def first_free : Nat → List Nat → Option Nat
  | _, [] => none
  | i, b :: bs => if b = 2 ∨ b = 1 then some i else first_free (i + 1) bs

/-- The probe loop of `insert_impl`, with each group scanned lane by lane. -/
def insert_loop_fast [DecidableEq K] (m : HashMap K V) (key : K)
    (value : V) (h2 insertion num_groups : Nat) : Nat → Nat → Option (Bool × HashMap K V)
  | 0, _ => none
  | fuel + 1, group_index =>
    let start_group := group_index * 16
    let bs := (m.buckets.drop start_group).take 16
    match scan_group key (occupied_byte h2) 0 bs (m.values.drop start_group) with
    | some _ => some (false, m)
    | none =>
      match first_free 0 bs with
      | some slot => some (true, place m (start_group + slot) insertion key value)
      | none =>
        insert_loop_fast m key value h2 insertion num_groups fuel ((group_index + 1) % num_groups)

/-- The member `insert_impl`, over `insert_loop_fast`. -/
def insert_impl_fast [DecidableEq K] [Inhabited K] [Inhabited V] (hasher : K → Nat) :
    Nat → HashMap K V → K → V → Option (Bool × HashMap K V)
  | 0, _, _, _ => none
  | fuel + 1, m, key, value =>
    match rehash_if_needed (insert_impl_fast hasher fuel) m with
    | none => none
    | some m1 =>
      insert_loop_fast m1 key value (fingerprint hasher key)
        (occupied_byte (fingerprint hasher key)) (m1.buckets.length / 16) (fuel + 1)
        (home_group hasher m1 key)

/-- The lookup loop of `at_impl`, with each group scanned lane by lane. -/
def at_loop_fast [DecidableEq K] [Inhabited K] [Inhabited V] (m : HashMap K V) (key : K)
    (h2 num_groups : Nat) : Nat → Nat → Option V
  | 0, _ => none
  | n + 1, group_index =>
    let start_group := group_index * 16
    let bs := (m.buckets.drop start_group).take 16
    match scan_group key (occupied_byte h2) 0 bs (m.values.drop start_group) with
    | some slot => some (m.values.getD (start_group + slot) default).2
    | none =>
      if bs.any (fun b => decide (b = 2)) then none
      else at_loop_fast m key h2 num_groups n ((group_index + 1) % num_groups)

/-- The member `at_impl`, over `at_loop_fast`. -/
def at_impl_fast [DecidableEq K] [Inhabited K] [Inhabited V] (hasher : K → Nat)
    (m : HashMap K V) (key : K) : Option V :=
  at_loop_fast m key (fingerprint hasher key) (m.buckets.length / 16) (m.buckets.length / 16)
    (home_group hasher m key)

/-- The erase loop of `delete_impl`, with each group scanned lane by lane. -/
def delete_loop_fast [DecidableEq K] (m : HashMap K V) (key : K)
    (h2 num_groups : Nat) : Nat → Nat → Bool × HashMap K V
  | 0, _ => (false, m)
  | n + 1, group_index =>
    let start_group := group_index * 16
    let bs := (m.buckets.drop start_group).take 16
    if bs.any (fun b => decide (b = occupied_byte h2)) then
      match scan_group key (occupied_byte h2) 0 bs (m.values.drop start_group) with
      | some slot => (true, erased m (start_group + slot))
      | none =>
        if bs.any (fun b => decide (b = 2)) then (false, m)
        else delete_loop_fast m key h2 num_groups n ((group_index + 1) % num_groups)
    else (false, m)

/-- The member `delete_impl`, over `delete_loop_fast`. -/
def delete_impl_fast [DecidableEq K] (hasher : K → Nat)
    (m : HashMap K V) (key : K) : Bool × HashMap K V :=
  delete_loop_fast m key (fingerprint hasher key) (m.buckets.length / 16)
    (m.buckets.length / 16) (home_group hasher m key)

/-- The function `run`, over the lane-by-lane operations. -/
def run_fast [DecidableEq K] [Inhabited K] [Inhabited V] (hasher : K → Nat) (fuel : Nat) :
    List (Op K V) → HashMap K V → Option (List Bool × HashMap K V)
  | [], m => some ([], m)
  | Op.insert key value :: rest, m =>
    match insert_impl_fast hasher fuel m key value with
    | none => none
    | some (b, m1) =>
      match run_fast hasher fuel rest m1 with
      | none => none
      | some (bs, m2) => some (b :: bs, m2)
  | Op.erase key :: rest, m =>
    let r := delete_impl_fast hasher m key
    match run_fast hasher fuel rest r.2 with
    | none => none
    | some (bs, m2) => some (r.1 :: bs, m2)

/-! ### Concrete hashes, call sequences and tables -/

/-- The hash `std::hash<int>`: the key converted to `size_t`. -/
def std_hash_int (k : Int) : Nat := (k % 2 ^ 64).toNat

/-- The identity hash on natural-number keys. -/
def identity_hash (k : Nat) : Nat := k

/-- The pairs `(i, i * 10)` for `i` in `0..99`. -/
def scenario_pairs : List (Int × Int) :=
  (List.range 100).map (fun i => ((i : Int), (i : Int) * 10))

/-- The table of `cap` slots whose first `n` slots hold the pairs `(i, i * 10)`,
`i < n`, under fingerprint 0, the other slots being `EMPTY`. -/
def filled (cap n : Nat) : HashMap Int Int :=
  { buckets := List.replicate n 3 ++ List.replicate (cap - n) 2
    values := (List.range n).map (fun i => ((i : Int), (i : Int) * 10))
      ++ List.replicate (cap - n) (0, 0)
    _size := n
    load := n }

instance [DecidableEq K] [Inhabited K] [Inhabited V] (m : HashMap K V) (key : K) :
    Decidable (HoldsKey m key) := by
  unfold HoldsKey
  infer_instance

/-- Successful inserts minus successful erases of a call sequence with its results. -/
def net_successes : List (Op K V) → List Bool → Int
  | Op.insert _ _ :: ops, b :: bs => (if b then 1 else 0) + net_successes ops bs
  | Op.erase _ :: ops, b :: bs => (if b then -1 else 0) + net_successes ops bs
  | _, _ => 0

/-- Calls that fill group 0 with keys `0..15`, push key 64 into group 1 and then
erase key 0, leaving a tombstone in the home group of key 64. -/
def dup_calls : List (Op Nat Nat) :=
  inserts ((List.range 16).map (fun i => (i, i))) ++ [Op.insert 64 1000, Op.erase 0]

/-- The table after `dup_calls`: a tombstone at slot 0 (stale key 0), keys `1..15`
in slots `1..15`, key 64 at slot 16. -/
def dup_state : HashMap Nat Nat :=
  { buckets := [1] ++ List.replicate 16 3 ++ List.replicate 47 2
    values := (List.range 16).map (fun i => (i, i)) ++ [(64, 1000)]
      ++ List.replicate 47 (0, 0)
    _size := 16
    load := 17 }

/-- Calls that fill group 0 with sixteen keys of fingerprint 1 and then insert the key
`2 ^ 24`, of fingerprint 2 and home group 0, which lands in group 1. -/
def chain_calls : List (Op Nat Nat) :=
  inserts ((List.range 16).map (fun i => (2 ^ 23 + i, i))) ++ [Op.insert (2 ^ 24) 77]

/-- The table after `chain_calls`. -/
def chain_state : HashMap Nat Nat :=
  { buckets := List.replicate 16 7 ++ [11] ++ List.replicate 47 2
    values := (List.range 16).map (fun i => (2 ^ 23 + i, i)) ++ [(2 ^ 24, 77)]
      ++ List.replicate 47 (0, 0)
    _size := 17
    load := 17 }

/-- The calls `dup_calls`, a second insert of key 64, and inserts of 39 more keys,
which bring the load count to 57 of 64. -/
def loaded_dup_calls : List (Op Nat Nat) :=
  dup_calls ++ [Op.insert 64 2000] ++ inserts ((List.range 39).map (fun i => (16 + i, i)))

/-- The table after `loaded_dup_calls`: key 64 at slot 0 and at slot 16. -/
def loaded_dup_state : HashMap Nat Nat :=
  { buckets := List.replicate 56 3 ++ List.replicate 8 2
    values := [(64, 2000)] ++ (List.range 15).map (fun i => (1 + i, 1 + i)) ++ [(64, 1000)]
      ++ (List.range 39).map (fun i => (16 + i, i)) ++ List.replicate 8 (0, 0)
    _size := 56
    load := 57 }

/-- Calls that store key 112 twice, first in group 0 (its home group 3 being full) and,
after an erase in group 3, in group 3, and then bring the load count to 57 of 64. -/
def wrap_calls : List (Op Nat Nat) :=
  inserts ((List.range 16).map (fun i => (48 + i, i)))
    ++ [Op.insert 112 1000, Op.erase 48, Op.insert 112 2000]
    ++ inserts ((List.range 39).map (fun i => (1 + i, i)))

/-- The table after `wrap_calls`: key 112 at slot 0 and at slot 48. -/
def wrap_state : HashMap Nat Nat :=
  { buckets := List.replicate 40 3 ++ List.replicate 8 2 ++ List.replicate 16 3
    values := [(112, 1000)] ++ (List.range 39).map (fun i => (1 + i, i))
      ++ List.replicate 8 (0, 0) ++ [(112, 2000)]
      ++ (List.range 15).map (fun i => (49 + i, 1 + i))
    _size := 56
    load := 57 }

/-- The table an `insert` call returns (the table itself if the call does not return). -/
def after_insert [DecidableEq K] [Inhabited K] [Inhabited V] (hasher : K → Nat) (fuel : Nat)
    (m : HashMap K V) (key : K) (value : V) : HashMap K V :=
  match insert_impl_fast hasher fuel m key value with
  | some r => r.2
  | none => m

/-! ### Mask iteration, counters and growth without the growth check -/

/-- The slot offsets visited by the loop
`while (mask) { slot = __builtin_ctzll(mask) >> 2; ...; mask &= mask-1; }` of
`insert_impl`, `at_impl` and `delete_impl` when no key comparison ends it early. -/
def mask_slots : Nat → Nat → List Nat
  | 0, _ => []
  | rounds + 1, mask =>
    if mask = 0 then []
    else (__builtin_ctzll mask >>> 2) :: mask_slots rounds (mask &&& (mask - 1))

/-- The visits of the mask loop spelled out on lane flags: four per flagged lane. -/
def lane_visits : Nat → List Bool → List Nat
  | _, [] => []
  | i, b :: bs => (if b then [i, i, i, i] else []) ++ lane_visits (i + 1) bs


/-- The number of slots whose control byte passes the live test of growth. -/
def occupied_count {K V : Type} (m : HashMap K V) : Nat :=
  m.buckets.countP (fun b => decide (is_occupied b))

/-- The number of slots whose control byte is the `DELETED` sentinel. -/
def deleted_count {K V : Type} (m : HashMap K V) : Nat :=
  m.buckets.countP (fun b => decide (b = deleted_mask))

/-- The counter invariant of the table: `_size` counts the occupied slots and
`_size ≤ load ≤ capacity`. -/
structure Counts {K V : Type} (m : HashMap K V) : Prop where
  size_eq : m._size = occupied_count m
  size_le_load : m._size ≤ m.load
  load_le_cap : m.load ≤ m.buckets.length

/-- The body of `insert_impl` after the call of `rehash_if_needed`: the probe loop
from the home group, without the growth check. -/
def insert_no_growth {K V : Type} [DecidableEq K] [Inhabited K] [Inhabited V]
    (hasher : K → Nat) (fuel : Nat) (m : HashMap K V) (key : K) (value : V) :
    Option (Bool × HashMap K V) :=
  insert_loop m key value (fingerprint hasher key) (occupied_byte (fingerprint hasher key))
    (m.buckets.length / HASH_SIMD_SIZE) fuel (home_group hasher m key)


/-- Every index the operations form on table `m` is in bounds: the arrays are parallel,
the home group and the next group of a probe are groups of the table, every group load
of 16 bytes lies inside the metadata array, and every slot index `start_group + slot`
taken from a fingerprint mask or from the free-lane mask is below the capacity. -/
def IndexSafe {K V : Type} (hasher : K → Nat) (m : HashMap K V) : Prop :=
  m.values.length = m.buckets.length ∧
  (∀ key, home_group hasher m key < m.buckets.length / HASH_SIMD_SIZE) ∧
  (∀ g, g < m.buckets.length / HASH_SIMD_SIZE →
    (g + 1) % (m.buckets.length / HASH_SIMD_SIZE) < m.buckets.length / HASH_SIMD_SIZE) ∧
  (∀ g, g < m.buckets.length / HASH_SIMD_SIZE →
    g * HASH_SIMD_SIZE + 16 ≤ m.buckets.length) ∧
  (∀ g h2 s, g < m.buckets.length / HASH_SIMD_SIZE →
    s ∈ mask_slots 64 (match_hash (m.buckets.drop (g * HASH_SIMD_SIZE)) h2) →
    g * HASH_SIMD_SIZE + s < m.buckets.length) ∧
  (∀ g, g < m.buckets.length / HASH_SIMD_SIZE →
    match_empty (m.buckets.drop (g * HASH_SIMD_SIZE))
      ||| match_deleted (m.buckets.drop (g * HASH_SIMD_SIZE)) ≠ 0 →
    g * HASH_SIMD_SIZE + __builtin_ctzll (match_empty (m.buckets.drop (g * HASH_SIMD_SIZE))
      ||| match_deleted (m.buckets.drop (g * HASH_SIMD_SIZE))) >>> 2 < m.buckets.length)

/-- The table after `insert(1, 10); erase(1); insert(1, 20)` on the fresh table. -/
def reuse_state : HashMap Nat Nat :=
  { buckets := [3] ++ List.replicate 63 2
    values := [(1, 20)] ++ List.replicate 63 (0, 0)
    _size := 1
    load := 2 }


/-! ## Theorems -/

set_option maxRecDepth 1000000

theorem ctzAux_two_pow_mul (a : Nat) :
    ∀ (w q : Nat), a < w → ctzAux w (2 ^ a * (2 * q + 1)) = a := by
  induction a with
  | zero =>
    intro w q h
    cases w with
    | zero => omega
    | succ w => simp [ctzAux]; omega
  | succ a ih =>
    intro w q h
    cases w with
    | zero => omega
    | succ w =>
      have e : 2 ^ (a + 1) * (2 * q + 1) = 2 * (2 ^ a * (2 * q + 1)) := by ring
      rw [e]
      simp only [ctzAux]
      have h1 : 2 * (2 ^ a * (2 * q + 1)) % 2 ≠ 1 := by omega
      have h2 : 2 * (2 ^ a * (2 * q + 1)) / 2 = 2 ^ a * (2 * q + 1) := by omega
      rw [if_neg h1, h2, ih w q (by omega)]
      omega

theorem land_pred_double (x : Nat) (hx : 0 < x) :
    (2 * x) &&& (2 * x - 1) = 2 * (x &&& (x - 1)) := by
  have h := Nat.land_bit false x true (x - 1)
  simp only [Nat.bit_val, Bool.toNat_false, Bool.toNat_true, Bool.false_and] at h
  have e : 2 * (x - 1) + 1 = 2 * x - 1 := by omega
  rw [e] at h
  simpa using h

theorem land_pred_odd (q : Nat) : (2 * q + 1) &&& (2 * q + 1 - 1) = 2 * q := by
  have h := Nat.land_bit true q false q
  simp only [Nat.bit_val, Bool.toNat_false, Bool.toNat_true, Bool.and_false, Nat.and_self] at h
  simpa using h

theorem land_pred_two_pow_mul (a q : Nat) :
    (2 ^ a * (2 * q + 1)) &&& (2 ^ a * (2 * q + 1) - 1) = 2 ^ (a + 1) * q := by
  induction a with
  | zero => simpa using land_pred_odd q
  | succ a ih =>
    have e : 2 ^ (a + 1) * (2 * q + 1) = 2 * (2 ^ a * (2 * q + 1)) := by ring
    rw [e, land_pred_double _ (by positivity), ih]
    ring

theorem vceqq_u8_replicate (t : Nat) : ∀ (n : Nat) (vec : List Nat), vec.length ≤ n →
    vceqq_u8 vec (List.replicate n t) = vec.map (fun x => if x = t then 255 else 0) := by
  intro n vec
  induction vec generalizing n with
  | nil => intro _; simp [vceqq_u8]
  | cons x xs ih =>
    intro h
    cases n with
    | zero => simp at h
    | succ n =>
      have h2 := ih n (by simpa using h)
      simp only [vceqq_u8] at h2 ⊢
      simp [List.replicate_succ, h2]

theorem vec_to_bitmask_flags : ∀ (n : Nat) (bs : List Bool), bs.length = 2 * n →
    vec_to_bitmask (bs.map (fun b => if b then 255 else 0)) = nibbles bs := by
  intro n
  induction n with
  | zero =>
    intro bs h
    have : bs = [] := by simpa using h
    subst this
    simp [vec_to_bitmask, vreinterpretq_u16_u8, vshrn_n_u16, vget_lane_u64, nibbles]
  | succ n ih =>
    intro bs h
    match bs, h with
    | a :: b :: rest, h =>
      have hr : rest.length = 2 * n := by simp at h; omega
      have h2 := ih rest hr
      simp only [vec_to_bitmask] at h2 ⊢
      simp only [List.map_cons, vreinterpretq_u16_u8, vshrn_n_u16, vget_lane_u64, nibbles]
      simp only [vshrn_n_u16] at h2
      rw [h2]
      cases a <;> cases b <;> simp <;> omega

theorem match_target_eq (group : List Nat) (t : Nat) (n : Nat)
    (h : (group.take 16).length = 2 * n) :
    vec_to_bitmask (vceqq_u8 (vld1q_u8 group) (vdupq_n_u8 t)) = nibbles (lanes group t) := by
  have hl : (group.take 16).length ≤ 16 := by simp
  rw [vld1q_u8, vdupq_n_u8, vceqq_u8_replicate t 16 _ hl]
  have e : (group.take 16).map (fun x => if x = t then 255 else 0)
      = (lanes group t).map (fun b => if b then 255 else 0) := by
    simp [lanes, List.map_map, Function.comp_def]
  rw [e]
  exact vec_to_bitmask_flags n _ (by simpa [lanes] using h)

theorem lor_nibble (a b x y : Nat) (ha : a < 16) (hb : b < 16) :
    (a + 16 * x) ||| (b + 16 * y) = (a ||| b) + 16 * (x ||| y) := by
  have hab : a ||| b < 2 ^ 4 := Nat.or_lt_two_pow (n := 4) ha hb
  have ha4 : a < 2 ^ 4 := ha
  have hb4 : b < 2 ^ 4 := hb
  have e1 : a + 16 * x = 2 ^ 4 * x + a := by ring
  have e2 : b + 16 * y = 2 ^ 4 * y + b := by ring
  have e3 : (a ||| b) + 16 * (x ||| y) = 2 ^ 4 * (x ||| y) + (a ||| b) := by ring
  rw [e1, e2, e3]
  apply Nat.eq_of_testBit_eq
  intro i
  rw [Nat.testBit_or, Nat.testBit_mul_pow_two_add _ ha4, Nat.testBit_mul_pow_two_add _ hb4,
    Nat.testBit_mul_pow_two_add _ hab]
  split <;> simp

theorem nibbles_lor : ∀ (bs cs : List Bool), bs.length = cs.length →
    nibbles bs ||| nibbles cs = nibbles (List.zipWith (fun b c => b || c) bs cs) := by
  intro bs
  induction bs with
  | nil => intro cs h; cases cs <;> simp_all [nibbles]
  | cons b bs ih =>
    intro cs h
    cases cs with
    | nil => simp at h
    | cons c cs =>
      have h2 := ih cs (by simpa using h)
      simp only [nibbles, List.zipWith_cons_cons]
      rw [lor_nibble _ _ _ _ (by split <;> omega) (by split <;> omega), h2]
      cases b <;> cases c <;> simp

section
variable {K V : Type} [DecidableEq K] [Inhabited K] [Inhabited V]

theorem probe_mask_step (values : List (K × V)) (key : K) (start n a q : Nat) (ha : a < 64) :
    probe_mask values key start (n + 1) (2 ^ a * (2 * q + 1))
      = if (values.getD (start + a / 4) default).1 = key then some (start + a / 4)
        else probe_mask values key start n (2 ^ (a + 1) * q) := by
  have hpos : 2 ^ a * (2 * q + 1) ≠ 0 := by positivity
  rw [probe_mask, if_neg hpos]
  simp only [__builtin_ctzll, ctzAux_two_pow_mul a 64 q ha, Nat.shiftRight_eq_div_pow,
    land_pred_two_pow_mul]

theorem probe_mask_zero (values : List (K × V)) (key : K) (start n : Nat) :
    probe_mask values key start n 0 = none := by
  cases n <;> simp [probe_mask]

theorem probe_mask_nibbles (values : List (K × V)) (key : K) (start : Nat) :
    ∀ (bs : List Bool) (i rounds : Nat), 4 * bs.length ≤ rounds → 4 * (i + bs.length) ≤ 64 →
    probe_mask values key start rounds (16 ^ i * nibbles bs)
      = (first_hit (fun j => decide ((values.getD (start + j) default).1 = key)) i bs).map
          (fun j => start + j) := by
  intro bs
  induction bs with
  | nil => intro i rounds _ _; simp [nibbles, first_hit, probe_mask_zero]
  | cons b bs ih =>
    intro i rounds hr hi
    simp only [List.length_cons] at hr hi
    have e16 : (16 : Nat) ^ i = 2 ^ (4 * i) := by
      rw [show (16 : Nat) = 2 ^ 4 by norm_num, ← pow_mul]
    cases b with
    | false =>
      have e : 16 ^ i * nibbles (false :: bs) = 16 ^ (i + 1) * nibbles bs := by
        simp [nibbles]; ring
      rw [e, ih (i + 1) rounds (by omega) (by omega)]
      simp [first_hit]
    | true =>
      obtain ⟨r, rfl⟩ : ∃ r, rounds = r + 4 := ⟨rounds - 4, by omega⟩
      have s0 : 16 ^ i * nibbles (true :: bs) = 2 ^ (4 * i) * (2 * (7 + 8 * nibbles bs) + 1) := by
        simp [nibbles, e16]; ring
      have s1 : 2 ^ (4 * i + 1) * (7 + 8 * nibbles bs)
          = 2 ^ (4 * i + 1) * (2 * (3 + 4 * nibbles bs) + 1) := by ring
      have s2 : 2 ^ (4 * i + 1 + 1) * (3 + 4 * nibbles bs)
          = 2 ^ (4 * i + 2) * (2 * (1 + 2 * nibbles bs) + 1) := by ring
      have s3 : 2 ^ (4 * i + 2 + 1) * (1 + 2 * nibbles bs)
          = 2 ^ (4 * i + 3) * (2 * (nibbles bs) + 1) := by ring
      have s4 : 2 ^ (4 * i + 3 + 1) * nibbles bs = 16 ^ (i + 1) * nibbles bs := by
        rw [show (16 : Nat) = 2 ^ 4 by norm_num, ← pow_mul]; ring
      have d0 : 4 * i / 4 = i := by omega
      have d1 : (4 * i + 1) / 4 = i := by omega
      have d2 : (4 * i + 2) / 4 = i := by omega
      have d3 : (4 * i + 3) / 4 = i := by omega
      by_cases hP : (values.getD (start + i) default).1 = key
      · rw [s0, probe_mask_step _ _ _ _ _ _ (by omega), d0, if_pos hP]
        simp only [first_hit, hP, decide_True, Bool.and_self, if_true, Option.map_some']
      · rw [s0, probe_mask_step _ _ _ _ _ _ (by omega), d0, if_neg hP,
          s1, probe_mask_step _ _ _ _ _ _ (by omega), d1, if_neg hP,
          s2, probe_mask_step _ _ _ _ _ _ (by omega), d2, if_neg hP,
          s3, probe_mask_step _ _ _ _ _ _ (by omega), d3, if_neg hP,
          s4, ih (i + 1) r (by omega) (by omega)]
        simp only [first_hit, hP, decide_False, Bool.and_false, Bool.false_eq_true, if_false]

end

theorem nibbles_eq_zero_iff : ∀ (bs : List Bool), nibbles bs = 0 ↔ ∀ b ∈ bs, b = false := by
  intro bs
  induction bs with
  | nil => simp [nibbles]
  | cons b bs ih =>
    cases b <;> simp [nibbles, ih]

theorem ctz_nibbles : ∀ (bs : List Bool) (i : Nat), (∃ b ∈ bs, b = true) →
    4 * (i + bs.length) ≤ 64 →
    ctzAux 64 (16 ^ i * nibbles bs) / 4 = i + bs.findIdx (fun b => b) := by
  intro bs
  induction bs with
  | nil => intro i h; simp at h
  | cons b bs ih =>
    intro i h hi
    simp only [List.length_cons] at hi
    cases b with
    | false =>
      have e : 16 ^ i * nibbles (false :: bs) = 16 ^ (i + 1) * nibbles bs := by
        simp [nibbles]; ring
      have h2 : ∃ b ∈ bs, b = true := by simpa using h
      rw [e, ih (i + 1) h2 (by omega)]
      simp [List.findIdx_cons]; omega
    | true =>
      have e16 : (16 : Nat) ^ i = 2 ^ (4 * i) := by
        rw [show (16 : Nat) = 2 ^ 4 by norm_num, ← pow_mul]
      have s0 : 16 ^ i * nibbles (true :: bs) = 2 ^ (4 * i) * (2 * (7 + 8 * nibbles bs) + 1) := by
        simp [nibbles, e16]; ring
      rw [s0, ctzAux_two_pow_mul _ _ _ (by omega)]
      simp [List.findIdx_cons]

theorem first_hit_some (P : Nat → Bool) : ∀ (bs : List Bool) (i j : Nat),
    first_hit P i bs = some j →
    i ≤ j ∧ j < i + bs.length ∧ bs.getD (j - i) false = true ∧ P j = true := by
  intro bs
  induction bs with
  | nil => intro i j h; simp [first_hit] at h
  | cons b bs ih =>
    intro i j h
    simp only [first_hit] at h
    split at h
    · rename_i hb
      simp only [Option.some.injEq] at h
      subst h
      simp only [Bool.and_eq_true] at hb
      simp [hb.1, hb.2]
    · obtain ⟨h1, h2, h3, h4⟩ := ih (i + 1) j h
      refine ⟨by omega, by simp; omega, ?_, h4⟩
      have : j - i = (j - (i + 1)) + 1 := by omega
      rw [this]
      simpa using h3

theorem first_hit_none (P : Nat → Bool) : ∀ (bs : List Bool) (i : Nat),
    first_hit P i bs = none →
    ∀ j, j < bs.length → ¬ (bs.getD j false = true ∧ P (i + j) = true) := by
  intro bs
  induction bs with
  | nil => intro i _ j hj; simp at hj
  | cons b bs ih =>
    intro i h j hj
    simp only [first_hit] at h
    split at h
    · simp at h
    · rename_i hb
      cases j with
      | zero => simpa using hb
      | succ j =>
        have := ih (i + 1) h j (by simpa using hj)
        have e : i + 1 + j = i + (j + 1) := by omega
        rw [e] at this
        simpa using this

section
variable {K V : Type} [DecidableEq K] [Inhabited K] [Inhabited V]

theorem lanes_getD (bs : List Nat) (s t j : Nat) (hj : j < 16) (h : s + j < bs.length) :
    (lanes (bs.drop s) t).getD j false = decide (bs.getD (s + j) 0 = t) := by
  simp [lanes, List.getD_eq_getElem?_getD, List.getElem?_map, List.getElem?_take, hj,
    List.getElem?_drop, List.getElem?_eq_getElem h]

theorem lanes_length (bs : List Nat) (s t : Nat) (h : s + 16 ≤ bs.length) :
    (lanes (bs.drop s) t).length = 16 := by
  simp [lanes]; omega

theorem take_drop_length (bs : List Nat) (s : Nat) (h : s + 16 ≤ bs.length) :
    ((bs.drop s).take 16).length = 2 * 8 := by
  simp; omega

theorem match_hash_eq (bs : List Nat) (s h2 : Nat) (h : s + 16 ≤ bs.length) :
    match_hash (bs.drop s) h2 = nibbles (lanes (bs.drop s) (occupied_byte h2)) := by
  simp only [match_hash, occupied_byte]
  exact match_target_eq _ _ 8 (take_drop_length bs s h)

theorem match_empty_eq (bs : List Nat) (s : Nat) (h : s + 16 ≤ bs.length) :
    match_empty (bs.drop s) = nibbles (lanes (bs.drop s) 2) := by
  simp only [match_empty]
  exact match_target_eq _ _ 8 (take_drop_length bs s h)

theorem match_deleted_eq (bs : List Nat) (s : Nat) (h : s + 16 ≤ bs.length) :
    match_deleted (bs.drop s) = nibbles (lanes (bs.drop s) 1) := by
  simp only [match_deleted]
  exact match_target_eq _ _ 8 (take_drop_length bs s h)

/-- A hit of the fingerprint scan is a lane of the group whose control byte is the
occupied byte of the fingerprint and whose key is the probed key. -/
theorem group_probe_some (m : HashMap K V) (key : K) (g h2 idx : Nat)
    (hg : g * 16 + 16 ≤ m.buckets.length)
    (h : probe_mask m.values key (g * 16) 64 (match_hash (m.buckets.drop (g * 16)) h2)
      = some idx) :
    ∃ j, j < 16 ∧ idx = g * 16 + j ∧ byteAt m idx = occupied_byte h2 ∧ (cellAt m idx).1 = key := by
  rw [match_hash_eq _ _ _ hg] at h
  have hl := lanes_length m.buckets (g * 16) (occupied_byte h2) hg
  have h0 := probe_mask_nibbles m.values key (g * 16) (lanes (m.buckets.drop (g * 16))
    (occupied_byte h2)) 0 64 (by omega) (by omega)
  rw [pow_zero, one_mul] at h0
  rw [h0] at h
  cases hf : first_hit (fun j => decide ((m.values.getD (g * 16 + j) default).1 = key)) 0
      (lanes (m.buckets.drop (g * 16)) (occupied_byte h2)) with
  | none => rw [hf] at h; simp at h
  | some j =>
    rw [hf] at h
    simp only [Option.map_some', Option.some.injEq] at h
    obtain ⟨_, h2', h3, h4⟩ := first_hit_some _ _ _ _ hf
    rw [hl] at h2'
    have hj : j < 16 := by omega
    rw [Nat.sub_zero, lanes_getD _ _ _ _ hj (by omega)] at h3
    refine ⟨j, hj, h.symm, ?_, ?_⟩
    · rw [← h]; simpa [byteAt] using h3
    · rw [← h]; simpa [cellAt] using h4

/-- The fingerprint scan misses only when no lane of the group holds the key under
the occupied byte of the fingerprint. -/
theorem group_probe_none (m : HashMap K V) (key : K) (g h2 : Nat)
    (hg : g * 16 + 16 ≤ m.buckets.length)
    (h : probe_mask m.values key (g * 16) 64 (match_hash (m.buckets.drop (g * 16)) h2) = none) :
    ∀ j, j < 16 →
      ¬ (byteAt m (g * 16 + j) = occupied_byte h2 ∧ (cellAt m (g * 16 + j)).1 = key) := by
  rw [match_hash_eq _ _ _ hg] at h
  have hl := lanes_length m.buckets (g * 16) (occupied_byte h2) hg
  have h0 := probe_mask_nibbles m.values key (g * 16) (lanes (m.buckets.drop (g * 16))
    (occupied_byte h2)) 0 64 (by omega) (by omega)
  rw [pow_zero, one_mul] at h0
  rw [h0] at h
  have hf : first_hit (fun j => decide ((m.values.getD (g * 16 + j) default).1 = key)) 0
      (lanes (m.buckets.drop (g * 16)) (occupied_byte h2)) = none := by
    simpa using h
  intro j hj
  have := first_hit_none _ _ _ hf j (by omega)
  rw [lanes_getD _ _ _ _ hj (by omega)] at this
  simpa [byteAt, cellAt] using this

theorem match_empty_zero (m : HashMap K V) (g : Nat) (hg : g * 16 + 16 ≤ m.buckets.length) :
    match_empty (m.buckets.drop (g * 16)) = 0 ↔ ∀ j, j < 16 → byteAt m (g * 16 + j) ≠ 2 := by
  rw [match_empty_eq _ _ hg, nibbles_eq_zero_iff]
  have hl := lanes_length m.buckets (g * 16) 2 hg
  constructor
  · intro h j hj
    have h1 := lanes_getD m.buckets (g * 16) 2 j hj (by omega)
    have h2 : (lanes (m.buckets.drop (g * 16)) 2).getD j false = false := by
      rw [List.getD_eq_getElem _ _ (by omega)]
      exact h _ (List.getElem_mem _)
    rw [h2] at h1
    simpa [byteAt] using h1.symm
  · intro h b hb
    obtain ⟨j, hj, rfl⟩ := List.getElem_of_mem hb
    rw [hl] at hj
    have h1 := lanes_getD m.buckets (g * 16) 2 j hj (by omega)
    rw [List.getD_eq_getElem _ _ (by omega)] at h1
    rw [h1]
    simpa [byteAt] using h j hj

end

section
variable {K V : Type}

theorem free_lanes_eq (bs : List Nat) (s : Nat) :
    List.zipWith (fun b c => b || c) (lanes (bs.drop s) 2) (lanes (bs.drop s) 1)
      = ((bs.drop s).take 16).map (fun x => decide (x = 2) || decide (x = 1)) := by
  simp only [lanes]
  generalize (bs.drop s).take 16 = l
  induction l with
  | nil => rfl
  | cons x xs ih => simp [ih]

theorem free_mask_eq (bs : List Nat) (s : Nat) (h : s + 16 ≤ bs.length) :
    match_empty (bs.drop s) ||| match_deleted (bs.drop s)
      = nibbles (((bs.drop s).take 16).map (fun x => decide (x = 2) || decide (x = 1))) := by
  rw [match_empty_eq _ _ h, match_deleted_eq _ _ h, nibbles_lor, free_lanes_eq]
  rw [lanes_length _ _ _ h, lanes_length _ _ _ h]

/-- No lane of the group is free when the free-lane mask is zero. -/
theorem free_mask_zero (m : HashMap K V) (g : Nat) (hg : g * 16 + 16 ≤ m.buckets.length)
    (h : match_empty (m.buckets.drop (g * 16)) ||| match_deleted (m.buckets.drop (g * 16)) = 0) :
    ∀ j, j < 16 → byteAt m (g * 16 + j) ≠ 2 ∧ byteAt m (g * 16 + j) ≠ 1 := by
  rw [free_mask_eq _ _ hg, nibbles_eq_zero_iff] at h
  intro j hj
  have hlen : j < ((m.buckets.drop (g * 16)).take 16).length := by simp; omega
  have := h _ (List.mem_map_of_mem _ (List.getElem_mem hlen))
  have hb : m.buckets.getD (g * 16 + j) 0 = m.buckets[g * 16 + j] := by
    rw [List.getD_eq_getElem _ _ (by omega)]
  simp only [List.getElem_take, List.getElem_drop, Bool.or_eq_false_iff,
    decide_eq_false_iff_not] at this
  rw [byteAt, hb]
  exact this

/-- The lane taken from a nonzero free-lane mask is a lane of the group whose control
byte is `EMPTY` or `DELETED`. -/
theorem free_mask_slot (m : HashMap K V) (g : Nat) (hg : g * 16 + 16 ≤ m.buckets.length)
    (h : match_empty (m.buckets.drop (g * 16)) ||| match_deleted (m.buckets.drop (g * 16)) ≠ 0) :
    __builtin_ctzll (match_empty (m.buckets.drop (g * 16))
        ||| match_deleted (m.buckets.drop (g * 16))) >>> 2 < 16 ∧
    (byteAt m (g * 16 + __builtin_ctzll (match_empty (m.buckets.drop (g * 16))
        ||| match_deleted (m.buckets.drop (g * 16))) >>> 2) = 2 ∨
     byteAt m (g * 16 + __builtin_ctzll (match_empty (m.buckets.drop (g * 16))
        ||| match_deleted (m.buckets.drop (g * 16))) >>> 2) = 1) := by
  rw [free_mask_eq _ _ hg] at h ⊢
  generalize hfl : ((m.buckets.drop (g * 16)).take 16).map
    (fun x => decide (x = 2) || decide (x = 1)) = fl at h ⊢
  have hlen : fl.length = 16 := by rw [← hfl]; simp; omega
  have hex : ∃ b ∈ fl, b = true := by
    by_contra hne
    apply h
    rw [nibbles_eq_zero_iff]
    intro b hb
    cases b with
    | false => rfl
    | true => exact absurd ⟨true, hb, rfl⟩ hne
  have hc := ctz_nibbles fl 0 hex (by omega)
  rw [pow_zero, one_mul, Nat.zero_add] at hc
  have hlt : fl.findIdx (fun b => b) < fl.length :=
    List.findIdx_lt_length_of_exists (by simpa using hex)
  have hget : fl[fl.findIdx (fun b => b)] = true := List.findIdx_getElem (w := hlt)
  rw [__builtin_ctzll, Nat.shiftRight_eq_div_pow, show (2 : Nat) ^ 2 = 4 by norm_num, hc]
  refine ⟨by omega, ?_⟩
  generalize fl.findIdx (fun b => b) = j at hlt hget
  subst hfl
  simp only [List.getElem_map, List.getElem_take, List.getElem_drop, Bool.or_eq_true,
    decide_eq_true_eq] at hget
  have hbound : g * 16 + j < m.buckets.length := by omega
  have hb : m.buckets.getD (g * 16 + j) 0 = m.buckets[g * 16 + j] := by
    rw [List.getD_eq_getElem _ _ hbound]
  rw [byteAt, hb]
  exact hget

end

section
variable {K V : Type} [DecidableEq K] [Inhabited K] [Inhabited V]

theorem occupied_byte_val (h2 : Nat) : occupied_byte h2 = (4 * h2 + 3) % 256 := by
  have h : h2 <<< 2 ||| 3 = 4 * h2 + 3 := by
    rw [Nat.shiftLeft_eq, show (2 : Nat) ^ 2 = 4 by norm_num, Nat.mul_comm]
    exact (Nat.mul_add_lt_is_or (i := 2) (by norm_num) h2).symm
  rw [occupied_byte, h]

theorem is_occupied_iff (b : Nat) : is_occupied b ↔ b % 4 = 3 := by
  have h := Nat.and_pow_two_sub_one_eq_mod b 2
  simp only [is_occupied, occupied_mask]
  norm_num at h
  rw [h]

theorem is_occupied_occupied_byte (h2 : Nat) : is_occupied (occupied_byte h2) := by
  rw [is_occupied_iff, occupied_byte_val]; omega

theorem occupied_byte_ne (h2 : Nat) : occupied_byte h2 ≠ 2 ∧ occupied_byte h2 ≠ 1 := by
  rw [occupied_byte_val]; omega

theorem step_mod (g d ng : Nat) : ((g + 1) % ng + d) % ng = (g + (d + 1)) % ng := by
  rw [Nat.add_mod, Nat.mod_mod, ← Nat.add_mod]
  congr 1
  omega

theorem group_bound (len g : Nat) (hw : len = (len / 16) * 16) (hg : g < len / 16) :
    g * 16 + 16 ≤ len := by
  omega

/-- A value returned by the lookup loop is the value of a slot that carries the
occupied byte of the fingerprint and the key. -/
theorem at_loop_sound (m : HashMap K V) (key : K) (h2 : Nat)
    (hw : m.buckets.length = (m.buckets.length / 16) * 16) (hpos : 0 < m.buckets.length / 16) :
    ∀ (n g : Nat) (v : V), g < m.buckets.length / 16 →
      at_loop m key h2 (m.buckets.length / 16) n g = some v →
      ∃ idx, idx < m.buckets.length ∧ byteAt m idx = occupied_byte h2 ∧
        cellAt m idx = (key, v) := by
  intro n
  induction n with
  | zero => intro g v _ h; simp [at_loop] at h
  | succ n ih =>
    intro g v hg h
    have hb := group_bound _ g hw hg
    simp only [at_loop, HASH_SIMD_SIZE] at h
    split at h
    · rename_i idx hp
      obtain ⟨j, hj, hidx, hbyte, hkey⟩ := group_probe_some m key g h2 idx hb hp
      refine ⟨idx, by omega, hbyte, ?_⟩
      simp only [Option.some.injEq] at h
      rw [← h, ← hkey]
      rfl
    · split at h
      · simp at h
      · exact ih _ v (Nat.mod_lt _ hpos) h

/-- The lookup loop returns a value when the key sits in a group that is reached
from the start group through groups without an `EMPTY` lane. -/
theorem at_loop_complete (m : HashMap K V) (key : K) (h2 : Nat)
    (hw : m.buckets.length = (m.buckets.length / 16) * 16) (hpos : 0 < m.buckets.length / 16) :
    ∀ (n g : Nat), g < m.buckets.length / 16 →
      (∃ d, d < n ∧ GroupHasKey m h2 key ((g + d) % (m.buckets.length / 16)) ∧
        ∀ e, e < d → GroupNoEmpty m ((g + e) % (m.buckets.length / 16))) →
      ∃ v, at_loop m key h2 (m.buckets.length / 16) n g = some v := by
  intro n
  induction n with
  | zero => intro g _ h; obtain ⟨d, hd, _⟩ := h; omega
  | succ n ih =>
    intro g hg h
    obtain ⟨d, hd, hkey, hne⟩ := h
    have hb := group_bound _ g hw hg
    simp only [at_loop, HASH_SIMD_SIZE]
    split
    · exact ⟨_, rfl⟩
    · rename_i hp
      have hnone := group_probe_none m key g h2 hb hp
      cases d with
      | zero =>
        exfalso
        rw [Nat.add_zero, Nat.mod_eq_of_lt hg] at hkey
        obtain ⟨j, hj, h1, h2'⟩ := hkey
        exact hnone j hj ⟨h1, h2'⟩
      | succ d =>
        have h0 := hne 0 (by omega)
        rw [Nat.add_zero, Nat.mod_eq_of_lt hg] at h0
        have hz := (match_empty_zero m g hb).2 h0
        rw [if_neg (by simpa using hz)]
        apply ih _ (Nat.mod_lt _ hpos)
        refine ⟨d, by omega, ?_, ?_⟩
        · rw [step_mod]; exact hkey
        · intro e he
          rw [step_mod]
          exact hne (e + 1) (by omega)

theorem home_group_lt (hasher : K → Nat) (m : HashMap K V) (key : K)
    (hw : m.buckets.length = (m.buckets.length / 16) * 16) (hpos : 0 < m.buckets.length / 16) :
    home_group hasher m key < m.buckets.length / 16 := by
  simp only [home_group, HASH_SIMD_SIZE]
  have : hasher key % 2 ^ 64 % m.buckets.length < m.buckets.length :=
    Nat.mod_lt _ (by omega)
  omega

theorem at_impl_eq (hasher : K → Nat) (m : HashMap K V) (key : K) :
    at_impl hasher m key = at_loop m key (fingerprint hasher key) (m.buckets.length / 16)
      (m.buckets.length / 16) (home_group hasher m key) := rfl

/-- On a table that satisfies the invariant, a returned value belongs to a live slot
holding the key. -/
theorem at_impl_sound (hasher : K → Nat) (m : HashMap K V) (hI : Inv hasher m) (key : K) (v : V)
    (h : at_impl hasher m key = some v) : Holds m key v := by
  rw [at_impl_eq] at h
  obtain ⟨idx, h1, h2, h3⟩ := at_loop_sound m key _ hI.whole_groups hI.one_group _ _ v
    (home_group_lt hasher m key hI.whole_groups hI.one_group) h
  exact ⟨idx, h1, by rw [h2]; exact is_occupied_occupied_byte _, h3⟩

/-- On a table that satisfies the invariant, the lookup of a key held by a live slot
returns a value. -/
theorem at_impl_complete (hasher : K → Nat) (m : HashMap K V) (hI : Inv hasher m) (key : K)
    (h : HoldsKey m key) : ∃ v, at_impl hasher m key = some v := by
  obtain ⟨i, hi, hocc, hkey⟩ := h
  obtain ⟨d, hd, hgrp, hne⟩ := hI.chain i hi hocc
  rw [hkey] at hgrp hne
  rw [at_impl_eq]
  apply at_loop_complete m key _ hI.whole_groups hI.one_group _ _
    (home_group_lt hasher m key hI.whole_groups hI.one_group)
  refine ⟨d, hd, ?_, hne⟩
  rw [hgrp]
  have hw := hI.whole_groups
  refine ⟨i % 16, Nat.mod_lt _ (by norm_num), ?_, ?_⟩
  · have e : i / 16 * 16 + i % 16 = i := by omega
    rw [e]
    rcases hI.bytes i hi with h1 | h1 | h1
    · rw [is_occupied_iff, h1] at hocc; omega
    · rw [is_occupied_iff, h1] at hocc; omega
    · rw [h1, hkey]
  · have e : i / 16 * 16 + i % 16 = i := by omega
    rw [e]; exact hkey

end

section
variable {K V : Type} [DecidableEq K] [Inhabited K] [Inhabited V]

/-- The probe loop of `insert_impl`, given a group with a free lane within `fuel`
steps: it either reports the key in a group reached through groups without a free
lane, or writes the entry into a free lane of the first group that has one, having
seen the key in no group on the way. -/
theorem insert_loop_spec (m : HashMap K V) (key : K) (value : V) (h2 ins : Nat)
    (hw : m.buckets.length = (m.buckets.length / 16) * 16) (hpos : 0 < m.buckets.length / 16) :
    ∀ (fuel g : Nat), g < m.buckets.length / 16 →
      (∃ d, d < fuel ∧ ¬ GroupNoFree m ((g + d) % (m.buckets.length / 16))) →
      (insert_loop m key value h2 ins (m.buckets.length / 16) fuel g = some (false, m) ∧
        ∃ d, d < fuel ∧ GroupHasKey m h2 key ((g + d) % (m.buckets.length / 16)) ∧
          ∀ e, e < d → GroupNoFree m ((g + e) % (m.buckets.length / 16)))
      ∨ (∃ d j, d < fuel ∧ j < 16 ∧
          (byteAt m ((g + d) % (m.buckets.length / 16) * 16 + j) = 2 ∨
            byteAt m ((g + d) % (m.buckets.length / 16) * 16 + j) = 1) ∧
          insert_loop m key value h2 ins (m.buckets.length / 16) fuel g
            = some (true, place m ((g + d) % (m.buckets.length / 16) * 16 + j) ins key value) ∧
          (∀ e, e < d → GroupNoFree m ((g + e) % (m.buckets.length / 16))) ∧
          (∀ e, e ≤ d → ¬ GroupHasKey m h2 key ((g + e) % (m.buckets.length / 16)))) := by
  intro fuel
  induction fuel with
  | zero => intro g _ h; obtain ⟨d, hd, _⟩ := h; omega
  | succ fuel ih =>
    intro g hg hfree
    have hb := group_bound _ g hw hg
    simp only [insert_loop, HASH_SIMD_SIZE]
    split
    · rename_i idx hp
      left
      refine ⟨rfl, 0, by omega, ?_, by intro e he; omega⟩
      obtain ⟨j, hj, hidx, hbyte, hkey⟩ := group_probe_some m key g h2 idx hb hp
      rw [Nat.add_zero, Nat.mod_eq_of_lt hg]
      exact ⟨j, hj, by rw [← hidx]; exact hbyte, by rw [← hidx]; exact hkey⟩
    · rename_i hp
      have hnone := group_probe_none m key g h2 hb hp
      have hnokey : ¬ GroupHasKey m h2 key g := by
        intro ⟨j, hj, h1, h2'⟩
        exact hnone j hj ⟨h1, h2'⟩
      split
      · rename_i hmask
        obtain ⟨hs, hfr⟩ := free_mask_slot m g hb hmask
        right
        have e0 : (g + 0) % (m.buckets.length / 16) = g := by
          rw [Nat.add_zero, Nat.mod_eq_of_lt hg]
        refine ⟨0, __builtin_ctzll (match_empty (m.buckets.drop (g * 16))
          ||| match_deleted (m.buckets.drop (g * 16))) >>> 2, by omega, hs, ?_, ?_,
          by intro e he; omega, ?_⟩
        · rw [e0]; exact hfr
        · rw [e0]; rfl
        · intro e he
          have : e = 0 := by omega
          subst this
          rw [Nat.add_zero, Nat.mod_eq_of_lt hg]; exact hnokey
      · rename_i hmask
        have hz := free_mask_zero m g hb (by simpa using hmask)
        obtain ⟨d, hd, hdfree⟩ := hfree
        cases d with
        | zero =>
          exfalso
          rw [Nat.add_zero, Nat.mod_eq_of_lt hg] at hdfree
          exact hdfree hz
        | succ d =>
          have hrec := ih ((g + 1) % (m.buckets.length / 16)) (Nat.mod_lt _ hpos)
            ⟨d, by omega, by rw [step_mod]; exact hdfree⟩
          rcases hrec with ⟨hres, d1, hd1, hk1, hnf1⟩ | ⟨d1, j, hd1, hj, hfr, hres, hnf1, hnk1⟩
          · left
            refine ⟨hres, d1 + 1, by omega, by rw [← step_mod g d1]; exact hk1, ?_⟩
            intro e he
            cases e with
            | zero => rw [Nat.add_zero, Nat.mod_eq_of_lt hg]; exact hz
            | succ e => rw [← step_mod g e]; exact hnf1 e (by omega)
          · right
            refine ⟨d1 + 1, j, by omega, hj, ?_, ?_, ?_, ?_⟩
            · rw [← step_mod g d1]; exact hfr
            · rw [← step_mod g d1]; exact hres
            · intro e he
              cases e with
              | zero => rw [Nat.add_zero, Nat.mod_eq_of_lt hg]; exact hz
              | succ e => rw [← step_mod g e]; exact hnf1 e (by omega)
            · intro e he
              cases e with
              | zero => rw [Nat.add_zero, Nat.mod_eq_of_lt hg]; exact hnokey
              | succ e => rw [← step_mod g e]; exact hnk1 e (by omega)

theorem byteAt_place (m : HashMap K V) (idx ins : Nat) (key : K) (value : V) (i : Nat)
    (hidx : idx < m.buckets.length) :
    byteAt (place m idx ins key value) i = if i = idx then ins else byteAt m i := by
  simp only [byteAt, place, List.getD_eq_getElem?_getD, List.getElem?_set]
  by_cases h : idx = i
  · subst h; simp [hidx]
  · rw [if_neg h, if_neg (Ne.symm h)]

theorem cellAt_place (m : HashMap K V) (idx ins : Nat) (key : K) (value : V) (i : Nat)
    (hidx : idx < m.values.length) :
    cellAt (place m idx ins key value) i = if i = idx then (key, value) else cellAt m i := by
  simp only [cellAt, place, List.getD_eq_getElem?_getD, List.getElem?_set]
  by_cases h : idx = i
  · subst h; simp [hidx]
  · rw [if_neg h, if_neg (Ne.symm h)]

theorem length_place (m : HashMap K V) (idx ins : Nat) (key : K) (value : V) :
    (place m idx ins key value).buckets.length = m.buckets.length := by
  simp [place]

theorem home_group_place (hasher : K → Nat) (m : HashMap K V) (idx ins : Nat) (key : K)
    (value : V) (k : K) :
    home_group hasher (place m idx ins key value) k = home_group hasher m k := by
  simp [home_group, place]

theorem GroupNoEmpty_place (m : HashMap K V) (idx h2 : Nat) (key : K) (value : V) (g : Nat)
    (hidx : idx < m.buckets.length) (h : GroupNoEmpty m g) :
    GroupNoEmpty (place m idx (occupied_byte h2) key value) g := by
  intro j hj
  rw [byteAt_place _ _ _ _ _ _ hidx]
  split
  · exact (occupied_byte_ne h2).1
  · exact h j hj

/-- Writing an entry into a free lane of the first group with a free lane on the
probe path of its key keeps the invariant. -/
theorem Inv_place (hasher : K → Nat) (m : HashMap K V) (hI : Inv hasher m) (key : K) (value : V)
    (d j : Nat) (hd : d < m.buckets.length / 16) (hj : j < 16)
    (hnf : ∀ e, e < d →
      GroupNoFree m ((home_group hasher m key + e) % (m.buckets.length / 16))) :
    Inv hasher (place m ((home_group hasher m key + d) % (m.buckets.length / 16) * 16 + j)
      (occupied_byte (fingerprint hasher key)) key value) := by
  have hw := hI.whole_groups
  have hpos := hI.one_group
  have hglt : (home_group hasher m key + d) % (m.buckets.length / 16) < m.buckets.length / 16 :=
    Nat.mod_lt _ hpos
  generalize hgd : (home_group hasher m key + d) % (m.buckets.length / 16) = gd at hglt
  have hidx : gd * 16 + j < m.buckets.length := by omega
  have hidxv : gd * 16 + j < m.values.length := by rw [hI.len_values]; exact hidx
  refine ⟨?_, ?_, ?_, ?_, ?_, ?_⟩
  · simp [place, hI.len_values]
  · rw [length_place]; exact hw
  · rw [length_place]; exact hpos
  · intro i hi
    rw [length_place] at hi
    rw [byteAt_place _ _ _ _ _ _ hidx, cellAt_place _ _ _ _ _ _ hidxv]
    split
    · right; right; rfl
    · exact hI.bytes i hi
  · intro i hi hocc
    rw [length_place] at hi ⊢
    rw [byteAt_place _ _ _ _ _ _ hidx] at hocc
    rw [cellAt_place _ _ _ _ _ _ hidxv]
    simp only [home_group_place]
    split at hocc
    · rename_i heq
      rw [if_pos heq]
      refine ⟨d, hd, ?_, ?_⟩
      · rw [hgd, heq]; omega
      · intro e he
        apply GroupNoEmpty_place _ _ _ _ _ _ hidx
        intro j' hj'
        exact (hnf e he j' hj').1
    · rename_i hne
      rw [if_neg hne]
      obtain ⟨d', hd', hg', hne'⟩ := hI.chain i hi hocc
      exact ⟨d', hd', hg', fun e he => GroupNoEmpty_place _ _ _ _ _ _ hidx (hne' e he)⟩
  · have hc := List.countP_set (fun b => decide (b ≠ 2)) m.buckets (gd * 16 + j)
      (occupied_byte (fingerprint hasher key)) hidx
    have hl := hI.used_le_load
    simp only [place]
    rw [hc]
    split <;> split <;> omega

end

section
variable {K V : Type} [DecidableEq K] [Inhabited K] [Inhabited V]

theorem exists_offset (ng g t : Nat) (hg : g < ng) (ht : t < ng) :
    ∃ d, d < ng ∧ (g + d) % ng = t := by
  by_cases h : g ≤ t
  · refine ⟨t - g, by omega, ?_⟩
    rw [show g + (t - g) = t by omega, Nat.mod_eq_of_lt ht]
  · refine ⟨t + ng - g, by omega, ?_⟩
    rw [show g + (t + ng - g) = t + ng by omega, Nat.add_mod_right, Nat.mod_eq_of_lt ht]

/-- Below the growth threshold some slot is `EMPTY`. -/
theorem exists_empty (hasher : K → Nat) (m : HashMap K V) (hI : Inv hasher m)
    (hload : m.load * 8 ≤ m.buckets.length * 7) :
    ∃ i, i < m.buckets.length ∧ byteAt m i = 2 := by
  have hw := hI.whole_groups
  have hpos := hI.one_group
  have hu := hI.used_le_load
  by_contra hne
  have hall : ∀ b ∈ m.buckets, (fun b => decide (b ≠ 2)) b = true := by
    intro b hb
    obtain ⟨i, hi, rfl⟩ := List.getElem_of_mem hb
    have : byteAt m i ≠ 2 := fun h => hne ⟨i, hi, h⟩
    rw [byteAt, List.getD_eq_getElem _ _ hi] at this
    simpa using this
  have := List.countP_eq_length.2 hall
  omega

theorem group_of_slot (len i : Nat) (hw : len = (len / 16) * 16) (hi : i < len) :
    i / 16 < len / 16 ∧ i / 16 * 16 + i % 16 = i ∧ i % 16 < 16 := by
  omega

/-- The probe loop of `insert_impl` on a table below the growth threshold. -/
theorem insert_core_spec (hasher : K → Nat) (m : HashMap K V) (hI : Inv hasher m)
    (hload : m.load * 8 ≤ m.buckets.length * 7) (key : K) (value : V) (fuel : Nat)
    (hf : m.buckets.length / 16 ≤ fuel) :
    (insert_loop m key value (fingerprint hasher key) (occupied_byte (fingerprint hasher key))
        (m.buckets.length / 16) fuel (home_group hasher m key) = some (false, m) ∧
      HoldsKey m key)
    ∨ (∃ idx, idx < m.buckets.length ∧ (byteAt m idx = 2 ∨ byteAt m idx = 1) ∧
        insert_loop m key value (fingerprint hasher key)
          (occupied_byte (fingerprint hasher key)) (m.buckets.length / 16) fuel
          (home_group hasher m key)
          = some (true, place m idx (occupied_byte (fingerprint hasher key)) key value) ∧
        Inv hasher (place m idx (occupied_byte (fingerprint hasher key)) key value) ∧
        (NoTomb m → ¬ HoldsKey m key)) := by
  have hw := hI.whole_groups
  have hpos := hI.one_group
  have hhome := home_group_lt hasher m key hw hpos
  obtain ⟨i0, hi0, hb0⟩ := exists_empty hasher m hI hload
  obtain ⟨ht0, hsplit0, hmod0⟩ := group_of_slot _ i0 hw hi0
  obtain ⟨d0, hd0, hgd0⟩ := exists_offset _ _ _ hhome ht0
  have hfree0 : ¬ GroupNoFree m ((home_group hasher m key + d0) % (m.buckets.length / 16)) := by
    intro h
    have := (h (i0 % 16) hmod0).1
    rw [hgd0, hsplit0] at this
    exact this hb0
  rcases insert_loop_spec m key value (fingerprint hasher key)
      (occupied_byte (fingerprint hasher key)) hw hpos fuel _ hhome ⟨d0, by omega, hfree0⟩ with
    ⟨hres, d, _, hk, _⟩ | ⟨d, j, _, hj, hfr, hres, hnf, hnk⟩
  · left
    refine ⟨hres, ?_⟩
    obtain ⟨j, hj, h1, h2⟩ := hk
    have hglt : (home_group hasher m key + d) % (m.buckets.length / 16)
        < m.buckets.length / 16 := Nat.mod_lt _ hpos
    exact ⟨_, by omega, by rw [h1]; exact is_occupied_occupied_byte _, h2⟩
  · right
    have hdle : d ≤ d0 := by
      by_contra hlt
      exact hfree0 (hnf d0 (by omega))
    have hglt : (home_group hasher m key + d) % (m.buckets.length / 16)
        < m.buckets.length / 16 := Nat.mod_lt _ hpos
    refine ⟨_, by omega, hfr, hres, Inv_place hasher m hI key value d j (by omega) hj hnf, ?_⟩
    intro hnt ⟨i, hi, hocc, hkey⟩
    obtain ⟨d', hd', hg', hne'⟩ := hI.chain i hi hocc
    rw [hkey] at hg' hne'
    obtain ⟨_, hsplit, hmod⟩ := group_of_slot _ i hw hi
    by_cases hle : d' ≤ d
    · apply hnk d' hle
      rw [hg']
      refine ⟨i % 16, hmod, ?_, by rw [hsplit]; exact hkey⟩
      rw [hsplit]
      rcases hI.bytes i hi with h1 | h1 | h1
      · rw [is_occupied_iff, h1] at hocc; omega
      · rw [is_occupied_iff, h1] at hocc; omega
      · rw [h1, hkey]
    · have hne := hne' d (by omega) j hj
      rcases hfr with h2 | h1
      · exact hne h2
      · exact hnt _ (by omega) h1

/-- The live pairs after an entry is written into a free slot. -/
theorem Holds_place (m : HashMap K V) (idx h2 : Nat) (key : K) (value : V)
    (hlv : m.values.length = m.buckets.length) (hidx : idx < m.buckets.length)
    (hfree : byteAt m idx = 2 ∨ byteAt m idx = 1) (k : K) (v : V) :
    Holds (place m idx (occupied_byte h2) key value) k v ↔
      Holds m k v ∨ (k = key ∧ v = value) := by
  have hidxv : idx < m.values.length := by omega
  have hnocc : ¬ is_occupied (byteAt m idx) := by
    rw [is_occupied_iff]; omega
  constructor
  · intro ⟨i, hi, hocc, hcell⟩
    rw [length_place] at hi
    rw [byteAt_place _ _ _ _ _ _ hidx] at hocc
    rw [cellAt_place _ _ _ _ _ _ hidxv] at hcell
    by_cases h : i = idx
    · rw [if_pos h] at hcell
      right
      simp only [Prod.mk.injEq] at hcell
      exact ⟨hcell.1.symm, hcell.2.symm⟩
    · rw [if_neg h] at hcell hocc
      exact Or.inl ⟨i, hi, hocc, hcell⟩
  · intro h
    rcases h with ⟨i, hi, hocc, hcell⟩ | ⟨hk, hv⟩
    · have hne : i ≠ idx := by
        intro h; rw [h] at hocc; exact hnocc hocc
      refine ⟨i, by rw [length_place]; exact hi, ?_, ?_⟩
      · rw [byteAt_place _ _ _ _ _ _ hidx, if_neg hne]; exact hocc
      · rw [cellAt_place _ _ _ _ _ _ hidxv, if_neg hne]; exact hcell
    · refine ⟨idx, by rw [length_place]; exact hidx, ?_, ?_⟩
      · rw [byteAt_place _ _ _ _ _ _ hidx, if_pos rfl]; exact is_occupied_occupied_byte _
      · rw [cellAt_place _ _ _ _ _ _ hidxv, if_pos rfl, hk, hv]

theorem HoldsKey_iff (m : HashMap K V) (k : K) : HoldsKey m k ↔ ∃ v, Holds m k v := by
  constructor
  · intro ⟨i, hi, hocc, hkey⟩
    exact ⟨(cellAt m i).2, i, hi, hocc, by rw [← hkey]⟩
  · intro ⟨v, i, hi, hocc, hcell⟩
    exact ⟨i, hi, hocc, by rw [hcell]⟩

theorem HoldsKey_place (m : HashMap K V) (idx h2 : Nat) (key : K) (value : V)
    (hlv : m.values.length = m.buckets.length) (hidx : idx < m.buckets.length)
    (hfree : byteAt m idx = 2 ∨ byteAt m idx = 1) (k : K) :
    HoldsKey (place m idx (occupied_byte h2) key value) k ↔ HoldsKey m k ∨ k = key := by
  simp only [HoldsKey_iff, Holds_place m idx h2 key value hlv hidx hfree]
  constructor
  · rintro ⟨v, h | ⟨h, _⟩⟩
    · exact Or.inl ⟨v, h⟩
    · exact Or.inr h
  · rintro (⟨v, h⟩ | h)
    · exact ⟨v, Or.inl h⟩
    · exact ⟨value, Or.inr ⟨h, rfl⟩⟩

theorem NoTomb_place (m : HashMap K V) (idx h2 : Nat) (key : K) (value : V)
    (hidx : idx < m.buckets.length) (h : NoTomb m) :
    NoTomb (place m idx (occupied_byte h2) key value) := by
  intro i hi
  rw [length_place] at hi
  rw [byteAt_place _ _ _ _ _ _ hidx]
  split
  · exact (occupied_byte_ne h2).2
  · exact h i hi

theorem Distinct_place (m : HashMap K V) (idx h2 : Nat) (key : K) (value : V)
    (hlv : m.values.length = m.buckets.length) (hidx : idx < m.buckets.length)
    (hnew : ¬ HoldsKey m key) (h : Distinct m) :
    Distinct (place m idx (occupied_byte h2) key value) := by
  have hidxv : idx < m.values.length := by omega
  intro i j hi hj hoi hoj hk
  rw [length_place] at hi hj
  rw [byteAt_place _ _ _ _ _ _ hidx] at hoi hoj
  rw [cellAt_place _ _ _ _ _ _ hidxv, cellAt_place _ _ _ _ _ _ hidxv] at hk
  by_cases h1 : i = idx <;> by_cases h2' : j = idx
  · omega
  · rw [if_pos h1, if_neg h2'] at hk
    rw [if_neg h2'] at hoj
    exact absurd ⟨j, hj, hoj, hk.symm⟩ hnew
  · rw [if_neg h1, if_pos h2'] at hk
    rw [if_neg h1] at hoi
    exact absurd ⟨i, hi, hoi, hk⟩ hnew
  · rw [if_neg h1, if_neg h2'] at hk
    rw [if_neg h1] at hoi
    rw [if_neg h2'] at hoj
    exact h i j hi hj hoi hoj hk

end

section
variable {K V : Type} [DecidableEq K] [Inhabited K] [Inhabited V]

/-- The erase loop leaves the table as it is and reports `false`, or turns one live
slot that holds the key into a tombstone and reports `true`. -/
theorem delete_loop_spec (m : HashMap K V) (key : K) (h2 : Nat)
    (hw : m.buckets.length = (m.buckets.length / 16) * 16) (hpos : 0 < m.buckets.length / 16) :
    ∀ (n g : Nat), g < m.buckets.length / 16 →
      delete_loop m key h2 (m.buckets.length / 16) n g = (false, m) ∨
      ∃ idx, idx < m.buckets.length ∧ byteAt m idx = occupied_byte h2 ∧
        (cellAt m idx).1 = key ∧
        delete_loop m key h2 (m.buckets.length / 16) n g = (true, erased m idx) := by
  intro n
  induction n with
  | zero => intro g _; left; rfl
  | succ n ih =>
    intro g hg
    have hb := group_bound _ g hw hg
    simp only [delete_loop, HASH_SIMD_SIZE]
    split
    · left; rfl
    · split
      · rename_i idx hp
        obtain ⟨j, hj, hidx, hbyte, hkey⟩ := group_probe_some m key g h2 idx hb hp
        right
        exact ⟨idx, by omega, hbyte, hkey, rfl⟩
      · split
        · left; rfl
        · exact ih _ (Nat.mod_lt _ hpos)

theorem delete_impl_eq (hasher : K → Nat) (m : HashMap K V) (key : K) :
    delete_impl hasher m key = delete_loop m key (fingerprint hasher key)
      (m.buckets.length / 16) (m.buckets.length / 16) (home_group hasher m key) := rfl

theorem byteAt_erased (m : HashMap K V) (idx i : Nat) (hidx : idx < m.buckets.length) :
    byteAt (erased m idx) i = if i = idx then 1 else byteAt m i := by
  simp only [byteAt, erased, deleted_mask, List.getD_eq_getElem?_getD, List.getElem?_set]
  by_cases h : idx = i
  · subst h; simp [hidx]
  · rw [if_neg h, if_neg (Ne.symm h)]

theorem cellAt_erased (m : HashMap K V) (idx i : Nat) :
    cellAt (erased m idx) i = cellAt m i := rfl

theorem length_erased (m : HashMap K V) (idx : Nat) :
    (erased m idx).buckets.length = m.buckets.length := by
  simp [erased]

/-- Turning a live slot into a tombstone keeps the invariant. -/
theorem Inv_erased (hasher : K → Nat) (m : HashMap K V) (hI : Inv hasher m) (idx : Nat)
    (hidx : idx < m.buckets.length) (hocc : is_occupied (byteAt m idx)) :
    Inv hasher (erased m idx) := by
  have hne : ∀ g, GroupNoEmpty m g → GroupNoEmpty (erased m idx) g := by
    intro g h j hj
    rw [byteAt_erased _ _ _ hidx]
    split
    · omega
    · exact h j hj
  refine ⟨?_, ?_, ?_, ?_, ?_, ?_⟩
  · simp [erased, hI.len_values]
  · rw [length_erased]; exact hI.whole_groups
  · rw [length_erased]; exact hI.one_group
  · intro i hi
    rw [length_erased] at hi
    rw [byteAt_erased _ _ _ hidx, cellAt_erased]
    split
    · left; rfl
    · exact hI.bytes i hi
  · intro i hi ho
    rw [length_erased] at hi ⊢
    rw [byteAt_erased _ _ _ hidx] at ho
    rw [cellAt_erased]
    have hh : home_group hasher (erased m idx) (cellAt m i).1
        = home_group hasher m (cellAt m i).1 := by
      simp [home_group, erased]
    rw [hh]
    split at ho
    · rw [is_occupied_iff] at ho; omega
    · obtain ⟨d, hd, hg, hn⟩ := hI.chain i hi ho
      exact ⟨d, hd, hg, fun e he => hne _ (hn e he)⟩
  · have hc := List.countP_set (fun b => decide (b ≠ 2)) m.buckets idx 1 hidx
    have hl := hI.used_le_load
    have hle := List.boole_getElem_le_countP (fun b => decide (b ≠ 2)) m.buckets idx hidx
    have hb : m.buckets[idx] ≠ 2 := by
      have : byteAt m idx = m.buckets[idx] := by
        rw [byteAt, List.getD_eq_getElem _ _ hidx]
      rw [this, is_occupied_iff] at hocc
      omega
    have hp1 : (fun b => decide (b ≠ 2)) m.buckets[idx] = true := by simpa using hb
    have hp2 : (fun b => decide (b ≠ 2)) 1 = true := by decide
    simp only [erased, deleted_mask]
    rw [hc, if_pos hp1, if_pos hp2]
    rw [if_pos hp1] at hle
    omega

/-- An `erase` call keeps the invariant. -/
theorem Inv_delete_impl (hasher : K → Nat) (m : HashMap K V) (hI : Inv hasher m) (key : K) :
    Inv hasher (delete_impl hasher m key).2 := by
  rw [delete_impl_eq]
  rcases delete_loop_spec m key (fingerprint hasher key) hI.whole_groups hI.one_group
      (m.buckets.length / 16) _ (home_group_lt hasher m key hI.whole_groups hI.one_group) with
    h | ⟨idx, hidx, hb, _, h⟩
  · rw [h]; exact hI
  · rw [h]
    exact Inv_erased hasher m hI idx hidx (by rw [hb]; exact is_occupied_occupied_byte _)

theorem insert_impl_succ (hasher : K → Nat) (fuel : Nat) (m : HashMap K V) (key : K)
    (value : V) :
    insert_impl hasher (fuel + 1) m key value =
      match rehash_if_needed (insert_impl hasher fuel) m with
      | none => none
      | some m1 =>
        insert_loop m1 key value (fingerprint hasher key)
          (occupied_byte (fingerprint hasher key)) (m1.buckets.length / 16) (fuel + 1)
          (home_group hasher m1 key) := rfl

theorem rehash_if_needed_idle (ins : HashMap K V → K → V → Option (Bool × HashMap K V))
    (m : HashMap K V) (h : m.load * 8 ≤ m.buckets.length * 7) :
    rehash_if_needed ins m = some m := by
  simp only [rehash_if_needed]
  rw [if_neg (by omega)]

theorem rehash_if_needed_grow (ins : HashMap K V → K → V → Option (Bool × HashMap K V))
    (m : HashMap K V) (h : m.load * 8 > m.buckets.length * 7) :
    rehash_if_needed ins m
      = reinsert_all ins (m.buckets.zip m.values) (grown m.buckets.length) := by
  simp only [rehash_if_needed]
  rw [if_pos h]
  rfl

/-- Below the growth threshold `insert_impl` is its probe loop. -/
theorem insert_impl_idle (hasher : K → Nat) (fuel : Nat) (m : HashMap K V) (key : K)
    (value : V) (h : m.load * 8 ≤ m.buckets.length * 7) :
    insert_impl hasher (fuel + 1) m key value =
      insert_loop m key value (fingerprint hasher key)
        (occupied_byte (fingerprint hasher key)) (m.buckets.length / 16) (fuel + 1)
        (home_group hasher m key) := by
  rw [insert_impl_succ, rehash_if_needed_idle _ _ h]

end

section
variable {K V : Type} [DecidableEq K] [Inhabited K] [Inhabited V]

/-- The re-insertion loop of growth, run on a table with room for all the entries:
it returns, keeps the invariant and the capacity, adds at most one to the load per
entry, and stores only keys of live entries.  Over a tombstone-free table with
distinct keys, fed distinct new keys, it stores exactly the live entries. -/
theorem reinsert_all_spec (hasher : K → Nat) (fuel : Nat) (hfuel : 0 < fuel) :
    ∀ (entries : List (Nat × (K × V))) (acc : HashMap K V), Inv hasher acc →
      (acc.load + entries.length) * 8 ≤ acc.buckets.length * 7 →
      acc.buckets.length / 16 ≤ fuel →
      ∃ m1, reinsert_all (insert_impl hasher fuel) entries acc = some m1 ∧ Inv hasher m1 ∧
        m1.buckets.length = acc.buckets.length ∧ m1.load ≤ acc.load + entries.length ∧
        (∀ k, HoldsKey m1 k → HoldsKey acc k ∨ ∃ e ∈ entries, is_occupied e.1 ∧ e.2.1 = k) ∧
        (NoTomb acc → Distinct acc →
          entries.Pairwise (fun a b => is_occupied a.1 → is_occupied b.1 → a.2.1 ≠ b.2.1) →
          (∀ e ∈ entries, is_occupied e.1 → ¬ HoldsKey acc e.2.1) →
          NoTomb m1 ∧ Distinct m1 ∧
            ∀ k v, Holds m1 k v ↔
              Holds acc k v ∨ ∃ e ∈ entries, is_occupied e.1 ∧ e.2 = (k, v)) := by
  obtain ⟨f, rfl⟩ : ∃ f, fuel = f + 1 := ⟨fuel - 1, by omega⟩
  intro entries
  induction entries with
  | nil =>
    intro acc hI _ _
    refine ⟨acc, rfl, hI, rfl, by omega, fun k h => Or.inl h, ?_⟩
    intro hnt hd _ _
    exact ⟨hnt, hd, fun k v => by simp⟩
  | cons e rest ih =>
    intro acc hI hload hf
    obtain ⟨b, kv⟩ := e
    simp only [List.length_cons] at hload
    by_cases hocc : is_occupied b
    · have hocc' : b &&& occupied_mask = occupied_mask := hocc
      simp only [reinsert_all, if_pos hocc']
      rw [insert_impl_idle hasher f acc kv.1 kv.2 (by omega)]
      rcases insert_core_spec hasher acc hI (by omega) kv.1 kv.2 (f + 1) hf with
        ⟨hres, hheld⟩ | ⟨idx, hidx, hfree, hres, hI', hfresh⟩
      · rw [hres]
        obtain ⟨m1, h1, h2, h3, h4, h5, h6⟩ := ih acc hI (by omega) hf
        refine ⟨m1, h1, h2, h3, by simp only [List.length_cons]; omega, ?_, ?_⟩
        · intro k hk
          rcases h5 k hk with h | ⟨e, he, h⟩
          · exact Or.inl h
          · exact Or.inr ⟨e, List.mem_cons_of_mem _ he, h⟩
        · intro _ _ _ hnew
          exact absurd hheld (hnew (b, kv) (List.mem_cons_self _ _) hocc)
      · rw [hres]
        have hlen := length_place acc idx (occupied_byte (fingerprint hasher kv.1)) kv.1 kv.2
        obtain ⟨m1, h1, h2, h3, h4, h5, h6⟩ := ih _ hI'
          (by rw [hlen]; simp only [place]; omega) (by rw [hlen]; exact hf)
        refine ⟨m1, h1, h2, by rw [h3, hlen],
          by simp only [place] at h4; simp only [List.length_cons]; omega, ?_, ?_⟩
        · intro k hk
          rcases h5 k hk with h | ⟨e, he, h⟩
          · rcases (HoldsKey_place acc idx _ kv.1 kv.2 hI.len_values hidx hfree k).1 h with
              h | h
            · exact Or.inl h
            · exact Or.inr ⟨(b, kv), List.mem_cons_self _ _, hocc, h.symm⟩
          · exact Or.inr ⟨e, List.mem_cons_of_mem _ he, h⟩
        · intro hnt hd hpw hnew
          rw [List.pairwise_cons] at hpw
          have hnk : ¬ HoldsKey acc kv.1 := hnew (b, kv) (List.mem_cons_self _ _) hocc
          obtain ⟨g1, g2, g3⟩ := h6 (NoTomb_place acc idx _ kv.1 kv.2 hidx hnt)
            (Distinct_place acc idx _ kv.1 kv.2 hI.len_values hidx hnk hd) hpw.2
            (by
              intro e he heo hh
              rcases (HoldsKey_place acc idx _ kv.1 kv.2 hI.len_values hidx hfree _).1 hh with
                h | h
              · exact hnew e (List.mem_cons_of_mem _ he) heo h
              · exact hpw.1 e he hocc heo h.symm)
          refine ⟨g1, g2, ?_⟩
          intro k v
          rw [g3 k v, Holds_place acc idx _ kv.1 kv.2 hI.len_values hidx hfree]
          constructor
          · rintro ((h | ⟨hk, hv⟩) | ⟨e, he, h⟩)
            · exact Or.inl h
            · exact Or.inr ⟨(b, kv), List.mem_cons_self _ _, hocc, by rw [hk, hv]⟩
            · exact Or.inr ⟨e, List.mem_cons_of_mem _ he, h⟩
          · rintro (h | ⟨e, he, heo, hev⟩)
            · exact Or.inl (Or.inl h)
            · rcases List.mem_cons.1 he with rfl | he
              · left; right
                simp only at hev
                rw [hev]
                exact ⟨rfl, rfl⟩
              · exact Or.inr ⟨e, he, heo, hev⟩
    · have hocc' : ¬ (b &&& occupied_mask = occupied_mask) := hocc
      simp only [reinsert_all, if_neg hocc']
      obtain ⟨m1, h1, h2, h3, h4, h5, h6⟩ := ih acc hI (by omega) hf
      refine ⟨m1, h1, h2, h3, by simp only [List.length_cons]; omega, ?_, ?_⟩
      · intro k hk
        rcases h5 k hk with h | ⟨e, he, h⟩
        · exact Or.inl h
        · exact Or.inr ⟨e, List.mem_cons_of_mem _ he, h⟩
      · intro hnt hd hpw hnew
        rw [List.pairwise_cons] at hpw
        obtain ⟨g1, g2, g3⟩ := h6 hnt hd hpw.2
          (fun e he => hnew e (List.mem_cons_of_mem _ he))
        refine ⟨g1, g2, ?_⟩
        intro k v
        rw [g3 k v]
        constructor
        · rintro (h | ⟨e, he, h⟩)
          · exact Or.inl h
          · exact Or.inr ⟨e, List.mem_cons_of_mem _ he, h⟩
        · rintro (h | ⟨e, he, heo, hev⟩)
          · exact Or.inl h
          · rcases List.mem_cons.1 he with rfl | he
            · exact absurd heo hocc
            · exact Or.inr ⟨e, he, heo, hev⟩

end

section
variable {K V : Type} [DecidableEq K] [Inhabited K] [Inhabited V]

theorem grown_length (len : Nat) (hw : len = (len / 16) * 16) :
    (grown len : HashMap K V).buckets.length = 2 * len := by
  simp only [grown, HASH_SIMD_SIZE, List.length_replicate]
  omega

theorem byteAt_grown (len i : Nat) (hi : i < (grown len : HashMap K V).buckets.length) :
    byteAt (grown len : HashMap K V) i = 2 := by
  simp only [grown, List.length_replicate] at hi
  simp only [byteAt, grown, List.getD_eq_getElem?_getD, List.getElem?_replicate, if_pos hi,
    empty_mask]
  rfl

theorem not_HoldsKey_grown (len : Nat) (k : K) : ¬ HoldsKey (grown len : HashMap K V) k := by
  intro ⟨i, hi, hocc, _⟩
  rw [byteAt_grown len i hi, is_occupied_iff] at hocc
  omega

/-- The fresh arrays of growth satisfy the invariant. -/
theorem Inv_grown (hasher : K → Nat) (len : Nat) (hw : len = (len / 16) * 16)
    (hpos : 0 < len / 16) : Inv hasher (grown len : HashMap K V) := by
  have hlen := grown_length (K := K) (V := V) len hw
  refine ⟨?_, ?_, ?_, ?_, ?_, ?_⟩
  · simp [grown]
  · rw [hlen]; omega
  · rw [hlen]; omega
  · intro i hi
    right; left
    exact byteAt_grown len i hi
  · intro i hi hocc
    rw [byteAt_grown len i hi, is_occupied_iff] at hocc
    omega
  · have : (grown len : HashMap K V).buckets.countP (fun b => decide (b ≠ 2)) = 0 := by
      rw [List.countP_eq_zero]
      intro a ha
      simp only [grown] at ha
      have := List.eq_of_mem_replicate ha
      simp [this, empty_mask]
    rw [this]
    exact Nat.zero_le _

theorem mem_zip_iff (m : HashMap K V) (hlv : m.values.length = m.buckets.length)
    (e : Nat × (K × V)) :
    e ∈ m.buckets.zip m.values ↔ ∃ i, i < m.buckets.length ∧ e = (byteAt m i, cellAt m i) := by
  rw [List.mem_iff_getElem]
  constructor
  · rintro ⟨i, hi, rfl⟩
    have hi' : i < m.buckets.length := by
      simp only [List.length_zip] at hi; omega
    have hiv : i < m.values.length := by omega
    refine ⟨i, hi', ?_⟩
    rw [List.getElem_zip, byteAt, cellAt, List.getD_eq_getElem _ _ hi',
      List.getD_eq_getElem _ _ hiv]
  · rintro ⟨i, hi, rfl⟩
    have hiv : i < m.values.length := by omega
    have hz : i < (m.buckets.zip m.values).length := by
      simp only [List.length_zip]; omega
    refine ⟨i, hz, ?_⟩
    rw [List.getElem_zip, byteAt, cellAt, List.getD_eq_getElem _ _ hi,
      List.getD_eq_getElem _ _ hiv]

theorem zip_pairwise (m : HashMap K V) (hlv : m.values.length = m.buckets.length)
    (hd : Distinct m) :
    (m.buckets.zip m.values).Pairwise
      (fun a b => is_occupied a.1 → is_occupied b.1 → a.2.1 ≠ b.2.1) := by
  rw [List.pairwise_iff_getElem]
  intro i j hi hj hij hoi hoj heq
  have hi' : i < m.buckets.length := by
    simp only [List.length_zip] at hi; omega
  have hj' : j < m.buckets.length := by
    simp only [List.length_zip] at hj; omega
  have hiv : i < m.values.length := by omega
  have hjv : j < m.values.length := by omega
  simp only [List.getElem_zip] at hoi hoj heq
  have := hd i j hi' hj'
    (by rw [byteAt, List.getD_eq_getElem _ _ hi']; exact hoi)
    (by rw [byteAt, List.getD_eq_getElem _ _ hj']; exact hoj)
    (by rw [cellAt, cellAt, List.getD_eq_getElem _ _ hiv, List.getD_eq_getElem _ _ hjv]
        exact heq)
  omega

/-- The growth check of `insert_impl`: it returns a table below the growth threshold
that satisfies the invariant, of the same or of twice the capacity, holding only keys
that were live; over a tombstone-free table with distinct keys the live pairs are
exactly kept. -/
theorem rehash_spec (hasher : K → Nat) (fuel : Nat) (hfuel : 0 < fuel) (m : HashMap K V)
    (hI : Inv hasher m) (hf : m.buckets.length / 8 ≤ fuel) :
    ∃ m1, rehash_if_needed (insert_impl hasher fuel) m = some m1 ∧ Inv hasher m1 ∧
      m1.load * 8 ≤ m1.buckets.length * 7 ∧
      (m1 = m ∨ (m.load * 8 > m.buckets.length * 7 ∧
        m1.buckets.length = 2 * m.buckets.length)) ∧
      (∀ k, HoldsKey m1 k → HoldsKey m k) ∧
      (NoTomb m → Distinct m →
        NoTomb m1 ∧ Distinct m1 ∧ ∀ k v, Holds m1 k v ↔ Holds m k v) := by
  have hw := hI.whole_groups
  have hpos := hI.one_group
  by_cases hgrow : m.load * 8 > m.buckets.length * 7
  · rw [rehash_if_needed_grow _ _ hgrow]
    have hlen := grown_length (K := K) (V := V) m.buckets.length hw
    have hzl : (m.buckets.zip m.values).length = m.buckets.length := by
      simp only [List.length_zip, hI.len_values]; omega
    have hg0 : (grown m.buckets.length : HashMap K V).load = 0 := rfl
    obtain ⟨m1, h1, h2, h3, h4, h5, h6⟩ := reinsert_all_spec hasher fuel hfuel
      (m.buckets.zip m.values) (grown m.buckets.length)
      (Inv_grown hasher _ hw hpos) (by rw [hlen, hzl, hg0]; omega) (by rw [hlen]; omega)
    have hheld : ∀ k v, (∃ e ∈ m.buckets.zip m.values, is_occupied e.1 ∧ e.2 = (k, v))
        ↔ Holds m k v := by
      intro k v
      constructor
      · rintro ⟨e, he, heo, hev⟩
        obtain ⟨i, hi, rfl⟩ := (mem_zip_iff m hI.len_values e).1 he
        exact ⟨i, hi, heo, hev⟩
      · rintro ⟨i, hi, hocc, hcell⟩
        exact ⟨_, (mem_zip_iff m hI.len_values _).2 ⟨i, hi, rfl⟩, hocc, hcell⟩
    refine ⟨m1, h1, h2, by rw [h3, hlen]; rw [hzl, hg0] at h4; omega,
      Or.inr ⟨hgrow, by rw [h3, hlen]⟩, ?_, ?_⟩
    · intro k hk
      rcases h5 k hk with h | ⟨e, he, heo, hek⟩
      · exact absurd h (not_HoldsKey_grown _ k)
      · obtain ⟨i, hi, rfl⟩ := (mem_zip_iff m hI.len_values e).1 he
        exact ⟨i, hi, heo, hek⟩
    · intro hnt hd
      obtain ⟨g1, g2, g3⟩ := h6
        (fun i hi => by rw [byteAt_grown _ i hi]; omega)
        (fun i j hi _ hoi _ _ => by
          rw [byteAt_grown _ i hi, is_occupied_iff] at hoi; omega)
        (zip_pairwise m hI.len_values hd)
        (fun e _ _ => not_HoldsKey_grown _ _)
      refine ⟨g1, g2, ?_⟩
      intro k v
      rw [g3 k v, hheld k v]
      constructor
      · rintro (h | h)
        · exact absurd ((HoldsKey_iff _ k).2 ⟨v, h⟩) (not_HoldsKey_grown _ k)
        · exact h
      · exact Or.inr
  · rw [rehash_if_needed_idle _ _ (by omega)]
    exact ⟨m, rfl, hI, by omega, Or.inl rfl, fun k h => h, fun hnt hd => ⟨hnt, hd, fun k v => Iff.rfl⟩⟩

/-- The full `insert_impl` on a table that satisfies the invariant, with fuel above
an eighth of the capacity. -/
theorem insert_impl_spec (hasher : K → Nat) (m : HashMap K V) (hI : Inv hasher m) (key : K)
    (value : V) (fuel : Nat) (hf : m.buckets.length / 8 < fuel) :
    ∃ b m2, insert_impl hasher fuel m key value = some (b, m2) ∧ Inv hasher m2 ∧
      (if m.load * 8 > m.buckets.length * 7 then m2.buckets.length = 2 * m.buckets.length
        else m2.buckets.length = m.buckets.length) ∧
      (¬ HoldsKey m key → b = true) ∧
      (b = true → Holds m2 key value ∧
        ∀ k v, Holds m2 k v → HoldsKey m k ∨ (k = key ∧ v = value)) ∧
      (NoTomb m → Distinct m →
        NoTomb m2 ∧ Distinct m2 ∧ (HoldsKey m key → b = false) ∧
          ∀ k v, Holds m2 k v ↔ Holds m k v ∨ (b = true ∧ k = key ∧ v = value)) := by
  have hw := hI.whole_groups
  have hpos := hI.one_group
  obtain ⟨f, rfl⟩ : ∃ f, fuel = f + 1 := ⟨fuel - 1, by omega⟩
  obtain ⟨m1, h1, hI1, hload1, hcap, hkeys, hnt1⟩ :=
    rehash_spec hasher f (by omega) m hI (by omega)
  have hf1 : m1.buckets.length / 16 ≤ f + 1 := by
    rcases hcap with rfl | ⟨_, h⟩
    · omega
    · rw [h]; omega
  have hcap1 : if m.load * 8 > m.buckets.length * 7
      then m1.buckets.length = 2 * m.buckets.length
      else m1.buckets.length = m.buckets.length := by
    rcases hcap with rfl | ⟨hg, h⟩
    · rw [if_neg (by omega)]
    · rw [if_pos hg]; exact h
  rw [insert_impl_succ, h1]
  simp only
  rcases insert_core_spec hasher m1 hI1 hload1 key value (f + 1) hf1 with
    ⟨hres, hheld⟩ | ⟨idx, hidx, hfree, hres, hI2, hfresh⟩
  · refine ⟨false, m1, hres, hI1, hcap1, ?_, ?_, ?_⟩
    · intro hn; exact absurd (hkeys key hheld) hn
    · intro h; cases h
    · intro hnt hd
      obtain ⟨g1, g2, g3⟩ := hnt1 hnt hd
      refine ⟨g1, g2, fun _ => rfl, ?_⟩
      intro k v
      rw [g3 k v]
      simp
  · refine ⟨true, _, hres, hI2, by rw [length_place]; exact hcap1, fun _ => rfl, ?_, ?_⟩
    · intro _
      refine ⟨(Holds_place m1 idx _ key value hI1.len_values hidx hfree key value).2
        (Or.inr ⟨rfl, rfl⟩), ?_⟩
      intro k v hh
      rcases (Holds_place m1 idx _ key value hI1.len_values hidx hfree k v).1 hh with h | h
      · exact Or.inl (hkeys k ((HoldsKey_iff _ k).2 ⟨v, h⟩))
      · exact Or.inr h
    · intro hnt hd
      obtain ⟨g1, g2, g3⟩ := hnt1 hnt hd
      have hnk : ¬ HoldsKey m1 key := hfresh g1
      refine ⟨NoTomb_place m1 idx _ key value hidx g1,
        Distinct_place m1 idx _ key value hI1.len_values hidx hnk g2, ?_, ?_⟩
      · intro hk
        exfalso
        obtain ⟨v, hv⟩ := (HoldsKey_iff _ key).1 hk
        exact hnk ((HoldsKey_iff _ key).2 ⟨v, (g3 key v).2 hv⟩)
      · intro k v
        rw [Holds_place m1 idx _ key value hI1.len_values hidx hfree, g3 k v]
        simp

end

section
variable {K V : Type} [DecidableEq K] [Inhabited K] [Inhabited V]

/-- More fuel does not change a result of the probe loop. -/
theorem insert_loop_mono (m : HashMap K V) (key : K) (value : V) (h2 ins ng : Nat) :
    ∀ (fuel g : Nat) (r : Bool × HashMap K V),
      insert_loop m key value h2 ins ng fuel g = some r →
      insert_loop m key value h2 ins ng (fuel + 1) g = some r := by
  intro fuel
  induction fuel with
  | zero => intro g r h; simp [insert_loop] at h
  | succ n ih =>
    intro g r h
    rw [insert_loop] at h ⊢
    simp only at h ⊢
    split
    · rename_i heq
      rw [heq] at h
      exact h
    · rename_i heq
      rw [heq] at h
      simp only at h
      split
      · rename_i hm
        rw [if_pos hm] at h
        exact h
      · rename_i hm
        rw [if_neg hm] at h
        exact ih _ r h

theorem reinsert_all_mono (ins ins2 : HashMap K V → K → V → Option (Bool × HashMap K V))
    (hle : ∀ m k v r, ins m k v = some r → ins2 m k v = some r) :
    ∀ (entries : List (Nat × (K × V))) (acc r : HashMap K V),
      reinsert_all ins entries acc = some r → reinsert_all ins2 entries acc = some r := by
  intro entries
  induction entries with
  | nil => intro acc r h; exact h
  | cons e rest ih =>
    intro acc r h
    obtain ⟨b, kv⟩ := e
    simp only [reinsert_all] at h ⊢
    split
    · rename_i hocc
      rw [if_pos hocc] at h
      cases hi : ins acc kv.1 kv.2 with
      | none => rw [hi] at h; simp at h
      | some r1 =>
        rw [hi] at h
        rw [hle _ _ _ _ hi]
        exact ih _ _ h
    · rename_i hocc
      rw [if_neg hocc] at h
      exact ih _ _ h

theorem rehash_if_needed_mono (ins ins2 : HashMap K V → K → V → Option (Bool × HashMap K V))
    (hle : ∀ m k v r, ins m k v = some r → ins2 m k v = some r) (m r : HashMap K V)
    (h : rehash_if_needed ins m = some r) : rehash_if_needed ins2 m = some r := by
  simp only [rehash_if_needed] at h ⊢
  split
  · rename_i hg
    rw [if_pos hg] at h
    exact reinsert_all_mono ins ins2 hle _ _ _ h
  · rename_i hg
    rw [if_neg hg] at h
    exact h

/-- More fuel does not change a result of `insert_impl`. -/
theorem insert_impl_mono (hasher : K → Nat) :
    ∀ (fuel : Nat) (m : HashMap K V) (key : K) (value : V) (r : Bool × HashMap K V),
      insert_impl hasher fuel m key value = some r →
      insert_impl hasher (fuel + 1) m key value = some r := by
  intro fuel
  induction fuel with
  | zero => intro m key value r h; simp [insert_impl] at h
  | succ n ih =>
    intro m key value r h
    rw [insert_impl_succ] at h ⊢
    cases hr : rehash_if_needed (insert_impl hasher n) m with
    | none => rw [hr] at h; simp at h
    | some m1 =>
      rw [hr] at h
      rw [rehash_if_needed_mono _ _ (fun m k v r => ih m k v r) _ _ hr]
      exact insert_loop_mono _ _ _ _ _ _ _ _ _ h

theorem insert_impl_mono_le (hasher : K → Nat) (fuel fuel2 : Nat) (hle : fuel ≤ fuel2)
    (m : HashMap K V) (key : K) (value : V) (r : Bool × HashMap K V)
    (h : insert_impl hasher fuel m key value = some r) :
    insert_impl hasher fuel2 m key value = some r := by
  induction hle with
  | refl => exact h
  | step _ ih => exact insert_impl_mono hasher _ _ _ _ _ ih

theorem new_eq_grown : (HashMap.new : HashMap K V) = grown 32 := rfl

/-- The fresh table satisfies the invariant. -/
theorem Inv_new (hasher : K → Nat) : Inv hasher (HashMap.new : HashMap K V) := by
  rw [new_eq_grown]
  exact Inv_grown hasher 32 (by norm_num) (by norm_num)

/-- What `insert_impl_spec` says of the result holds of any result of `insert_impl`,
whatever the fuel it was computed with. -/
theorem insert_impl_result (hasher : K → Nat) (m : HashMap K V) (hI : Inv hasher m) (key : K)
    (value : V) (fuel : Nat) (b : Bool) (m2 : HashMap K V)
    (h : insert_impl hasher fuel m key value = some (b, m2)) :
    Inv hasher m2 ∧
      (if m.load * 8 > m.buckets.length * 7 then m2.buckets.length = 2 * m.buckets.length
        else m2.buckets.length = m.buckets.length) ∧
      (¬ HoldsKey m key → b = true) ∧
      (b = true → Holds m2 key value ∧
        ∀ k v, Holds m2 k v → HoldsKey m k ∨ (k = key ∧ v = value)) ∧
      (NoTomb m → Distinct m →
        NoTomb m2 ∧ Distinct m2 ∧ (HoldsKey m key → b = false) ∧
          ∀ k v, Holds m2 k v ↔ Holds m k v ∨ (b = true ∧ k = key ∧ v = value)) := by
  obtain ⟨b', m2', h2, hrest⟩ := insert_impl_spec hasher m hI key value
    (fuel + (m.buckets.length / 8 + 1)) (by omega)
  have := insert_impl_mono_le hasher fuel (fuel + (m.buckets.length / 8 + 1)) (by omega)
    m key value _ h
  rw [h2] at this
  simp only [Option.some.injEq, Prod.mk.injEq] at this
  obtain ⟨rfl, rfl⟩ := this
  exact hrest

/-- Every reachable state satisfies the invariant. -/
theorem reachable_inv (hasher : K → Nat) (m : HashMap K V) (h : Reachable hasher m) :
    Inv hasher m := by
  induction h with
  | new => exact Inv_new hasher
  | insert m m1 fuel key value b _ hins ih =>
    exact (insert_impl_result hasher m ih key value fuel b m1 hins).1
  | erase m key _ ih => exact Inv_delete_impl hasher m ih key

end

section
variable {K V : Type} [DecidableEq K] [Inhabited K] [Inhabited V]

theorem NoTomb_new : NoTomb (HashMap.new : HashMap K V) := by
  intro i hi
  rw [new_eq_grown] at hi ⊢
  rw [byteAt_grown _ i hi]
  omega

theorem not_HoldsKey_new (k : K) : ¬ HoldsKey (HashMap.new : HashMap K V) k := by
  rw [new_eq_grown]
  exact not_HoldsKey_grown _ k

theorem Distinct_new : Distinct (HashMap.new : HashMap K V) := by
  intro i j hi _ hoi _ _
  rw [new_eq_grown] at hi hoi
  rw [byteAt_grown _ i hi, is_occupied_iff] at hoi
  omega

/-- A state reached by inserts alone satisfies the invariant, has no tombstone and
holds each key once. -/
theorem insert_reachable_inv (hasher : K → Nat) (m : HashMap K V)
    (h : InsertReachable hasher m) : Inv hasher m ∧ NoTomb m ∧ Distinct m := by
  induction h with
  | new => exact ⟨Inv_new hasher, NoTomb_new, Distinct_new⟩
  | insert m m1 fuel key value b _ hins ih =>
    obtain ⟨hI, hnt, hd⟩ := ih
    obtain ⟨h1, _, _, _, h4⟩ := insert_impl_result hasher m hI key value fuel b m1 hins
    obtain ⟨g1, g2, _, _⟩ := h4 hnt hd
    exact ⟨h1, g1, g2⟩

theorem insert_reachable_reachable (hasher : K → Nat) (m : HashMap K V)
    (h : InsertReachable hasher m) : Reachable hasher m := by
  induction h with
  | new => exact Reachable.new
  | insert m m1 fuel key value b _ hins ih => exact Reachable.insert m m1 fuel key value b ih hins

/-- With distinct live keys, the lookup returns exactly the value a live slot holds. -/
theorem at_impl_iff_Holds (hasher : K → Nat) (m : HashMap K V) (hI : Inv hasher m)
    (hd : Distinct m) (k : K) (v : V) : at_impl hasher m k = some v ↔ Holds m k v := by
  constructor
  · exact at_impl_sound hasher m hI k v
  · intro hh
    obtain ⟨v', hv'⟩ := at_impl_complete hasher m hI k ((HoldsKey_iff m k).2 ⟨v, hh⟩)
    obtain ⟨i, hi, hoi, hci⟩ := at_impl_sound hasher m hI k v' hv'
    obtain ⟨j, hj, hoj, hcj⟩ := hh
    have := hd i j hi hj hoi hoj (by rw [hci, hcj])
    subst this
    rw [hci] at hcj
    simp only [Prod.mk.injEq] at hcj
    rw [hv', hcj.2]

end

section
variable {K V : Type} [DecidableEq K] [Inhabited K] [Inhabited V]

theorem run_cons_insert (hasher : K → Nat) (fuel : Nat) (key : K) (value : V)
    (rest : List (Op K V)) (m m1 : HashMap K V) (b : Bool)
    (h : insert_impl hasher fuel m key value = some (b, m1)) :
    run hasher fuel (Op.insert key value :: rest) m
      = match run hasher fuel rest m1 with
        | none => none
        | some (bs, m2) => some (b :: bs, m2) := by
  simp only [run, h]

/-- Inserting pairs with distinct new keys into a tombstone-free table with distinct
keys: with enough fuel every call returns `true`, and the live pairs of the final
table are the old ones and the inserted ones. -/
theorem run_inserts_spec (hasher : K → Nat) :
    ∀ (kvs : List (K × V)) (m : HashMap K V), Inv hasher m → NoTomb m → Distinct m →
      (kvs.map Prod.fst).Nodup → (∀ p ∈ kvs, ¬ HoldsKey m p.1) →
      ∃ fuel0, ∀ fuel, fuel0 ≤ fuel →
        ∃ m2, run hasher fuel (inserts kvs) m = some (List.replicate kvs.length true, m2) ∧
          Inv hasher m2 ∧ Distinct m2 ∧
          ∀ k v, Holds m2 k v ↔ Holds m k v ∨ (k, v) ∈ kvs := by
  intro kvs
  induction kvs with
  | nil =>
    intro m hI _ hd _ _
    exact ⟨0, fun fuel _ => ⟨m, rfl, hI, hd, fun k v => by simp⟩⟩
  | cons p rest ih =>
    intro m hI hnt hd hnodup hnew
    rw [List.map_cons, List.nodup_cons] at hnodup
    obtain ⟨b, m1, hins, hI1, _, hb, _, hrest⟩ := insert_impl_spec hasher m hI p.1 p.2
      (m.buckets.length / 8 + 1) (by omega)
    have hbt : b = true := hb (hnew p (List.mem_cons_self _ _))
    subst hbt
    obtain ⟨hnt1, hd1, _, hcont⟩ := hrest hnt hd
    have hnew1 : ∀ q ∈ rest, ¬ HoldsKey m1 q.1 := by
      intro q hq hh
      obtain ⟨v, hv⟩ := (HoldsKey_iff _ _).1 hh
      rcases (hcont q.1 v).1 hv with h | ⟨_, h, _⟩
      · exact hnew q (List.mem_cons_of_mem _ hq) ((HoldsKey_iff _ _).2 ⟨v, h⟩)
      · exact hnodup.1 (by rw [← h]; exact List.mem_map_of_mem _ hq)
    obtain ⟨fuel0, hrun⟩ := ih m1 hI1 hnt1 hd1 hnodup.2 hnew1
    refine ⟨fuel0 + (m.buckets.length / 8 + 1), fun fuel hfuel => ?_⟩
    obtain ⟨m2, h2, hI2, hd2, hcont2⟩ := hrun fuel (by omega)
    have hins' := insert_impl_mono_le hasher _ fuel (by omega) m p.1 p.2 _ hins
    refine ⟨m2, ?_, hI2, hd2, ?_⟩
    · have := run_cons_insert hasher fuel p.1 p.2 (inserts rest) m m1 true hins'
      rw [h2] at this
      simpa [inserts, List.replicate_succ] using this
    · intro k v
      rw [hcont2 k v, hcont k v]
      constructor
      · rintro ((h | ⟨_, hk, hv⟩) | h)
        · exact Or.inl h
        · exact Or.inr (by rw [hk, hv]; exact List.mem_cons_self _ _)
        · exact Or.inr (List.mem_cons_of_mem _ h)
      · rintro (h | h)
        · exact Or.inl (Or.inl h)
        · rcases List.mem_cons.1 h with h | h
          · left; right
            rw [← h]
            exact ⟨rfl, rfl, rfl⟩
          · exact Or.inr h

/-- C1. Insert/lookup round trip: in every state reached from the fresh table by
insert and erase calls, for every hash function and every key that no occupied
slot holds, `insert(key, value)` returns `true` (for every fuel above an eighth of
the capacity, growth included) and `at(key)` right after returns `value`. -/
theorem insert_at_round_trip (hasher : K → Nat) (m : HashMap K V) (hr : Reachable hasher m)
    (key : K) (value : V) (hfresh : ¬ HoldsKey m key) (fuel : Nat)
    (hf : m.buckets.length / 8 < fuel) :
    ∃ m2, insert_impl hasher fuel m key value = some (true, m2) ∧
      at_impl hasher m2 key = some value := by
  obtain ⟨b, m2, hins, hI2, _, hb, hheld, _⟩ :=
    insert_impl_spec hasher m (reachable_inv hasher m hr) key value fuel hf
  have hbt : b = true := hb hfresh
  subst hbt
  obtain ⟨hh, honly⟩ := hheld rfl
  refine ⟨m2, hins, ?_⟩
  obtain ⟨v, hv⟩ := at_impl_complete hasher m2 hI2 key ((HoldsKey_iff _ _).2 ⟨value, hh⟩)
  rcases honly key v (at_impl_sound hasher m2 hI2 key v hv) with h | ⟨_, h⟩
  · exact absurd h hfresh
  · rw [hv, h]

/-- C3. Lookup is exact on reachable states: for every hash function and every state
reached from the fresh table by insert and erase calls, `at(key)` returns a value
iff some occupied slot holds `key`, a returned value is the value of such a slot,
and `at(key)` fails (`std::out_of_range`) iff no occupied slot holds `key`. -/
theorem at_exact (hasher : K → Nat) (m : HashMap K V) (hr : Reachable hasher m) (key : K) :
    ((∃ v, at_impl hasher m key = some v) ↔ HoldsKey m key) ∧
    (∀ v, at_impl hasher m key = some v → Holds m key v) ∧
    (at_impl hasher m key = none ↔ ¬ HoldsKey m key) := by
  have hI := reachable_inv hasher m hr
  have h1 : (∃ v, at_impl hasher m key = some v) ↔ HoldsKey m key := by
    constructor
    · rintro ⟨v, hv⟩
      exact (HoldsKey_iff _ _).2 ⟨v, at_impl_sound hasher m hI key v hv⟩
    · exact at_impl_complete hasher m hI key
  refine ⟨h1, at_impl_sound hasher m hI key, ?_⟩
  rw [← h1]
  cases at_impl hasher m key <;> simp

/-- C7. Growth preserves content: in every state reached from the fresh table by
insert calls alone, an insert that finds `load*8 > capacity*7` returns, doubles the
capacity, and every `at(k) = v` that held before it holds after it; and inserting
pairs with pairwise distinct keys into the fresh table returns `true` each time
(given enough fuel) and leaves every pair retrievable. -/
theorem growth_preserves_content (hasher : K → Nat) :
    (∀ (m : HashMap K V), InsertReachable hasher m →
      ∀ (key : K) (value : V) (fuel : Nat), m.buckets.length / 8 < fuel →
        m.load * 8 > m.buckets.length * 7 →
        ∃ b m2, insert_impl hasher fuel m key value = some (b, m2) ∧
          m2.buckets.length = 2 * m.buckets.length ∧
          ∀ k v, at_impl hasher m k = some v → at_impl hasher m2 k = some v) ∧
    (∀ (kvs : List (K × V)), (kvs.map Prod.fst).Nodup →
      ∃ fuel0, ∀ fuel, fuel0 ≤ fuel →
        ∃ m2, run hasher fuel (inserts kvs) HashMap.new
            = some (List.replicate kvs.length true, m2) ∧
          ∀ p ∈ kvs, at_impl hasher m2 p.1 = some p.2) := by
  constructor
  · intro m hm key value fuel hf hgrow
    obtain ⟨hI, hnt, hd⟩ := insert_reachable_inv hasher m hm
    obtain ⟨b, m2, hins, hI2, hcap, _, _, hrest⟩ := insert_impl_spec hasher m hI key value fuel hf
    obtain ⟨_, hd2, hheld, hcont⟩ := hrest hnt hd
    rw [if_pos hgrow] at hcap
    refine ⟨b, m2, hins, hcap, ?_⟩
    intro k v hat
    rw [at_impl_iff_Holds hasher m hI hd] at hat
    rw [at_impl_iff_Holds hasher m2 hI2 hd2, hcont k v]
    exact Or.inl hat
  · intro kvs hnodup
    obtain ⟨fuel0, hrun⟩ := run_inserts_spec hasher kvs HashMap.new (Inv_new hasher) NoTomb_new
      Distinct_new hnodup (fun p _ => not_HoldsKey_new p.1)
    refine ⟨fuel0, fun fuel hfuel => ?_⟩
    obtain ⟨m2, h2, hI2, hd2, hcont⟩ := hrun fuel hfuel
    refine ⟨m2, h2, fun p hp => ?_⟩
    rw [at_impl_iff_Holds hasher m2 hI2 hd2, hcont]
    exact Or.inr hp

end

section
variable {K V : Type} [DecidableEq K] [Inhabited K] [Inhabited V]

/-- The final state of a returning call sequence is reachable. -/
theorem reachable_of_run (hasher : K → Nat) (fuel : Nat) :
    ∀ (ops : List (Op K V)) (m : HashMap K V) (bs : List Bool) (m2 : HashMap K V),
      Reachable hasher m → run hasher fuel ops m = some (bs, m2) → Reachable hasher m2 := by
  intro ops
  induction ops with
  | nil =>
    intro m bs m2 hr h
    simp only [run, Option.some.injEq, Prod.mk.injEq] at h
    rw [← h.2]; exact hr
  | cons op rest ih =>
    intro m bs m2 hr h
    cases op with
    | insert key value =>
      simp only [run] at h
      cases hi : insert_impl hasher fuel m key value with
      | none => rw [hi] at h; simp at h
      | some r =>
        obtain ⟨b, m1⟩ := r
        rw [hi] at h
        simp only at h
        cases hrest : run hasher fuel rest m1 with
        | none => rw [hrest] at h; simp at h
        | some r2 =>
          obtain ⟨bs2, m3⟩ := r2
          rw [hrest] at h
          simp only [Option.some.injEq, Prod.mk.injEq] at h
          rw [← h.2]
          exact ih m1 bs2 m3 (Reachable.insert m m1 fuel key value b hr hi) hrest
    | erase key =>
      simp only [run] at h
      cases hrest : run hasher fuel rest (delete_impl hasher m key).2 with
      | none => rw [hrest] at h; simp at h
      | some r2 =>
        obtain ⟨bs2, m3⟩ := r2
        rw [hrest] at h
        simp only [Option.some.injEq, Prod.mk.injEq] at h
        rw [← h.2]
        exact ih _ bs2 m3 (Reachable.erase m key hr) hrest

/-- The final state of a returning sequence of inserts is reachable by inserts. -/
theorem insert_reachable_of_run (hasher : K → Nat) (fuel : Nat) :
    ∀ (kvs : List (K × V)) (m : HashMap K V) (bs : List Bool) (m2 : HashMap K V),
      InsertReachable hasher m → run hasher fuel (inserts kvs) m = some (bs, m2) →
      InsertReachable hasher m2 := by
  intro kvs
  induction kvs with
  | nil =>
    intro m bs m2 hr h
    simp only [inserts, List.map_nil, run, Option.some.injEq, Prod.mk.injEq] at h
    rw [← h.2]; exact hr
  | cons p rest ih =>
    intro m bs m2 hr h
    simp only [inserts, List.map_cons, run] at h
    cases hi : insert_impl hasher fuel m p.1 p.2 with
    | none => rw [hi] at h; simp at h
    | some r =>
      obtain ⟨b, m1⟩ := r
      rw [hi] at h
      simp only at h
      cases hrest : run hasher fuel (inserts rest) m1 with
      | none =>
        simp only [inserts] at hrest
        rw [hrest] at h; simp at h
      | some r2 =>
        obtain ⟨bs2, m3⟩ := r2
        have hrest' := hrest
        simp only [inserts] at hrest
        rw [hrest] at h
        simp only [Option.some.injEq, Prod.mk.injEq] at h
        rw [← h.2]
        exact ih m1 bs2 m3 (InsertReachable.insert m m1 fuel p.1 p.2 b hr hi) hrest'

end

section
variable {K V : Type} [DecidableEq K] [Inhabited K] [Inhabited V]

theorem scan_group_eq_first_hit (values : List (K × V)) (key : K) (t start : Nat) :
    ∀ (bs : List Nat) (cs : List (K × V)) (i : Nat), bs.length ≤ cs.length →
      (∀ j, j < cs.length → cs.getD j default = values.getD (start + i + j) default) →
      scan_group key t i bs cs
        = first_hit (fun j => decide ((values.getD (start + j) default).1 = key)) i
            (bs.map (fun x => decide (x = t))) := by
  intro bs
  induction bs with
  | nil => intro cs i _ _; cases cs <;> simp [scan_group, first_hit]
  | cons b bs ih =>
    intro cs i hlen hcs
    cases cs with
    | nil => simp at hlen
    | cons c cs =>
      have h0 := hcs 0 (by simp)
      simp only [List.getD_cons_zero, Nat.add_zero] at h0
      have hrec := ih cs (i + 1) (by simpa using hlen) (by
        intro j hj
        have := hcs (j + 1) (by simpa using hj)
        simp only [List.getD_cons_succ] at this
        rw [this]
        congr 1
        omega)
      simp only [scan_group, List.map_cons, first_hit, hrec, ← h0, Bool.and_eq_true,
        decide_eq_true_eq]

theorem probe_mask_eq_scan (m : HashMap K V) (key : K) (g h2 : Nat)
    (hlv : m.values.length = m.buckets.length) (hg : g * 16 + 16 ≤ m.buckets.length) :
    probe_mask m.values key (g * 16) 64 (match_hash (m.buckets.drop (g * 16)) h2)
      = (scan_group key (occupied_byte h2) 0 ((m.buckets.drop (g * 16)).take 16)
          (m.values.drop (g * 16))).map (fun j => g * 16 + j) := by
  rw [match_hash_eq _ _ _ hg]
  have hl := lanes_length m.buckets (g * 16) (occupied_byte h2) hg
  have h0 := probe_mask_nibbles m.values key (g * 16) (lanes (m.buckets.drop (g * 16))
    (occupied_byte h2)) 0 64 (by omega) (by omega)
  rw [pow_zero, one_mul] at h0
  rw [h0]
  congr 1
  rw [scan_group_eq_first_hit m.values key (occupied_byte h2) (g * 16) _ _ 0
    (by simp; omega) (by
      intro j _
      simp only [List.getD_eq_getElem?_getD, List.getElem?_drop, Nat.add_zero])]
  rfl

theorem first_free_spec : ∀ (bs : List Nat) (i : Nat), 4 * (i + bs.length) ≤ 64 →
    (first_free i bs = none ∧
      nibbles (bs.map (fun x => decide (x = 2) || decide (x = 1))) = 0) ∨
    (∃ s, first_free i bs = some s ∧
      nibbles (bs.map (fun x => decide (x = 2) || decide (x = 1))) ≠ 0 ∧
      ctzAux 64 (16 ^ i * nibbles (bs.map (fun x => decide (x = 2) || decide (x = 1)))) / 4
        = s) := by
  intro bs
  induction bs with
  | nil => intro i _; left; simp [first_free, nibbles]
  | cons b bs ih =>
    intro i hi
    simp only [List.length_cons] at hi
    by_cases hb : b = 2 ∨ b = 1
    · right
      refine ⟨i, by simp only [first_free, if_pos hb], ?_, ?_⟩
      · have : (decide (b = 2) || decide (b = 1)) = true := by simpa using hb
        simp only [List.map_cons, nibbles, this, if_true]
        omega
      · have hex : ∃ x ∈ (b :: bs).map (fun x => decide (x = 2) || decide (x = 1)),
            x = true := ⟨_, List.mem_map_of_mem _ (List.mem_cons_self _ _), by simpa using hb⟩
        rw [ctz_nibbles _ i hex (by simpa using hi)]
        have : (decide (b = 2) || decide (b = 1)) = true := by simpa using hb
        simp [List.findIdx_cons, this]
    · have hf : (decide (b = 2) || decide (b = 1)) = false := by
        simpa using hb
      have e : ∀ n, 16 ^ i * (0 + 16 * n) = 16 ^ (i + 1) * n := by intro n; ring
      rcases ih (i + 1) (by omega) with ⟨h1, h2⟩ | ⟨s, h1, h2, h3⟩
      · left
        refine ⟨by simp only [first_free, if_neg hb]; exact h1, ?_⟩
        simp only [List.map_cons, nibbles, hf, h2]
        simp
      · right
        refine ⟨s, by simp only [first_free, if_neg hb]; exact h1, ?_, ?_⟩
        · simp only [List.map_cons, nibbles, hf]
          simp only [Bool.false_eq_true, if_false]
          omega
        · simp only [List.map_cons, nibbles, hf, Bool.false_eq_true, if_false, e]
          exact h3

theorem match_target_zero_iff (bs : List Nat) (s t : Nat) :
    nibbles (lanes (bs.drop s) t) = 0 ↔
      ((bs.drop s).take 16).any (fun b => decide (b = t)) = false := by
  rw [nibbles_eq_zero_iff]
  simp only [lanes, List.mem_map, forall_exists_index, and_imp, forall_apply_eq_imp_iff₂,
    decide_eq_false_iff_not, List.any_eq_false, decide_eq_true_eq]


theorem match_empty_zero_any (bs : List Nat) (s : Nat) (h : s + 16 ≤ bs.length) :
    match_empty (bs.drop s) = 0 ↔
      ((bs.drop s).take 16).any (fun b => decide (b = 2)) = false := by
  rw [match_empty_eq _ _ h]
  exact match_target_zero_iff bs s 2

theorem match_hash_zero_any (bs : List Nat) (s h2 : Nat) (h : s + 16 ≤ bs.length) :
    match_hash (bs.drop s) h2 = 0 ↔
      ((bs.drop s).take 16).any (fun b => decide (b = occupied_byte h2)) = false := by
  rw [match_hash_eq _ _ _ h]
  exact match_target_zero_iff bs s _

theorem ite_congr_any {α : Type} (p : Prop) [Decidable p] (b : Bool) (x y z : α)
    (hp : ¬ p ↔ b = false) (hyz : y = z) :
    (if p then x else y) = (if b = true then x else z) := by
  subst hyz
  cases b with
  | false =>
    have : ¬ p := hp.2 rfl
    simp [this]
  | true =>
    have : p := by
      by_contra h
      exact absurd (hp.1 h) (by simp)
    simp [this]

/-- On whole groups the probe loop of `insert_impl` is its lane-by-lane form. -/
theorem insert_loop_eq_fast (m : HashMap K V) (key : K) (value : V) (h2 ins : Nat)
    (hlv : m.values.length = m.buckets.length)
    (hw : m.buckets.length = (m.buckets.length / 16) * 16) (hpos : 0 < m.buckets.length / 16) :
    ∀ (fuel g : Nat), g < m.buckets.length / 16 →
      insert_loop m key value h2 ins (m.buckets.length / 16) fuel g
        = insert_loop_fast m key value h2 ins (m.buckets.length / 16) fuel g := by
  intro fuel
  induction fuel with
  | zero => intro g _; rfl
  | succ n ih =>
    intro g hg
    have hb := group_bound _ g hw hg
    simp only [insert_loop, insert_loop_fast, HASH_SIMD_SIZE]
    rw [probe_mask_eq_scan m key g h2 hlv hb]
    cases hs : scan_group key (occupied_byte h2) 0 ((m.buckets.drop (g * 16)).take 16)
        (m.values.drop (g * 16)) with
    | some j => rfl
    | none =>
      simp only [Option.map_none']
      rw [free_mask_eq _ _ hb]
      have hlen : ((m.buckets.drop (g * 16)).take 16).length = 16 := by simp; omega
      rcases first_free_spec ((m.buckets.drop (g * 16)).take 16) 0 (by omega) with
        ⟨h1, h2'⟩ | ⟨s, h1, h2', h3⟩
      · rw [h1, h2']
        simp only [ne_eq, not_true_eq_false, if_false]
        exact ih _ (Nat.mod_lt _ hpos)
      · rw [h1, if_pos h2']
        rw [pow_zero, one_mul] at h3
        simp only [__builtin_ctzll, Nat.shiftRight_eq_div_pow]
        rw [show (2 : Nat) ^ 2 = 4 by norm_num, h3]
        rfl

/-- On whole groups the lookup loop of `at_impl` is its lane-by-lane form. -/
theorem at_loop_eq_fast (m : HashMap K V) (key : K) (h2 : Nat)
    (hlv : m.values.length = m.buckets.length)
    (hw : m.buckets.length = (m.buckets.length / 16) * 16) (hpos : 0 < m.buckets.length / 16) :
    ∀ (n g : Nat), g < m.buckets.length / 16 →
      at_loop m key h2 (m.buckets.length / 16) n g
        = at_loop_fast m key h2 (m.buckets.length / 16) n g := by
  intro n
  induction n with
  | zero => intro g _; rfl
  | succ n ih =>
    intro g hg
    have hb := group_bound _ g hw hg
    simp only [at_loop, at_loop_fast, HASH_SIMD_SIZE]
    rw [probe_mask_eq_scan m key g h2 hlv hb]
    cases hs : scan_group key (occupied_byte h2) 0 ((m.buckets.drop (g * 16)).take 16)
        (m.values.drop (g * 16)) with
    | some j => rfl
    | none =>
      simp only [Option.map_none']
      exact ite_congr_any _ _ _ _ _
        (by rw [← match_empty_zero_any _ _ hb]; exact not_not) (ih _ (Nat.mod_lt _ hpos))

/-- On whole groups the erase loop of `delete_impl` is its lane-by-lane form. -/
theorem delete_loop_eq_fast (m : HashMap K V) (key : K) (h2 : Nat)
    (hlv : m.values.length = m.buckets.length)
    (hw : m.buckets.length = (m.buckets.length / 16) * 16) (hpos : 0 < m.buckets.length / 16) :
    ∀ (n g : Nat), g < m.buckets.length / 16 →
      delete_loop m key h2 (m.buckets.length / 16) n g
        = delete_loop_fast m key h2 (m.buckets.length / 16) n g := by
  intro n
  induction n with
  | zero => intro g _; rfl
  | succ n ih =>
    intro g hg
    have hb := group_bound _ g hw hg
    simp only [delete_loop, delete_loop_fast, HASH_SIMD_SIZE]
    rw [probe_mask_eq_scan m key g h2 hlv hb]
    by_cases hz : match_hash (m.buckets.drop (g * 16)) h2 = 0
    · have ha := (match_hash_zero_any m.buckets (g * 16) h2 hb).1 hz
      rw [if_pos hz, ha]
      simp
    · have ha : ((m.buckets.drop (g * 16)).take 16).any
          (fun b => decide (b = occupied_byte h2)) = true := by
        by_contra hne
        exact hz ((match_hash_zero_any m.buckets (g * 16) h2 hb).2
          ((Bool.not_eq_true _).mp hne))
      rw [if_neg hz, ha]
      simp only [if_true]
      cases hs : scan_group key (occupied_byte h2) 0 ((m.buckets.drop (g * 16)).take 16)
          (m.values.drop (g * 16)) with
      | some j => rfl
      | none =>
        simp only [Option.map_none']
        exact ite_congr_any _ _ _ _ _
          (by rw [← match_empty_zero_any _ _ hb]; exact not_not) (ih _ (Nat.mod_lt _ hpos))

end

section
variable {K V : Type} [DecidableEq K] [Inhabited K] [Inhabited V]

theorem reinsert_all_inv (hasher : K → Nat)
    (ins : HashMap K V → K → V → Option (Bool × HashMap K V))
    (hins : ∀ acc k v r, Inv hasher acc → ins acc k v = some r → Inv hasher r.2) :
    ∀ (entries : List (Nat × (K × V))) (acc r : HashMap K V), Inv hasher acc →
      reinsert_all ins entries acc = some r → Inv hasher r := by
  intro entries
  induction entries with
  | nil =>
    intro acc r hI h
    simp only [reinsert_all, Option.some.injEq] at h
    rw [← h]; exact hI
  | cons e rest ih =>
    intro acc r hI h
    obtain ⟨b, kv⟩ := e
    simp only [reinsert_all] at h
    split at h
    · cases hi : ins acc kv.1 kv.2 with
      | none => rw [hi] at h; simp at h
      | some r1 =>
        rw [hi] at h
        exact ih _ _ (hins _ _ _ _ hI hi) h
    · exact ih _ _ hI h

theorem reinsert_all_congr (hasher : K → Nat)
    (ins ins2 : HashMap K V → K → V → Option (Bool × HashMap K V))
    (heq : ∀ acc k v, Inv hasher acc → ins acc k v = ins2 acc k v)
    (hins : ∀ acc k v r, Inv hasher acc → ins acc k v = some r → Inv hasher r.2) :
    ∀ (entries : List (Nat × (K × V))) (acc : HashMap K V), Inv hasher acc →
      reinsert_all ins entries acc = reinsert_all ins2 entries acc := by
  intro entries
  induction entries with
  | nil => intro acc _; rfl
  | cons e rest ih =>
    intro acc hI
    obtain ⟨b, kv⟩ := e
    simp only [reinsert_all]
    split
    · rw [← heq _ _ _ hI]
      cases hi : ins acc kv.1 kv.2 with
      | none => rfl
      | some r1 => exact ih _ (hins _ _ _ _ hI hi)
    · exact ih _ hI

theorem insert_impl_fast_succ (hasher : K → Nat) (fuel : Nat) (m : HashMap K V) (key : K)
    (value : V) :
    insert_impl_fast hasher (fuel + 1) m key value =
      match rehash_if_needed (insert_impl_fast hasher fuel) m with
      | none => none
      | some m1 =>
        insert_loop_fast m1 key value (fingerprint hasher key)
          (occupied_byte (fingerprint hasher key)) (m1.buckets.length / 16) (fuel + 1)
          (home_group hasher m1 key) := rfl

theorem insert_impl_inv (hasher : K → Nat) (fuel : Nat) (m : HashMap K V) (key : K)
    (value : V) (r : Bool × HashMap K V) (hI : Inv hasher m)
    (h : insert_impl hasher fuel m key value = some r) : Inv hasher r.2 :=
  (insert_impl_result hasher m hI key value fuel r.1 r.2 h).1

/-- On a table that satisfies the invariant `insert_impl` is its lane-by-lane form. -/
theorem insert_impl_eq_fast (hasher : K → Nat) :
    ∀ (fuel : Nat) (m : HashMap K V) (key : K) (value : V), Inv hasher m →
      insert_impl hasher fuel m key value = insert_impl_fast hasher fuel m key value := by
  intro fuel
  induction fuel with
  | zero => intro m key value _; rfl
  | succ n ih =>
    intro m key value hI
    rw [insert_impl_succ, insert_impl_fast_succ]
    have hre : rehash_if_needed (insert_impl hasher n) m
        = rehash_if_needed (insert_impl_fast hasher n) m := by
      simp only [rehash_if_needed]
      split
      · exact reinsert_all_congr hasher _ _ (fun acc k v hA => ih acc k v hA)
          (fun acc k v r hA hr => insert_impl_inv hasher n acc k v r hA hr) _ _
          (Inv_grown hasher _ hI.whole_groups hI.one_group)
      · rfl
    rw [← hre]
    cases hr : rehash_if_needed (insert_impl hasher n) m with
    | none => rfl
    | some m1 =>
      have hI1 : Inv hasher m1 := by
        simp only [rehash_if_needed] at hr
        split at hr
        · exact reinsert_all_inv hasher _
            (fun acc k v r hA hr => insert_impl_inv hasher n acc k v r hA hr) _ _ _
            (Inv_grown hasher _ hI.whole_groups hI.one_group) hr
        · simp only [Option.some.injEq] at hr
          rw [← hr]; exact hI
      exact insert_loop_eq_fast m1 key value _ _ hI1.len_values hI1.whole_groups hI1.one_group
        _ _ (home_group_lt hasher m1 key hI1.whole_groups hI1.one_group)

/-- On a table that satisfies the invariant `at_impl` is its lane-by-lane form. -/
theorem at_impl_eq_fast (hasher : K → Nat) (m : HashMap K V) (hI : Inv hasher m) (key : K) :
    at_impl hasher m key = at_impl_fast hasher m key := by
  rw [at_impl_eq]
  exact at_loop_eq_fast m key _ hI.len_values hI.whole_groups hI.one_group _ _
    (home_group_lt hasher m key hI.whole_groups hI.one_group)

/-- On a table that satisfies the invariant `delete_impl` is its lane-by-lane form. -/
theorem delete_impl_eq_fast (hasher : K → Nat) (m : HashMap K V) (hI : Inv hasher m)
    (key : K) : delete_impl hasher m key = delete_impl_fast hasher m key := by
  rw [delete_impl_eq]
  exact delete_loop_eq_fast m key _ hI.len_values hI.whole_groups hI.one_group _ _
    (home_group_lt hasher m key hI.whole_groups hI.one_group)

/-- From a table that satisfies the invariant `run` is its lane-by-lane form. -/
theorem run_eq_fast (hasher : K → Nat) (fuel : Nat) :
    ∀ (ops : List (Op K V)) (m : HashMap K V), Inv hasher m →
      run hasher fuel ops m = run_fast hasher fuel ops m := by
  intro ops
  induction ops with
  | nil => intro m _; rfl
  | cons op rest ih =>
    intro m hI
    cases op with
    | insert key value =>
      simp only [run, run_fast]
      rw [← insert_impl_eq_fast hasher fuel m key value hI]
      cases hi : insert_impl hasher fuel m key value with
      | none => rfl
      | some r =>
        obtain ⟨b, m1⟩ := r
        simp only
        rw [ih m1 (insert_impl_inv hasher fuel m key value _ hI hi)]
    | erase key =>
      simp only [run, run_fast]
      rw [← delete_impl_eq_fast hasher m hI key, ih _ (Inv_delete_impl hasher m hI key)]

/-- A call sequence run in two parts. -/
theorem run_append (hasher : K → Nat) (fuel : Nat) :
    ∀ (ops1 ops2 : List (Op K V)) (m m1 m2 : HashMap K V) (bs1 bs2 : List Bool),
      run hasher fuel ops1 m = some (bs1, m1) → run hasher fuel ops2 m1 = some (bs2, m2) →
      run hasher fuel (ops1 ++ ops2) m = some (bs1 ++ bs2, m2) := by
  intro ops1
  induction ops1 with
  | nil =>
    intro ops2 m m1 m2 bs1 bs2 h1 h2
    simp only [run, Option.some.injEq, Prod.mk.injEq] at h1
    obtain ⟨rfl, rfl⟩ := h1
    simpa using h2
  | cons op rest ih =>
    intro ops2 m m1 m2 bs1 bs2 h1 h2
    cases op with
    | insert key value =>
      simp only [List.cons_append, run] at h1 ⊢
      cases hi : insert_impl hasher fuel m key value with
      | none => rw [hi] at h1; simp at h1
      | some r =>
        obtain ⟨b, m3⟩ := r
        rw [hi] at h1
        simp only at h1 ⊢
        cases hrest : run hasher fuel rest m3 with
        | none => rw [hrest] at h1; simp at h1
        | some r2 =>
          obtain ⟨bs3, m4⟩ := r2
          rw [hrest] at h1
          simp only [Option.some.injEq, Prod.mk.injEq] at h1
          obtain ⟨rfl, rfl⟩ := h1
          have hx := ih ops2 m3 m4 m2 bs3 bs2 hrest h2
          simp only [List.append_eq, hx, List.cons_append]
    | erase key =>
      simp only [List.cons_append, run] at h1 ⊢
      cases hrest : run hasher fuel rest (delete_impl hasher m key).2 with
      | none => rw [hrest] at h1; simp at h1
      | some r2 =>
        obtain ⟨bs3, m4⟩ := r2
        rw [hrest] at h1
        simp only [Option.some.injEq, Prod.mk.injEq] at h1
        obtain ⟨rfl, rfl⟩ := h1
        have hx := ih ops2 _ m4 m2 bs3 bs2 hrest h2
        simp only [List.append_eq, hx, List.cons_append]

end

theorem dup_calls_run :
    run_fast identity_hash 9 dup_calls HashMap.new = some (List.replicate 18 true, dup_state) := by
  decide!

theorem chain_calls_run :
    run_fast identity_hash 9 chain_calls HashMap.new
      = some (List.replicate 17 true, chain_state) := by
  decide!

theorem loaded_dup_calls_run :
    run_fast identity_hash 9
        ([Op.insert 64 2000] ++ inserts ((List.range 39).map (fun i => (16 + i, i)))) dup_state
      = some (List.replicate 40 true, loaded_dup_state) := by
  decide!

theorem loaded_dup_grow :
    insert_impl_fast identity_hash 17 loaded_dup_state 100 5
      = some (true, after_insert identity_hash 17 loaded_dup_state 100 5) := by
  decide!

theorem wrap_calls_run :
    run_fast identity_hash 9 wrap_calls HashMap.new = some (List.replicate 58 true, wrap_state) := by
  decide!

theorem wrap_grow :
    insert_impl_fast identity_hash 17 wrap_state 200 5
      = some (true, after_insert identity_hash 17 wrap_state 200 5) := by
  decide!

theorem filled_run_57 :
    run_fast std_hash_int 17 (inserts (scenario_pairs.take 57)) HashMap.new
      = some (List.replicate 57 true, filled 64 57) := by
  decide!

theorem filled_run_58 :
    run_fast std_hash_int 17 (inserts ((scenario_pairs.drop 57).take 1)) (filled 64 57)
      = some ([true], filled 128 58) := by
  decide!

theorem filled_run_100 :
    run_fast std_hash_int 17 (inserts (scenario_pairs.drop 58)) (filled 128 58)
      = some (List.replicate 42 true, filled 128 100) := by
  decide!

theorem filled_at_low :
    ∀ i ∈ List.range 50, at_impl_fast std_hash_int (filled 128 100) (i : Int)
      = some ((i : Int) * 10) := by
  decide!

theorem filled_at_high :
    ∀ i ∈ List.range 50, at_impl_fast std_hash_int (filled 128 100) ((50 + i : Nat) : Int)
      = some (((50 + i : Nat) : Int) * 10) := by
  decide!

section
variable {K V : Type} [DecidableEq K] [Inhabited K] [Inhabited V]

theorem run_of_fast (hasher : K → Nat) (fuel : Nat) (ops : List (Op K V)) (m : HashMap K V)
    (hI : Inv hasher m) (r : Option (List Bool × HashMap K V))
    (h : run_fast hasher fuel ops m = r) : run hasher fuel ops m = r := by
  rw [run_eq_fast hasher fuel ops m hI]; exact h

theorem insert_of_fast (hasher : K → Nat) (fuel : Nat) (m : HashMap K V) (hI : Inv hasher m)
    (key : K) (value : V) (r : Option (Bool × HashMap K V))
    (h : insert_impl_fast hasher fuel m key value = r) :
    insert_impl hasher fuel m key value = r := by
  rw [insert_impl_eq_fast hasher fuel m key value hI]; exact h

theorem at_of_fast (hasher : K → Nat) (m : HashMap K V) (hI : Inv hasher m) (key : K)
    (r : Option V) (h : at_impl_fast hasher m key = r) : at_impl hasher m key = r := by
  rw [at_impl_eq_fast hasher m hI key]; exact h

theorem delete_of_fast (hasher : K → Nat) (m : HashMap K V) (hI : Inv hasher m) (key : K)
    (r : Bool × HashMap K V) (h : delete_impl_fast hasher m key = r) :
    delete_impl hasher m key = r := by
  rw [delete_impl_eq_fast hasher m hI key]; exact h

end

theorem dup_state_run :
    run identity_hash 9 dup_calls HashMap.new = some (List.replicate 18 true, dup_state) :=
  run_of_fast identity_hash 9 dup_calls HashMap.new (Inv_new identity_hash) _ dup_calls_run

theorem dup_state_reachable : Reachable identity_hash dup_state :=
  reachable_of_run identity_hash 9 dup_calls HashMap.new _ _ Reachable.new dup_state_run

theorem chain_state_run :
    run identity_hash 9 chain_calls HashMap.new = some (List.replicate 17 true, chain_state) :=
  run_of_fast identity_hash 9 chain_calls HashMap.new (Inv_new identity_hash) _ chain_calls_run

theorem chain_state_reachable : Reachable identity_hash chain_state :=
  reachable_of_run identity_hash 9 chain_calls HashMap.new _ _ Reachable.new chain_state_run

theorem loaded_dup_state_run :
    run identity_hash 9 loaded_dup_calls HashMap.new
      = some (List.replicate 58 true, loaded_dup_state) := by
  have h := run_append identity_hash 9 dup_calls
    ([Op.insert 64 2000] ++ inserts ((List.range 39).map (fun i => (16 + i, i))))
    HashMap.new dup_state loaded_dup_state _ _ dup_state_run
    (run_of_fast identity_hash 9 _ dup_state (reachable_inv _ _ dup_state_reachable) _
      loaded_dup_calls_run)
  rw [← List.append_assoc] at h
  exact h

theorem loaded_dup_state_reachable : Reachable identity_hash loaded_dup_state :=
  reachable_of_run identity_hash 9 loaded_dup_calls HashMap.new _ _ Reachable.new
    loaded_dup_state_run

theorem wrap_state_run :
    run identity_hash 9 wrap_calls HashMap.new = some (List.replicate 58 true, wrap_state) :=
  run_of_fast identity_hash 9 wrap_calls HashMap.new (Inv_new identity_hash) _ wrap_calls_run

theorem wrap_state_reachable : Reachable identity_hash wrap_state :=
  reachable_of_run identity_hash 9 wrap_calls HashMap.new _ _ Reachable.new wrap_state_run

theorem filled_57_run :
    run std_hash_int 17 (inserts (scenario_pairs.take 57)) HashMap.new
      = some (List.replicate 57 true, filled 64 57) :=
  run_of_fast std_hash_int 17 _ HashMap.new (Inv_new std_hash_int) _ filled_run_57

theorem filled_57_reachable : InsertReachable std_hash_int (filled 64 57) :=
  insert_reachable_of_run std_hash_int 17 (scenario_pairs.take 57) HashMap.new _ _
    InsertReachable.new filled_57_run

theorem filled_58_run :
    run std_hash_int 17 (inserts ((scenario_pairs.drop 57).take 1)) (filled 64 57)
      = some ([true], filled 128 58) :=
  run_of_fast std_hash_int 17 _ (filled 64 57)
    (reachable_inv _ _ (insert_reachable_reachable _ _ filled_57_reachable)) _ filled_run_58

theorem filled_58_reachable : Reachable std_hash_int (filled 128 58) :=
  reachable_of_run std_hash_int 17 _ (filled 64 57) _ _
    (insert_reachable_reachable _ _ filled_57_reachable) filled_58_run

theorem filled_100_run :
    run std_hash_int 17 (inserts scenario_pairs) HashMap.new
      = some (List.replicate 100 true, filled 128 100) := by
  have h3 := run_of_fast std_hash_int 17 _ (filled 128 58)
    (reachable_inv _ _ filled_58_reachable) _ filled_run_100
  have h := run_append std_hash_int 17 _ _ _ _ _ _ _ filled_57_run
    (run_append std_hash_int 17 _ _ _ _ _ _ _ filled_58_run h3)
  have e1 : inserts (scenario_pairs.take 57) ++ (inserts ((scenario_pairs.drop 57).take 1)
      ++ inserts (scenario_pairs.drop 58)) = inserts scenario_pairs := by decide!
  have e2 : List.replicate 57 true ++ ([true] ++ List.replicate 42 true)
      = List.replicate 100 true := by decide
  rw [e1, e2] at h
  exact h

theorem filled_100_reachable : Reachable std_hash_int (filled 128 100) :=
  reachable_of_run std_hash_int 17 _ HashMap.new _ _ Reachable.new filled_100_run

/-- Witness of C1 on the table after `dup_calls`, for the key 0 whose stale copy sits
in the tombstone at slot 0. -/
theorem insert_at_round_trip_witness :
    ¬ HoldsKey dup_state 0 ∧
    ∃ m2, insert_impl identity_hash 9 dup_state 0 5 = some (true, m2) ∧
      at_impl identity_hash m2 0 = some 5 :=
  ⟨by decide!,
   insert_at_round_trip identity_hash dup_state dup_state_reachable 0 5 (by decide!) 9
    (by decide)⟩

/-- Witness of C3 on the table after `dup_calls`, for the erased key 0. -/
theorem at_exact_witness :
    ((∃ v, at_impl identity_hash dup_state 0 = some v) ↔ HoldsKey dup_state 0) ∧
    (∀ v, at_impl identity_hash dup_state 0 = some v → Holds dup_state 0 v) ∧
    (at_impl identity_hash dup_state 0 = none ↔ ¬ HoldsKey dup_state 0) :=
  at_exact identity_hash dup_state dup_state_reachable 0

/-- Witness of C7 on the table that holds the keys `0..56` of the scenario, whose
load count 57 is above seven eighths of the capacity 64. -/
theorem growth_preserves_content_witness :
    (filled 64 57).load * 8 > (filled 64 57).buckets.length * 7 ∧
    ∃ b m2, insert_impl std_hash_int 17 (filled 64 57) 57 570 = some (b, m2) ∧
      m2.buckets.length = 2 * (filled 64 57).buckets.length ∧
      ∀ k v, at_impl std_hash_int (filled 64 57) k = some v →
        at_impl std_hash_int m2 k = some v :=
  ⟨by decide,
   (growth_preserves_content std_hash_int).1 (filled 64 57) filled_57_reachable 57 570 17
    (by decide) (by decide)⟩

/-- C9. The concrete scenario with integer keys under `std::hash<int>`: inserting
`0..99` with values `i*10` returns `true` each time, every `at(i)` is `i*10` and
`size()` is 100; then `erase(1)` returns `true`, `at(1)` fails, `insert(1, 200)`
returns `true` and `at(1)` is 200. -/
theorem concrete_scenario :
    ∃ m m2 m3 : HashMap Int Int,
      run std_hash_int 17 (inserts scenario_pairs) HashMap.new
        = some (List.replicate 100 true, m) ∧
      (∀ i ∈ List.range 100, at_impl std_hash_int m (i : Int) = some ((i : Int) * 10)) ∧
      m.size = 100 ∧
      delete_impl std_hash_int m 1 = (true, m2) ∧
      at_impl std_hash_int m2 1 = none ∧
      insert_impl std_hash_int 17 m2 1 200 = some (true, m3) ∧
      at_impl std_hash_int m3 1 = some 200 := by
  have hI := reachable_inv _ _ filled_100_reachable
  have hdel : delete_impl std_hash_int (filled 128 100) 1 = (true, erased (filled 128 100) 1) :=
    delete_of_fast std_hash_int _ hI 1 _ (by decide!)
  have hr2 : Reachable std_hash_int (erased (filled 128 100) 1) := by
    have := Reachable.erase (filled 128 100) 1 filled_100_reachable
    rw [hdel] at this
    exact this
  have hI2 := reachable_inv _ _ hr2
  have hins : insert_impl std_hash_int 17 (erased (filled 128 100) 1) 1 200
      = some (true, place (erased (filled 128 100) 1) 1 3 1 200) :=
    insert_of_fast std_hash_int 17 _ hI2 1 200 _ (by decide!)
  have hI3 := insert_impl_inv std_hash_int 17 _ 1 200 _ hI2 hins
  refine ⟨filled 128 100, erased (filled 128 100) 1,
    place (erased (filled 128 100) 1) 1 3 1 200, filled_100_run, ?_, rfl, hdel,
    at_of_fast std_hash_int _ hI2 1 _ (by decide!), hins,
    at_of_fast std_hash_int _ hI3 1 _ (by decide!)⟩
  intro i hi
  apply at_of_fast std_hash_int _ hI
  rw [List.mem_range] at hi
  by_cases h : i < 50
  · exact filled_at_low i (List.mem_range.2 h)
  · have := filled_at_high (i - 50) (List.mem_range.2 (by omega))
    rw [show 50 + (i - 50) = i by omega] at this
    exact this

/-- C2 fails on the code. After inserting keys `0..15`, inserting `(64, 1000)` (which
lands in group 1) and erasing key 0, the key 64 is stored (`at(64) = 1000`), yet
`insert(64, 2000)` returns `true`, `size()` goes from 16 to 17 and `at(64)` is then
2000: the probe stops at the tombstone in group 0 before reaching the stored key. -/
theorem duplicate_insert_accepted :
    ∃ m m2 : HashMap Nat Nat,
      run identity_hash 9 dup_calls HashMap.new = some (List.replicate 18 true, m) ∧
      at_impl identity_hash m 64 = some 1000 ∧
      m.size = 16 ∧
      insert_impl identity_hash 9 m 64 2000 = some (true, m2) ∧
      m2.size = 17 ∧
      at_impl identity_hash m2 64 = some 2000 := by
  have hI := reachable_inv _ _ dup_state_reachable
  have hins : insert_impl identity_hash 9 dup_state 64 2000
      = some (true, place dup_state 0 3 64 2000) :=
    insert_of_fast identity_hash 9 _ hI 64 2000 _ (by decide!)
  have hI2 := insert_impl_inv identity_hash 9 _ 64 2000 _ hI hins
  exact ⟨dup_state, place dup_state 0 3 64 2000, dup_state_run,
    at_of_fast identity_hash _ hI 64 _ (by decide!), rfl, hins, rfl,
    at_of_fast identity_hash _ hI2 64 _ (by decide!)⟩

/-- C4 fails on the code. With sixteen keys of fingerprint 1 filling group 0, the key
`2 ^ 24` (fingerprint 2, home group 0) is stored at slot 16 in group 1 and `at` finds
it, yet `erase(2 ^ 24)` returns `false` and changes nothing: the home group has no
fingerprint match and the erase loop returns at once. -/
theorem erase_misses_displaced_key :
    ∃ m : HashMap Nat Nat,
      run identity_hash 9 chain_calls HashMap.new = some (List.replicate 17 true, m) ∧
      home_group identity_hash m (2 ^ 24) = 0 ∧
      byteAt m 16 = occupied_byte (fingerprint identity_hash (2 ^ 24)) ∧
      cellAt m 16 = (2 ^ 24, 77) ∧
      at_impl identity_hash m (2 ^ 24) = some 77 ∧
      delete_impl identity_hash m (2 ^ 24) = (false, m) := by
  have hI := reachable_inv _ _ chain_state_reachable
  exact ⟨chain_state, chain_state_run, by decide!, by decide!, by decide!,
    at_of_fast identity_hash _ hI _ _ (by decide!),
    delete_of_fast identity_hash _ hI _ _ (by decide!)⟩

/-- C5 fails on the code. Once key 64 is stored twice (`dup_calls` and a second
insert of key 64), `erase(64)` returns `true` and `at(64)` right after still returns
the value 1000 of the other copy. -/
theorem erase_leaves_duplicate :
    ∃ m m2 : HashMap Nat Nat,
      run identity_hash 9 (dup_calls ++ [Op.insert 64 2000]) HashMap.new
        = some (List.replicate 19 true, m) ∧
      delete_impl identity_hash m 64 = (true, m2) ∧
      at_impl identity_hash m2 64 = some 1000 := by
  have hI := reachable_inv _ _ dup_state_reachable
  have hins : run identity_hash 9 [Op.insert 64 2000] dup_state
      = some ([true], place dup_state 0 3 64 2000) :=
    run_of_fast identity_hash 9 _ _ hI _ (by decide!)
  have hrun := run_append identity_hash 9 _ _ _ _ _ _ _ dup_state_run hins
  have hr2 := reachable_of_run identity_hash 9 _ HashMap.new _ _ Reachable.new hrun
  have hI2 := reachable_inv _ _ hr2
  have hdel : delete_impl identity_hash (place dup_state 0 3 64 2000) 64
      = (true, erased (place dup_state 0 3 64 2000) 0) :=
    delete_of_fast identity_hash _ hI2 64 _ (by decide!)
  have hr3 : Reachable identity_hash (erased (place dup_state 0 3 64 2000) 0) := by
    have := Reachable.erase _ 64 hr2
    rw [hdel] at this
    exact this
  exact ⟨_, _, hrun, hdel, at_of_fast identity_hash _ (reachable_inv _ _ hr3) 64 _ (by decide!)⟩

/-- C6 fails on the code. With sixteen keys of fingerprint 1 filling group 0, the
calls `insert(2 ^ 24, 77); erase(2 ^ 24); insert(2 ^ 24, 88)` return `true`, `false`,
`false`, and `at(2 ^ 24)` is then 77, not 88. -/
theorem erase_then_reinsert_refused :
    ∃ m : HashMap Nat Nat,
      run identity_hash 9 (chain_calls ++ [Op.erase (2 ^ 24), Op.insert (2 ^ 24) 88])
          HashMap.new
        = some (List.replicate 17 true ++ [false, false], m) ∧
      at_impl identity_hash m (2 ^ 24) = some 77 := by
  have hI := reachable_inv _ _ chain_state_reachable
  have htail : run identity_hash 9 [Op.erase (2 ^ 24), Op.insert (2 ^ 24) 88] chain_state
      = some ([false, false], chain_state) :=
    run_of_fast identity_hash 9 _ _ hI _ (by decide!)
  exact ⟨chain_state, run_append identity_hash 9 _ _ _ _ _ _ _ chain_state_run htail,
    at_of_fast identity_hash _ hI _ _ (by decide!)⟩

/-- C8 fails on the code. After `loaded_dup_calls` (57 successful inserts, one
successful erase, key 64 stored twice) `size()` is 56 as counted; the next insert
succeeds and grows the table, the re-insertion drops the second copy of key 64, and
`size()` is still 56 where 58 inserts and one erase have succeeded. -/
theorem size_accounting_breaks :
    ∃ (bs : List Bool) (m : HashMap Nat Nat) (b : Bool) (m2 : HashMap Nat Nat),
      run identity_hash 9 loaded_dup_calls HashMap.new = some (bs, m) ∧
      net_successes loaded_dup_calls bs = 56 ∧
      m.size = 56 ∧
      insert_impl identity_hash 17 m 100 5 = some (b, m2) ∧
      net_successes (loaded_dup_calls ++ [Op.insert 100 5]) (bs ++ [b]) = 57 ∧
      m2.size = 56 :=
  ⟨List.replicate 58 true, loaded_dup_state, true,
    after_insert identity_hash 17 loaded_dup_state 100 5, loaded_dup_state_run, by decide!, rfl,
    insert_of_fast identity_hash 17 _ (reachable_inv _ _ loaded_dup_state_reachable) 100 5 _
      loaded_dup_grow,
    by decide!, by decide!⟩

/-- C10 fails on the code. After `wrap_calls` key 112 is stored twice and `at(112)` is
2000; `insert(200, 5)`, of another key, grows the table, the re-insertion keeps the
copy with the lower slot index, and `at(112)` is 1000 afterwards. -/
theorem insert_disturbs_other_key :
    ∃ m m2 : HashMap Nat Nat,
      run identity_hash 9 wrap_calls HashMap.new = some (List.replicate 58 true, m) ∧
      at_impl identity_hash m 112 = some 2000 ∧
      insert_impl identity_hash 17 m 200 5 = some (true, m2) ∧
      at_impl identity_hash m2 112 = some 1000 := by
  have hI := reachable_inv _ _ wrap_state_reachable
  have hins : insert_impl identity_hash 17 wrap_state 200 5
      = some (true, after_insert identity_hash 17 wrap_state 200 5) :=
    insert_of_fast identity_hash 17 _ hI 200 5 _ wrap_grow
  have hI2 := insert_impl_inv identity_hash 17 _ 200 5 _ hI hins
  exact ⟨wrap_state, _, wrap_state_run, at_of_fast identity_hash _ hI 112 _ (by decide!),
    hins, at_of_fast identity_hash _ hI2 112 _ (by decide!)⟩

theorem testBit_nibbles : ∀ (bs : List Bool) (j : Nat),
    (nibbles bs).testBit j = bs.getD (j / 4) false := by
  intro bs
  induction bs with
  | nil => intro j; simp [nibbles]
  | cons b bs ih =>
    intro j
    have e : nibbles (b :: bs) = 2 ^ 4 * nibbles bs + (if b then 15 else 0) := by
      simp only [nibbles]; ring
    have hlt : (if b then 15 else 0) < 2 ^ 4 := by split <;> norm_num
    rw [e, Nat.testBit_mul_pow_two_add _ hlt]
    by_cases hj : j < 4
    · rw [if_pos hj]
      have h0 : j / 4 = 0 := by omega
      rw [h0, List.getD_cons_zero]
      cases b
      · simp
      · have : j = 0 ∨ j = 1 ∨ j = 2 ∨ j = 3 := by omega
        rcases this with h | h | h | h <;> subst h <;> decide
    · rw [if_neg hj, ih]
      have h1 : j / 4 = (j - 4) / 4 + 1 := by omega
      rw [h1, List.getD_cons_succ]

theorem lanes_getD_any (group : List Nat) (t i : Nat) (h : 16 ≤ group.length) :
    (lanes group t).getD i false = (decide (i < 16) && decide (group.getD i 0 = t)) := by
  by_cases hi : i < 16
  · have := lanes_getD group 0 t i hi (by omega)
    simp only [List.drop_zero, Nat.zero_add] at this
    rw [this]
    simp [hi]
  · have hl : (lanes group t).length ≤ i := by
      simp only [lanes, List.length_map, List.length_take]; omega
    rw [List.getD_eq_default _ _ hl]
    simp [hi]

theorem matcher_eq_nibbles (group : List Nat) (t : Nat) (h : 16 ≤ group.length) :
    vec_to_bitmask (vceqq_u8 (vld1q_u8 group) (vdupq_n_u8 t)) = nibbles (lanes group t) :=
  match_target_eq group t 8 (by simp; omega)

/-- The three matchers of a full group are the nibble masks of their lane flags. -/
theorem matchers_eq (group : List Nat) (h : 16 ≤ group.length) (fp : Nat) :
    match_hash group fp = nibbles (lanes group (occupied_byte fp)) ∧
    match_empty group = nibbles (lanes group empty_mask) ∧
    match_deleted group = nibbles (lanes group deleted_mask) :=
  ⟨matcher_eq_nibbles group _ h, matcher_eq_nibbles group _ h, matcher_eq_nibbles group _ h⟩

/-- C16 fails as stated: in a group whose only matching lane is lane 0, the mask of
`match_hash` also has bit 1 set, although control byte 1 is not the occupied byte. -/
theorem match_hash_bit_per_lane_fails :
    (match_hash (3 :: List.replicate 15 2) 0).testBit 1 = true ∧
    (3 :: List.replicate 15 2).getD 1 0 ≠ occupied_byte 0 := by
  decide

/-- C16 as amended: for a full group of 16 control bytes, bit `j` of the mask of
`match_hash` is set iff `j < 64` and control byte `j / 4` is the occupied byte of the
fingerprint (four mask bits per lane, none above bit 63); likewise for `match_empty`
and `match_deleted` with the `EMPTY` and `DELETED` sentinels. -/
theorem matcher_mask_layout (group : List Nat) (h : 16 ≤ group.length) (fp j : Nat) :
    ((match_hash group fp).testBit j = true ↔
      j < 64 ∧ group.getD (j / 4) 0 = occupied_byte fp) ∧
    ((match_empty group).testBit j = true ↔ j < 64 ∧ group.getD (j / 4) 0 = empty_mask) ∧
    ((match_deleted group).testBit j = true ↔
      j < 64 ∧ group.getD (j / 4) 0 = deleted_mask) := by
  obtain ⟨h1, h2, h3⟩ := matchers_eq group h fp
  have key : ∀ t, (nibbles (lanes group t)).testBit j = true ↔
      j < 64 ∧ group.getD (j / 4) 0 = t := by
    intro t
    rw [testBit_nibbles, lanes_getD_any group t _ h]
    simp only [Bool.and_eq_true, decide_eq_true_eq]
    constructor
    · rintro ⟨ha, hb⟩; exact ⟨by omega, hb⟩
    · rintro ⟨ha, hb⟩; exact ⟨by omega, hb⟩
  rw [h1, h2, h3]
  exact ⟨key _, key _, key _⟩

/-- Witness of the amended C16 on a group whose lanes 0 and 5 are occupied with
fingerprint 0: bit 21 of the mask belongs to lane 5. -/
theorem matcher_mask_layout_witness :
    ((match_hash ([3, 2, 2, 2, 2, 3] ++ List.replicate 10 2) 0).testBit 21 = true ↔
      21 < 64 ∧ ([3, 2, 2, 2, 2, 3] ++ List.replicate 10 2).getD (21 / 4) 0
        = occupied_byte 0) ∧
    ((match_empty ([3, 2, 2, 2, 2, 3] ++ List.replicate 10 2)).testBit 21 = true ↔
      21 < 64 ∧ ([3, 2, 2, 2, 2, 3] ++ List.replicate 10 2).getD (21 / 4) 0 = empty_mask) ∧
    ((match_deleted ([3, 2, 2, 2, 2, 3] ++ List.replicate 10 2)).testBit 21 = true ↔
      21 < 64 ∧ ([3, 2, 2, 2, 2, 3] ++ List.replicate 10 2).getD (21 / 4) 0
        = deleted_mask) :=
  matcher_mask_layout ([3, 2, 2, 2, 2, 3] ++ List.replicate 10 2) (by decide) 0 21

/-- C18. The control-byte codec: the fingerprint of a hash value is below 64, its
occupied byte `(fp << 2) | 3` fits in 8 bits, differs from both sentinels and gives
the fingerprint back by `>> 2` (so distinct fingerprints give distinct bytes); the
test `(byte & 0b11) == 0b11` holds of every occupied byte and of neither sentinel, so
each byte the table writes is in exactly one of the three states. -/
theorem control_byte_codec {K : Type} (hasher : K → Nat) (key : K) :
    fingerprint hasher key = hasher key % 2 ^ 64 / 2 ^ 23 % 64 ∧
    fingerprint hasher key < 64 ∧
    ((fingerprint hasher key <<< 2) ||| 3) < 256 ∧
    occupied_byte (fingerprint hasher key) = (fingerprint hasher key <<< 2) ||| 3 ∧
    occupied_byte (fingerprint hasher key) ≠ empty_mask ∧
    occupied_byte (fingerprint hasher key) ≠ deleted_mask ∧
    occupied_byte (fingerprint hasher key) >>> 2 = fingerprint hasher key ∧
    (∀ fp1 fp2, fp1 < 64 → fp2 < 64 → occupied_byte fp1 = occupied_byte fp2 → fp1 = fp2) ∧
    is_occupied (occupied_byte (fingerprint hasher key)) ∧
    ¬ is_occupied empty_mask ∧ ¬ is_occupied deleted_mask ∧ empty_mask ≠ deleted_mask ∧
    (∀ b, b = occupied_byte (fingerprint hasher key) ∨ b = empty_mask ∨ b = deleted_mask →
      (is_occupied b ∧ b ≠ empty_mask ∧ b ≠ deleted_mask) ∨
      (¬ is_occupied b ∧ b = empty_mask ∧ b ≠ deleted_mask) ∨
      (¬ is_occupied b ∧ b ≠ empty_mask ∧ b = deleted_mask)) := by
  have hfp : fingerprint hasher key = hasher key % 2 ^ 64 / 2 ^ 23 % 64 := by
    have h : ∀ x, x &&& 63 = x % 64 := fun x => Nat.and_pow_two_sub_one_eq_mod x 6
    simp only [fingerprint, Nat.shiftRight_eq_div_pow]
    exact h _
  have hlt : fingerprint hasher key < 64 := by
    rw [hfp]; exact Nat.mod_lt _ (by norm_num)
  have hor : ∀ x, x <<< 2 ||| 3 = 4 * x + 3 := by
    intro x
    rw [Nat.shiftLeft_eq, show (2 : Nat) ^ 2 = 4 by norm_num, Nat.mul_comm]
    exact (Nat.mul_add_lt_is_or (i := 2) (by norm_num) x).symm
  have hocc : ∀ x, x < 64 → occupied_byte x = 4 * x + 3 := by
    intro x hx
    rw [occupied_byte_val]; omega
  have hne := occupied_byte_ne (fingerprint hasher key)
  have hio := is_occupied_occupied_byte (fingerprint hasher key)
  have he : ¬ is_occupied empty_mask := by rw [is_occupied_iff]; decide
  have hd : ¬ is_occupied deleted_mask := by rw [is_occupied_iff]; decide
  refine ⟨hfp, hlt, by rw [hor]; omega, by rw [hocc _ hlt, hor], hne.1, hne.2, ?_, ?_, hio,
    he, hd, by decide, ?_⟩
  · rw [hocc _ hlt, Nat.shiftRight_eq_div_pow]; omega
  · intro a b ha hb hab
    rw [hocc _ ha, hocc _ hb] at hab; omega
  · intro b hb
    rcases hb with rfl | rfl | rfl
    · exact Or.inl ⟨hio, hne.1, hne.2⟩
    · exact Or.inr (Or.inl ⟨he, rfl, by decide⟩)
    · exact Or.inr (Or.inr ⟨hd, by decide, rfl⟩)


theorem mask_slots_zero (n : Nat) : mask_slots n 0 = [] := by
  cases n <;> simp [mask_slots]

theorem mask_slots_step (n a q : Nat) (ha : a < 64) :
    mask_slots (n + 1) (2 ^ a * (2 * q + 1)) = (a / 4) :: mask_slots n (2 ^ (a + 1) * q) := by
  have hpos : 2 ^ a * (2 * q + 1) ≠ 0 := by positivity
  rw [mask_slots, if_neg hpos]
  simp only [__builtin_ctzll, ctzAux_two_pow_mul a 64 q ha, Nat.shiftRight_eq_div_pow,
    land_pred_two_pow_mul]

theorem mask_slots_nibbles : ∀ (bs : List Bool) (i rounds : Nat), 4 * bs.length ≤ rounds →
    4 * (i + bs.length) ≤ 64 → mask_slots rounds (16 ^ i * nibbles bs) = lane_visits i bs := by
  intro bs
  induction bs with
  | nil => intro i rounds _ _; simp [nibbles, lane_visits, mask_slots_zero]
  | cons b bs ih =>
    intro i rounds hr hi
    simp only [List.length_cons] at hr hi
    cases b with
    | false =>
      have e : 16 ^ i * nibbles (false :: bs) = 16 ^ (i + 1) * nibbles bs := by
        simp [nibbles]; ring
      rw [e, ih (i + 1) rounds (by omega) (by omega)]
      simp [lane_visits]
    | true =>
      obtain ⟨r, rfl⟩ : ∃ r, rounds = r + 4 := ⟨rounds - 4, by omega⟩
      have e16 : (16 : Nat) ^ i = 2 ^ (4 * i) := by
        rw [show (16 : Nat) = 2 ^ 4 by norm_num, ← pow_mul]
      have s0 : 16 ^ i * nibbles (true :: bs) = 2 ^ (4 * i) * (2 * (7 + 8 * nibbles bs) + 1) := by
        simp [nibbles, e16]; ring
      have s1 : 2 ^ (4 * i + 1) * (7 + 8 * nibbles bs)
          = 2 ^ (4 * i + 1) * (2 * (3 + 4 * nibbles bs) + 1) := by ring
      have s2 : 2 ^ (4 * i + 1 + 1) * (3 + 4 * nibbles bs)
          = 2 ^ (4 * i + 2) * (2 * (1 + 2 * nibbles bs) + 1) := by ring
      have s3 : 2 ^ (4 * i + 2 + 1) * (1 + 2 * nibbles bs)
          = 2 ^ (4 * i + 3) * (2 * (nibbles bs) + 1) := by ring
      have s4 : 2 ^ (4 * i + 3 + 1) * nibbles bs = 16 ^ (i + 1) * nibbles bs := by
        rw [show (16 : Nat) = 2 ^ 4 by norm_num, ← pow_mul]; ring
      have d0 : 4 * i / 4 = i := by omega
      have d1 : (4 * i + 1) / 4 = i := by omega
      have d2 : (4 * i + 2) / 4 = i := by omega
      have d3 : (4 * i + 3) / 4 = i := by omega
      rw [s0, mask_slots_step _ _ _ (by omega), d0,
        s1, mask_slots_step _ _ _ (by omega), d1,
        s2, mask_slots_step _ _ _ (by omega), d2,
        s3, mask_slots_step _ _ _ (by omega), d3,
        s4, ih (i + 1) r (by omega) (by omega)]
      simp [lane_visits]

theorem mem_lane_visits : ∀ (bs : List Bool) (i s : Nat),
    s ∈ lane_visits i bs ↔ i ≤ s ∧ s < i + bs.length ∧ bs.getD (s - i) false = true := by
  intro bs
  induction bs with
  | nil => intro i s; simp [lane_visits]
  | cons b bs ih =>
    intro i s
    simp only [lane_visits, List.mem_append, ih, List.length_cons]
    by_cases hs : s = i
    · subst hs
      cases b <;> simp
    · have e : s - i = (s - (i + 1)) + 1 ∨ s < i := by omega
      rcases e with e | e
      · rw [e, List.getD_cons_succ]
        have : s ∉ (if b = true then [i, i, i, i] else []) := by
          cases b <;> simp [hs]
        constructor
        · rintro (h | ⟨h1, h2, h3⟩)
          · exact absurd h this
          · exact ⟨by omega, by omega, h3⟩
        · rintro ⟨h1, h2, h3⟩
          exact Or.inr ⟨by omega, by omega, h3⟩
      · have : s ∉ (if b = true then [i, i, i, i] else []) := by
          cases b <;> simp [hs]
        constructor
        · rintro (h | ⟨h1, _, _⟩)
          · exact absurd h this
          · omega
        · rintro ⟨h1, _, _⟩; omega

theorem lane_visits_sorted : ∀ (bs : List Bool) (i : Nat),
    (lane_visits i bs).Pairwise (fun a b => a ≤ b) := by
  intro bs
  induction bs with
  | nil => intro i; simp [lane_visits]
  | cons b bs ih =>
    intro i
    simp only [lane_visits]
    rw [List.pairwise_append]
    refine ⟨by cases b <;> simp, ih (i + 1), ?_⟩
    intro a ha c hc
    have h1 : a = i := by
      cases b <;> simp at ha
      exact ha
    have h2 := ((mem_lane_visits bs (i + 1) c).1 hc).1
    omega

theorem lane_visits_length : ∀ (bs : List Bool) (i : Nat),
    (lane_visits i bs).length ≤ 4 * bs.length := by
  intro bs
  induction bs with
  | nil => intro i; simp [lane_visits]
  | cons b bs ih =>
    intro i
    have := ih (i + 1)
    cases b <;> simp [lane_visits] <;> omega

theorem mask_slots_iterate : ∀ (rounds mask : Nat),
    (mask_slots rounds mask).length < rounds →
    (fun x => x &&& (x - 1))^[(mask_slots rounds mask).length] mask = 0 := by
  intro rounds
  induction rounds with
  | zero => intro mask h; omega
  | succ n ih =>
    intro mask h
    rw [mask_slots] at h ⊢
    by_cases hm : mask = 0
    · rw [if_pos hm]; simpa using hm
    · rw [if_neg hm] at h ⊢
      simp only [List.length_cons] at h ⊢
      rw [Function.iterate_succ_apply]
      exact ih _ (by omega)

section
variable {K V : Type} [DecidableEq K] [Inhabited K] [Inhabited V]

/-- The key search of the three operations is a search through the visits of the
mask loop. -/
theorem probe_mask_eq_find (values : List (K × V)) (key : K) (start : Nat) :
    ∀ (rounds mask : Nat), probe_mask values key start rounds mask
      = ((mask_slots rounds mask).find?
          (fun s => decide ((values.getD (start + s) default).1 = key))).map
          (fun s => start + s) := by
  intro rounds
  induction rounds with
  | zero => intro mask; rfl
  | succ n ih =>
    intro mask
    rw [probe_mask, mask_slots]
    by_cases hm : mask = 0
    · rw [if_pos hm, if_pos hm]; rfl
    · rw [if_neg hm, if_neg hm]
      by_cases hk : (values.getD (start + __builtin_ctzll mask >>> 2) default).1 = key
      · simp only [hk, if_true, List.find?_cons, decide_True, Option.map_some']
      · simp only [hk, if_false, List.find?_cons, decide_False]
        exact ih _

end

/-- C17. Mask iteration visits the right lanes: for a full group and the mask of any
of the three matchers, the loop `slot = ctz(mask) >> 2; mask &= mask - 1` run until
the mask is zero ends within 64 rounds, yields only offsets below 16, in
non-decreasing order, the offsets yielded are exactly the lanes whose control byte
is the target, the first one is the lowest such lane, and the mask is zero iff no
lane matches; the key search of insert, at and erase is a search through these
visits. -/
theorem mask_iteration (group : List Nat) (h : 16 ≤ group.length) (fp mask t : Nat)
    (hm : (mask = match_hash group fp ∧ t = occupied_byte fp) ∨
      (mask = match_empty group ∧ t = empty_mask) ∨
      (mask = match_deleted group ∧ t = deleted_mask))
    (rounds : Nat) (hr : 64 ≤ rounds) :
    (∃ n, n ≤ 64 ∧ (fun x => x &&& (x - 1))^[n] mask = 0 ∧
      (mask_slots rounds mask).length = n) ∧
    (∀ s ∈ mask_slots rounds mask, s < 16) ∧
    (mask_slots rounds mask).Pairwise (fun a b => a ≤ b) ∧
    (∀ s, s ∈ mask_slots rounds mask ↔ s < 16 ∧ group.getD s 0 = t) ∧
    (∀ s, (mask_slots rounds mask).head? = some s →
      group.getD s 0 = t ∧ ∀ s2, s2 < s → group.getD s2 0 ≠ t) ∧
    (mask = 0 ↔ ∀ s, s < 16 → group.getD s 0 ≠ t) ∧
    (∀ (values : List (Nat × Nat)) (key start : Nat),
      probe_mask values key start rounds mask
        = ((mask_slots rounds mask).find?
            (fun s => decide ((values.getD (start + s) default).1 = key))).map
            (fun s => start + s)) := by
  have hmask : mask = nibbles (lanes group t) := by
    obtain ⟨h1, h2, h3⟩ := matchers_eq group h fp
    rcases hm with ⟨rfl, rfl⟩ | ⟨rfl, rfl⟩ | ⟨rfl, rfl⟩
    · exact h1
    · exact h2
    · exact h3
  have hlen : (lanes group t).length = 16 := by
    simp only [lanes, List.length_map, List.length_take]; omega
  have hslots : ∀ r, 64 ≤ r → mask_slots r mask = lane_visits 0 (lanes group t) := by
    intro r hr'
    have := mask_slots_nibbles (lanes group t) 0 r (by omega) (by omega)
    rw [pow_zero, one_mul] at this
    rw [hmask, this]
  have hmem : ∀ s, s ∈ lane_visits 0 (lanes group t) ↔ s < 16 ∧ group.getD s 0 = t := by
    intro s
    rw [mem_lane_visits, hlen, Nat.sub_zero, lanes_getD_any group t s h]
    simp only [Bool.and_eq_true, decide_eq_true_eq]
    constructor
    · rintro ⟨_, _, h1, h2⟩; exact ⟨h1, h2⟩
    · rintro ⟨h1, h2⟩; exact ⟨by omega, by omega, h1, h2⟩
  have hsorted := lane_visits_sorted (lanes group t) 0
  rw [hslots rounds hr]
  refine ⟨?_, fun s hs => ((hmem s).1 hs).1, hsorted, hmem, ?_, ?_, ?_⟩
  · have hl := lane_visits_length (lanes group t) 0
    have hit := mask_slots_iterate 65 mask (by rw [hslots 65 (by omega)]; omega)
    rw [hslots 65 (by omega)] at hit
    exact ⟨_, by omega, hit, rfl⟩
  · intro s hs
    cases hl : lane_visits 0 (lanes group t) with
    | nil => rw [hl] at hs; simp at hs
    | cons a rest =>
      rw [hl] at hs hsorted
      simp only [List.head?_cons, Option.some.injEq] at hs
      subst hs
      have ha : a ∈ lane_visits 0 (lanes group t) := by rw [hl]; exact List.mem_cons_self _ _
      refine ⟨((hmem a).1 ha).2, ?_⟩
      intro s2 hs2 heq
      have hin : s2 ∈ lane_visits 0 (lanes group t) :=
        (hmem s2).2 ⟨by have := ((hmem a).1 ha).1; omega, heq⟩
      rw [hl] at hin
      rcases List.mem_cons.1 hin with h1 | h1
      · omega
      · have := (List.pairwise_cons.1 hsorted).1 s2 h1
        omega
  · rw [hmask, nibbles_eq_zero_iff]
    constructor
    · intro hall s hs heq
      have h1 := lanes_getD_any group t s h
      have h2 : (lanes group t).getD s false = false := by
        rw [List.getD_eq_getElem _ _ (by omega)]
        exact hall _ (List.getElem_mem _)
      rw [h2] at h1
      have ht : (decide (s < 16) && decide (group.getD s 0 = t)) = true := by
        rw [Bool.and_eq_true]
        exact ⟨decide_eq_true hs, decide_eq_true heq⟩
      rw [ht] at h1
      exact Bool.false_ne_true h1
    · intro hall b hb
      obtain ⟨s, hs, rfl⟩ := List.getElem_of_mem hb
      rw [hlen] at hs
      have h1 := lanes_getD_any group t s h
      rw [List.getD_eq_getElem _ _ (by omega)] at h1
      rw [h1, decide_eq_false (hall s hs), Bool.and_false]
  · intro values key start
    rw [← hslots rounds hr]
    exact probe_mask_eq_find values key start rounds mask

/-- Witness of C17 on the `match_hash` mask of a group whose lanes 0 and 5 are
occupied with fingerprint 0. -/
theorem mask_iteration_witness :
    mask_slots 64 (match_hash ([3, 2, 2, 2, 2, 3] ++ List.replicate 10 2) 0)
      = [0, 0, 0, 0, 5, 5, 5, 5] ∧
    ∀ s, s ∈ mask_slots 64 (match_hash ([3, 2, 2, 2, 2, 3] ++ List.replicate 10 2) 0) ↔
      s < 16 ∧ ([3, 2, 2, 2, 2, 3] ++ List.replicate 10 2).getD s 0 = occupied_byte 0 :=
  ⟨by decide,
   (mask_iteration ([3, 2, 2, 2, 2, 3] ++ List.replicate 10 2) (by decide) 0 _ _
    (Or.inl ⟨rfl, rfl⟩) 64 (by decide)).2.2.2.1⟩


section
variable {K V : Type} [DecidableEq K] [Inhabited K] [Inhabited V]

theorem byteAt_eq_getElem (m : HashMap K V) (i : Nat) (hi : i < m.buckets.length) :
    byteAt m i = m.buckets[i] := by
  rw [byteAt, List.getD_eq_getElem _ _ hi]

/-- Writing an entry into a free slot below the growth threshold keeps the counter
invariant. -/
theorem Counts_place (m : HashMap K V) (hC : Counts m) (idx h2 : Nat) (key : K) (value : V)
    (hidx : idx < m.buckets.length) (hfree : byteAt m idx = 2 ∨ byteAt m idx = 1)
    (hroom : m.load + 1 ≤ m.buckets.length) :
    Counts (place m idx (occupied_byte h2) key value) := by
  have hc := List.countP_set (fun b => decide (is_occupied b)) m.buckets idx
    (occupied_byte h2) hidx
  have hp1 : decide (is_occupied m.buckets[idx]) = false := by
    rw [← byteAt_eq_getElem m idx hidx]
    simp only [decide_eq_false_iff_not, is_occupied_iff]
    omega
  have hp2 : decide (is_occupied (occupied_byte h2)) = true := by
    simp only [decide_eq_true_eq]
    exact is_occupied_occupied_byte h2
  rw [hp1, hp2] at hc
  simp only [Bool.false_eq_true, if_false, if_true, Nat.sub_zero] at hc
  have h1 := hC.size_eq
  have h2' := hC.size_le_load
  refine ⟨?_, ?_, ?_⟩
  · simp only [place, occupied_count] at hc ⊢
    rw [hc, h1]
    rfl
  · simp only [place]; omega
  · simp only [place, List.length_set]; omega

/-- Turning an occupied slot into a tombstone keeps the counter invariant. -/
theorem Counts_erased (m : HashMap K V) (hC : Counts m) (idx : Nat)
    (hidx : idx < m.buckets.length) (hocc : is_occupied (byteAt m idx)) :
    Counts (erased m idx) ∧ (erased m idx)._size + 1 = m._size := by
  have hc := List.countP_set (fun b => decide (is_occupied b)) m.buckets idx 1 hidx
  have hle := List.boole_getElem_le_countP (fun b => decide (is_occupied b)) m.buckets idx hidx
  have hp1 : decide (is_occupied m.buckets[idx]) = true := by
    rw [← byteAt_eq_getElem m idx hidx]
    simpa using hocc
  have hp2 : decide (is_occupied 1) = false := by
    simp only [decide_eq_false_iff_not, is_occupied_iff]
    omega
  rw [hp1, hp2] at hc
  rw [hp1] at hle
  simp only [Bool.false_eq_true, if_false, if_true, Nat.add_zero] at hc hle
  have h1 := hC.size_eq
  have h2' := hC.size_le_load
  have h3 := hC.load_le_cap
  simp only [occupied_count] at h1
  refine ⟨⟨?_, ?_, ?_⟩, ?_⟩
  · simp only [erased, occupied_count, deleted_mask]
    rw [hc, h1]
  · simp only [erased]; omega
  · simp only [erased, List.length_set]; exact h3
  · simp only [erased]; omega

theorem Counts_grown (len : Nat) : Counts (grown len : HashMap K V) := by
  refine ⟨?_, Nat.le_refl _, Nat.zero_le _⟩
  have : occupied_count (grown len : HashMap K V) = 0 := by
    simp only [occupied_count]
    rw [List.countP_eq_zero]
    intro a ha
    simp only [grown] at ha
    have := List.eq_of_mem_replicate ha
    rw [this]
    simp only [decide_eq_true_eq, is_occupied_iff, empty_mask]
    omega
  rw [this]
  rfl

/-- The shape of the result of `insert_impl`: the table after the growth check, either
unchanged with `false`, or with the entry written into a free slot with `true`. -/
theorem insert_impl_struct (hasher : K → Nat) (m : HashMap K V) (hI : Inv hasher m) (key : K)
    (value : V) (f : Nat) (hf0 : 0 < f) (hf : m.buckets.length / 8 ≤ f) :
    ∃ m1, rehash_if_needed (insert_impl hasher f) m = some m1 ∧ Inv hasher m1 ∧
      m1.load * 8 ≤ m1.buckets.length * 7 ∧
      (m1 = m ∨ (m.load * 8 > m.buckets.length * 7 ∧
        m1.buckets.length = 2 * m.buckets.length)) ∧
      ((insert_impl hasher (f + 1) m key value = some (false, m1) ∧ HoldsKey m1 key) ∨
        ∃ idx, idx < m1.buckets.length ∧ (byteAt m1 idx = 2 ∨ byteAt m1 idx = 1) ∧
          insert_impl hasher (f + 1) m key value
            = some (true, place m1 idx (occupied_byte (fingerprint hasher key)) key value)) := by
  obtain ⟨m1, h1, hI1, hload1, hcap, _, _⟩ := rehash_spec hasher f hf0 m hI hf
  have hw := hI.whole_groups
  have hf1 : m1.buckets.length / 16 ≤ f + 1 := by
    rcases hcap with rfl | ⟨_, h⟩
    · omega
    · rw [h]; omega
  refine ⟨m1, h1, hI1, hload1, hcap, ?_⟩
  rw [insert_impl_succ, h1]
  simp only
  rcases insert_core_spec hasher m1 hI1 hload1 key value (f + 1) hf1 with
    ⟨hres, hheld⟩ | ⟨idx, hidx, hfree, hres, _, _⟩
  · exact Or.inl ⟨hres, hheld⟩
  · exact Or.inr ⟨idx, hidx, hfree, hres⟩

/-- Induction along the re-insertion loop of growth: a property kept by writing an
entry into a free slot below the growth threshold holds of the result, and every
re-insertion runs without a growth of its own. -/
theorem reinsert_all_induct (hasher : K → Nat) (fuel : Nat) (hfuel : 0 < fuel)
    (P : HashMap K V → Prop)
    (hstep : ∀ acc idx k v, Inv hasher acc → P acc → idx < acc.buckets.length →
      (byteAt acc idx = 2 ∨ byteAt acc idx = 1) → acc.load * 8 ≤ acc.buckets.length * 7 →
      P (place acc idx (occupied_byte (fingerprint hasher k)) k v)) :
    ∀ (entries : List (Nat × (K × V))) (acc : HashMap K V), Inv hasher acc → P acc →
      (acc.load + entries.length) * 8 ≤ acc.buckets.length * 7 →
      acc.buckets.length / 16 ≤ fuel →
      ∀ m1, reinsert_all (insert_impl hasher fuel) entries acc = some m1 →
        P m1 ∧ reinsert_all (insert_no_growth hasher fuel) entries acc = some m1 := by
  obtain ⟨f, rfl⟩ : ∃ f, fuel = f + 1 := ⟨fuel - 1, by omega⟩
  intro entries
  induction entries with
  | nil =>
    intro acc _ hP _ _ m1 h
    simp only [reinsert_all, Option.some.injEq] at h
    subst h
    exact ⟨hP, rfl⟩
  | cons e rest ih =>
    intro acc hI hP hload hf m1 h
    obtain ⟨b, kv⟩ := e
    simp only [List.length_cons] at hload
    have hng : insert_no_growth hasher (f + 1) acc kv.1 kv.2
        = insert_impl hasher (f + 1) acc kv.1 kv.2 := by
      rw [insert_impl_idle hasher f acc kv.1 kv.2 (by omega)]
      rfl
    by_cases hocc : b &&& occupied_mask = occupied_mask
    · simp only [reinsert_all, if_pos hocc] at h ⊢
      rw [hng]
      rw [insert_impl_idle hasher f acc kv.1 kv.2 (by omega)] at h ⊢
      rcases insert_core_spec hasher acc hI (by omega) kv.1 kv.2 (f + 1) hf with
        ⟨hres, _⟩ | ⟨idx, hidx, hfree, hres, hI2, _⟩
      · rw [hres] at h ⊢
        exact ih acc hI hP (by omega) hf m1 h
      · rw [hres] at h ⊢
        have hlen := length_place acc idx (occupied_byte (fingerprint hasher kv.1)) kv.1 kv.2
        exact ih _ hI2 (hstep acc idx kv.1 kv.2 hI hP hidx hfree (by omega))
          (by rw [hlen]; simp only [place]; omega) (by rw [hlen]; exact hf) m1 h
    · simp only [reinsert_all, if_neg hocc] at h ⊢
      exact ih acc hI hP (by omega) hf m1 h

/-- The growth check keeps the counter invariant; when it grows, the new table has no
tombstone, its load count is its live count, and no re-insertion grew the table
again. -/
theorem rehash_counts (hasher : K → Nat) (fuel : Nat) (hfuel : 0 < fuel) (m : HashMap K V)
    (hI : Inv hasher m) (hC : Counts m) (hf : m.buckets.length / 8 ≤ fuel) :
    ∀ m1, rehash_if_needed (insert_impl hasher fuel) m = some m1 →
      Counts m1 ∧
      (m.load * 8 > m.buckets.length * 7 →
        NoTomb m1 ∧ m1.load = m1._size ∧
        rehash_if_needed (insert_no_growth hasher fuel) m = some m1) := by
  intro m1 h
  have hw := hI.whole_groups
  have hpos := hI.one_group
  by_cases hgrow : m.load * 8 > m.buckets.length * 7
  · rw [rehash_if_needed_grow _ _ hgrow] at h
    rw [rehash_if_needed_grow _ _ hgrow]
    have hlen := grown_length (K := K) (V := V) m.buckets.length hw
    have hzl : (m.buckets.zip m.values).length = m.buckets.length := by
      simp only [List.length_zip, hI.len_values]; omega
    have hg0 : (grown m.buckets.length : HashMap K V).load = 0 := rfl
    obtain ⟨⟨g1, g2, g3⟩, g4⟩ := reinsert_all_induct hasher fuel hfuel
      (fun a => Counts a ∧ NoTomb a ∧ a.load = a._size)
      (fun acc idx k v hA hP hidx hfree hl =>
        ⟨Counts_place acc hP.1 idx _ k v hidx hfree (by
            have := hA.whole_groups
            have := hA.one_group
            omega),
          NoTomb_place acc idx _ k v hidx hP.2.1,
          by simp only [place]; rw [hP.2.2]⟩)
      (m.buckets.zip m.values) (grown m.buckets.length) (Inv_grown hasher _ hw hpos)
      ⟨Counts_grown _, fun i hi => by rw [byteAt_grown _ i hi]; omega, rfl⟩
      (by rw [hlen, hzl, hg0]; omega) (by rw [hlen]; omega) m1 h
    exact ⟨g1, fun _ => ⟨g2, g3, g4⟩⟩
  · rw [rehash_if_needed_idle _ _ (by omega)] at h
    simp only [Option.some.injEq] at h
    subst h
    exact ⟨hC, fun hg => absurd hg hgrow⟩

/-- Any returning `insert` call keeps the counter invariant. -/
theorem insert_impl_counts (hasher : K → Nat) (m : HashMap K V) (hI : Inv hasher m)
    (hC : Counts m) (key : K) (value : V) (fuel : Nat) (b : Bool) (m2 : HashMap K V)
    (h : insert_impl hasher fuel m key value = some (b, m2)) : Counts m2 := by
  have hbig := insert_impl_mono_le hasher fuel (fuel + m.buckets.length / 8 + 1 + 1) (by omega)
    m key value _ h
  obtain ⟨m1, h1, hI1, hload1, _, hres⟩ := insert_impl_struct hasher m hI key value
    (fuel + m.buckets.length / 8 + 1) (by omega) (by omega)
  have hC1 := (rehash_counts hasher _ (by omega) m hI hC (by omega) m1 h1).1
  rcases hres with ⟨hres, _⟩ | ⟨idx, hidx, hfree, hres⟩
  · rw [hres] at hbig
    simp only [Option.some.injEq, Prod.mk.injEq] at hbig
    rw [← hbig.2]; exact hC1
  · rw [hres] at hbig
    simp only [Option.some.injEq, Prod.mk.injEq] at hbig
    rw [← hbig.2]
    exact Counts_place m1 hC1 idx _ key value hidx hfree (by
      have := hI1.whole_groups
      have := hI1.one_group
      omega)

/-- Any `erase` call keeps the counter invariant. -/
theorem delete_impl_counts (hasher : K → Nat) (m : HashMap K V) (hI : Inv hasher m)
    (hC : Counts m) (key : K) : Counts (delete_impl hasher m key).2 := by
  rw [delete_impl_eq]
  rcases delete_loop_spec m key (fingerprint hasher key) hI.whole_groups hI.one_group
      (m.buckets.length / 16) _ (home_group_lt hasher m key hI.whole_groups hI.one_group) with
    h | ⟨idx, hidx, hb, _, h⟩
  · rw [h]; exact hC
  · rw [h]
    exact (Counts_erased m hC idx hidx (by rw [hb]; exact is_occupied_occupied_byte _)).1

/-- Every reachable state satisfies the counter invariant. -/
theorem reachable_counts (hasher : K → Nat) (m : HashMap K V) (h : Reachable hasher m) :
    Counts m := by
  induction h with
  | new =>
    rw [new_eq_grown]
    exact Counts_grown 32
  | insert m m1 fuel key value b hr hins ih =>
    exact insert_impl_counts hasher m (reachable_inv hasher m hr) ih key value fuel b m1 hins
  | erase m key hr ih =>
    exact delete_impl_counts hasher m (reachable_inv hasher m hr) ih key

end


section
variable {K V : Type} [DecidableEq K] [Inhabited K] [Inhabited V]

theorem insert_loop_mono_le (m : HashMap K V) (key : K) (value : V) (h2 ins ng : Nat)
    (fuel fuel2 g : Nat) (hle : fuel ≤ fuel2) (r : Bool × HashMap K V)
    (h : insert_loop m key value h2 ins ng fuel g = some r) :
    insert_loop m key value h2 ins ng fuel2 g = some r := by
  induction hle with
  | refl => exact h
  | step _ ih => exact insert_loop_mono _ _ _ _ _ _ _ _ _ ih

theorem mask_slots_lanes (group : List Nat) (t r : Nat) (h : 16 ≤ group.length)
    (hr : 64 ≤ r) (s : Nat) (hs : s ∈ mask_slots r (nibbles (lanes group t))) : s < 16 := by
  have hlen : (lanes group t).length = 16 := by
    simp only [lanes, List.length_map, List.length_take]; omega
  have := mask_slots_nibbles (lanes group t) 0 r (by omega) (by omega)
  rw [pow_zero, one_mul] at this
  rw [this, mem_lane_visits, hlen] at hs
  omega

/-- A table that satisfies the invariant is index safe. -/
theorem IndexSafe_of_Inv (hasher : K → Nat) (m : HashMap K V) (hI : Inv hasher m) :
    IndexSafe hasher m := by
  have hw := hI.whole_groups
  have hpos := hI.one_group
  simp only [IndexSafe, HASH_SIMD_SIZE]
  refine ⟨hI.len_values, fun key => home_group_lt hasher m key hw hpos,
    fun g _ => Nat.mod_lt _ hpos, fun g hg => group_bound _ g hw hg, ?_, ?_⟩
  · intro g h2 s hg hs
    have hb := group_bound _ g hw hg
    rw [match_hash_eq _ _ _ hb] at hs
    have := mask_slots_lanes (m.buckets.drop (g * 16)) _ 64 (by simp; omega) (by omega) s hs
    omega
  · intro g hg hmask
    have hb := group_bound _ g hw hg
    have := (free_mask_slot m g hb hmask).1
    omega

/-- C11. Effect of erase on a reachable table: when `erase(key)` returns `false` the
table is unchanged; when it returns `true`, one control byte, of an occupied slot
whose key is `key`, becomes the `DELETED` sentinel, `_size` drops by exactly one, and
the load count, the capacity, the cells and every other control byte are as before. -/
theorem erase_effect (hasher : K → Nat) (m : HashMap K V) (hr : Reachable hasher m) (key : K) :
    ((delete_impl hasher m key).1 = false → (delete_impl hasher m key).2 = m) ∧
    ((delete_impl hasher m key).1 = true →
      ∃ idx, idx < m.buckets.length ∧ is_occupied (byteAt m idx) ∧
        (cellAt m idx).1 = key ∧
        (delete_impl hasher m key).2.buckets = m.buckets.set idx deleted_mask ∧
        byteAt (delete_impl hasher m key).2 idx = deleted_mask ∧
        (∀ i, i ≠ idx → byteAt (delete_impl hasher m key).2 i = byteAt m i) ∧
        (delete_impl hasher m key).2.values = m.values ∧
        (delete_impl hasher m key).2._size + 1 = m._size ∧
        (delete_impl hasher m key).2.load = m.load ∧
        (delete_impl hasher m key).2.buckets.length = m.buckets.length) := by
  have hI := reachable_inv hasher m hr
  have hC := reachable_counts hasher m hr
  rw [delete_impl_eq]
  rcases delete_loop_spec m key (fingerprint hasher key) hI.whole_groups hI.one_group
      (m.buckets.length / 16) _ (home_group_lt hasher m key hI.whole_groups hI.one_group) with
    h | ⟨idx, hidx, hb, hk, h⟩
  · rw [h]
    exact ⟨fun _ => rfl, fun hf => by simp at hf⟩
  · rw [h]
    have hocc : is_occupied (byteAt m idx) := by rw [hb]; exact is_occupied_occupied_byte _
    refine ⟨fun hf => by simp at hf, fun _ => ⟨idx, hidx, hocc, hk, rfl, ?_, ?_, rfl,
      (Counts_erased m hC idx hidx hocc).2, rfl, length_erased m idx⟩⟩
    · rw [byteAt_erased m idx idx hidx, if_pos rfl]; rfl
    · intro i hi
      rw [byteAt_erased m idx i hidx, if_neg hi]

/-- C12. Insert terminates on reachable tables: after the growth check the load count
bounds the number of slots that are not `EMPTY` and is at most seven eighths of the
capacity, so some slot is `EMPTY`, and the probe loop started at the home group
returns within `num_groups = capacity / 16` group visits; that result is the result
of `insert_impl`. -/
theorem insert_terminates (hasher : K → Nat) (m : HashMap K V) (hr : Reachable hasher m)
    (key : K) (value : V) (f : Nat) (hf : m.buckets.length / 8 ≤ f) :
    ∃ m1 r, rehash_if_needed (insert_impl hasher f) m = some m1 ∧
      m1.buckets.countP (fun b => decide (b ≠ empty_mask)) ≤ m1.load ∧
      m1.load * 8 ≤ m1.buckets.length * 7 ∧
      (∃ i, i < m1.buckets.length ∧ byteAt m1 i = empty_mask) ∧
      insert_no_growth hasher (m1.buckets.length / HASH_SIMD_SIZE) m1 key value = some r ∧
      insert_impl hasher (f + 1) m key value = some r := by
  have hI := reachable_inv hasher m hr
  have hw := hI.whole_groups
  have hpos := hI.one_group
  obtain ⟨m1, h1, hI1, hload1, hcap, _⟩ :=
    insert_impl_struct hasher m hI key value f (by omega) hf
  have hf1 : m1.buckets.length / 16 ≤ f + 1 := by
    rcases hcap with rfl | ⟨_, h⟩
    · omega
    · rw [h]; omega
  have hsome : ∃ r, insert_no_growth hasher (m1.buckets.length / HASH_SIMD_SIZE) m1 key value
      = some r := by
    simp only [insert_no_growth, HASH_SIMD_SIZE]
    rcases insert_core_spec hasher m1 hI1 hload1 key value (m1.buckets.length / 16)
        (Nat.le_refl _) with ⟨hres, _⟩ | ⟨idx, _, _, hres, _, _⟩
    · exact ⟨_, hres⟩
    · exact ⟨_, hres⟩
  obtain ⟨r, hres⟩ := hsome
  refine ⟨m1, r, h1, hI1.used_le_load, hload1, exists_empty hasher m1 hI1 hload1, hres, ?_⟩
  rw [insert_impl_succ, h1]
  simp only [insert_no_growth, HASH_SIMD_SIZE] at hres
  exact insert_loop_mono_le m1 key value _ _ _ _ _ _ hf1 r hres

/-- C13. Structural invariant of reachable tables: the metadata array and the slot
array have the same length, a positive multiple of the group width 16, and
`_size ≤ load ≤ capacity`; the fresh table has capacity 64. -/
theorem structural_invariant (hasher : K → Nat) (m : HashMap K V) (hr : Reachable hasher m) :
    (HashMap.new : HashMap K V).buckets.length = 64 ∧
    m.buckets.length = m.values.length ∧
    0 < m.buckets.length ∧ HASH_SIMD_SIZE ∣ m.buckets.length ∧
    m._size ≤ m.load ∧ m.load ≤ m.buckets.length := by
  have hI := reachable_inv hasher m hr
  have hC := reachable_counts hasher m hr
  have hw := hI.whole_groups
  have hpos := hI.one_group
  refine ⟨rfl, hI.len_values.symm, by omega, ?_, hC.size_le_load, hC.load_le_cap⟩
  exact ⟨m.buckets.length / 16, by simp only [HASH_SIMD_SIZE]; omega⟩

/-- C15. Growth policy on reachable tables: the growth check of an insert grows iff
`load * 8 > capacity * 7`; then the new capacity is twice the old one, the smallest
multiple of 16 that is at least that, no re-insertion grows the table again (running
the re-insertions without their growth check gives the same table), and the grown
table has no tombstone and `load = _size =` number of occupied slots; otherwise the
table is left as it is.  The insert then keeps the capacity, so the capacity never
decreases, nor does it under erase. -/
theorem growth_policy (hasher : K → Nat) (m : HashMap K V) (hr : Reachable hasher m)
    (key : K) (value : V) (f : Nat) (hf : m.buckets.length / 8 ≤ f) :
    ∃ m1 b m2, rehash_if_needed (insert_impl hasher f) m = some m1 ∧
      insert_impl hasher (f + 1) m key value = some (b, m2) ∧
      m2.buckets.length = m1.buckets.length ∧
      (m1.buckets.length ≠ m.buckets.length ↔ m.load * 8 > m.buckets.length * 7) ∧
      (m.load * 8 > m.buckets.length * 7 →
        m1.buckets.length = 2 * m.buckets.length ∧
        m1.buckets.length
          = ((m.buckets.length * 2 + HASH_SIMD_SIZE - 1) / HASH_SIMD_SIZE) * HASH_SIMD_SIZE ∧
        HASH_SIMD_SIZE ∣ m1.buckets.length ∧
        (∀ c, HASH_SIMD_SIZE ∣ c → 2 * m.buckets.length ≤ c → m1.buckets.length ≤ c) ∧
        rehash_if_needed (insert_no_growth hasher f) m = some m1 ∧
        NoTomb m1 ∧ m1.load = m1._size ∧ m1._size = occupied_count m1) ∧
      (¬ m.load * 8 > m.buckets.length * 7 → m1 = m) ∧
      m.buckets.length ≤ m2.buckets.length ∧
      (delete_impl hasher m key).2.buckets.length = m.buckets.length := by
  have hI := reachable_inv hasher m hr
  have hC := reachable_counts hasher m hr
  have hw := hI.whole_groups
  have hpos := hI.one_group
  obtain ⟨m1, h1, hI1, hload1, hcap, hres⟩ :=
    insert_impl_struct hasher m hI key value f (by omega) hf
  obtain ⟨hC1, hgrown⟩ := rehash_counts hasher f (by omega) m hI hC hf m1 h1
  have hdel : (delete_impl hasher m key).2.buckets.length = m.buckets.length := by
    rw [delete_impl_eq]
    rcases delete_loop_spec m key (fingerprint hasher key) hw hpos
        (m.buckets.length / 16) _ (home_group_lt hasher m key hw hpos) with
      h | ⟨idx, _, _, _, h⟩
    · rw [h]
    · rw [h]; exact length_erased m idx
  have hm2 : ∃ b m2, insert_impl hasher (f + 1) m key value = some (b, m2) ∧
      m2.buckets.length = m1.buckets.length := by
    rcases hres with ⟨hres, _⟩ | ⟨idx, _, _, hres⟩
    · exact ⟨false, m1, hres, rfl⟩
    · exact ⟨true, _, hres, length_place _ _ _ _ _⟩
  obtain ⟨b, m2, hins, hlen2⟩ := hm2
  refine ⟨m1, b, m2, h1, hins, hlen2, ?_, ?_, ?_, ?_, hdel⟩
  · rcases hcap with rfl | ⟨hg, h⟩
    · constructor
      · intro h; exact absurd rfl h
      · intro h; omega
    · constructor
      · intro _; exact hg
      · intro _; omega
  · intro hg
    have hlen1 : m1.buckets.length = 2 * m.buckets.length := by
      rcases hcap with rfl | ⟨_, h⟩
      · omega
      · exact h
    obtain ⟨g1, g2, g3⟩ := hgrown hg
    refine ⟨hlen1, by simp only [HASH_SIMD_SIZE]; omega,
      ⟨m.buckets.length / 16 * 2, by simp only [HASH_SIMD_SIZE]; omega⟩,
      fun c _ hc => by omega, g3, g1, g2, hC1.size_eq⟩
  · intro hg
    rcases hcap with h | ⟨hg', _⟩
    · exact h
    · exact absurd hg' hg
  · rcases hcap with rfl | ⟨_, h⟩
    · omega
    · omega

/-- C19. On reachable tables `size()` is the number of slots whose control byte is
occupied, and `empty()` holds iff no slot is occupied. -/
theorem size_counts_occupied (hasher : K → Nat) (m : HashMap K V) (hr : Reachable hasher m) :
    m.size = occupied_count m ∧
    (m.empty = true ↔ ¬ ∃ i, i < m.buckets.length ∧ is_occupied (byteAt m i)) := by
  have hC := reachable_counts hasher m hr
  refine ⟨hC.size_eq, ?_⟩
  have h0 : occupied_count m = 0 ↔ ¬ ∃ i, i < m.buckets.length ∧ is_occupied (byteAt m i) := by
    simp only [occupied_count, List.countP_eq_zero, decide_eq_true_eq]
    constructor
    · rintro h ⟨i, hi, ho⟩
      rw [byteAt_eq_getElem m i hi] at ho
      exact h _ (List.getElem_mem hi) ho
    · intro h a ha ho
      obtain ⟨i, hi, rfl⟩ := List.getElem_of_mem ha
      exact h ⟨i, hi, by rw [byteAt_eq_getElem m i hi]; exact ho⟩
  rw [← h0, ← hC.size_eq]
  simp [HashMap.empty]

/-- C20. Index safety: every reachable table is index safe, the old arrays that growth
walks are parallel, and so is every table the re-insertion loop of growth passes
through, starting from the fresh arrays. -/
theorem index_safety (hasher : K → Nat) (m : HashMap K V) (hr : Reachable hasher m) :
    IndexSafe hasher m ∧
    (m.buckets.zip m.values).length = m.buckets.length ∧
    IndexSafe hasher (grown m.buckets.length : HashMap K V) ∧
    (∀ (fuel : Nat) (done rest : List (Nat × (K × V))) (acc : HashMap K V),
      m.buckets.zip m.values = done ++ rest →
      reinsert_all (insert_impl hasher fuel) done (grown m.buckets.length) = some acc →
      IndexSafe hasher acc) := by
  have hI := reachable_inv hasher m hr
  have hG := Inv_grown (K := K) (V := V) hasher _ hI.whole_groups hI.one_group
  refine ⟨IndexSafe_of_Inv hasher m hI, ?_, IndexSafe_of_Inv hasher _ hG, ?_⟩
  · simp only [List.length_zip, hI.len_values]; omega
  · intro fuel done rest acc _ h
    exact IndexSafe_of_Inv hasher acc (reinsert_all_inv hasher _
      (fun a k v r hA hr' => insert_impl_inv hasher fuel a k v r hA hr') done _ acc hG h)

end


/-- C14 fails on the code. After `insert(1, 10); erase(1); insert(1, 20)` on the fresh
table the second insert has taken the tombstone of slot 0 and counted it again: the
load count is 2 with one occupied slot and no tombstone. -/
theorem load_overcounts :
    ∃ m : HashMap Nat Nat,
      run identity_hash 9 [Op.insert 1 10, Op.erase 1, Op.insert 1 20] HashMap.new
        = some ([true, true, true], m) ∧
      m.load = 2 ∧ occupied_count m = 1 ∧ deleted_count m = 0 :=
  ⟨reuse_state,
   run_of_fast identity_hash 9 _ HashMap.new (Inv_new identity_hash) _ (by decide!),
   rfl, by decide!, by decide!⟩

/-- Witness of C11 on the table after `dup_calls`: erasing the stored key 5. -/
theorem erase_effect_witness :
    ∃ idx, idx < dup_state.buckets.length ∧ is_occupied (byteAt dup_state idx) ∧
      (cellAt dup_state idx).1 = 5 ∧
      (delete_impl identity_hash dup_state 5).2.buckets
        = dup_state.buckets.set idx deleted_mask ∧
      byteAt (delete_impl identity_hash dup_state 5).2 idx = deleted_mask ∧
      (∀ i, i ≠ idx → byteAt (delete_impl identity_hash dup_state 5).2 i = byteAt dup_state i) ∧
      (delete_impl identity_hash dup_state 5).2.values = dup_state.values ∧
      (delete_impl identity_hash dup_state 5).2._size + 1 = dup_state._size ∧
      (delete_impl identity_hash dup_state 5).2.load = dup_state.load ∧
      (delete_impl identity_hash dup_state 5).2.buckets.length = dup_state.buckets.length :=
  (erase_effect identity_hash dup_state dup_state_reachable 5).2
    (by rw [delete_impl_eq_fast identity_hash dup_state
          (reachable_inv _ _ dup_state_reachable) 5]
        decide!)

/-- Witness of C12 on the table that holds the keys `0..56` of the scenario, where the
insert of key 57 grows the table first. -/
theorem insert_terminates_witness :
    ∃ m1 r, rehash_if_needed (insert_impl std_hash_int 16) (filled 64 57) = some m1 ∧
      m1.buckets.countP (fun b => decide (b ≠ empty_mask)) ≤ m1.load ∧
      m1.load * 8 ≤ m1.buckets.length * 7 ∧
      (∃ i, i < m1.buckets.length ∧ byteAt m1 i = empty_mask) ∧
      insert_no_growth std_hash_int (m1.buckets.length / HASH_SIMD_SIZE) m1 57 570 = some r ∧
      insert_impl std_hash_int (16 + 1) (filled 64 57) 57 570 = some r :=
  insert_terminates std_hash_int (filled 64 57)
    (insert_reachable_reachable _ _ filled_57_reachable) 57 570 16 (by decide)

/-- Witness of C13 on the table after `loaded_dup_calls`. -/
theorem structural_invariant_witness :
    (HashMap.new : HashMap Nat Nat).buckets.length = 64 ∧
    loaded_dup_state.buckets.length = loaded_dup_state.values.length ∧
    0 < loaded_dup_state.buckets.length ∧ HASH_SIMD_SIZE ∣ loaded_dup_state.buckets.length ∧
    loaded_dup_state._size ≤ loaded_dup_state.load ∧
    loaded_dup_state.load ≤ loaded_dup_state.buckets.length :=
  structural_invariant identity_hash loaded_dup_state loaded_dup_state_reachable

/-- Witness of C15 on the table that holds the keys `0..56` of the scenario, whose
load count 57 makes the insert of key 57 grow the table. -/
theorem growth_policy_witness :
    (filled 64 57).load * 8 > (filled 64 57).buckets.length * 7 ∧
    ∃ m1 b m2, rehash_if_needed (insert_impl std_hash_int 16) (filled 64 57) = some m1 ∧
      insert_impl std_hash_int (16 + 1) (filled 64 57) 57 570 = some (b, m2) ∧
      m2.buckets.length = m1.buckets.length ∧
      (m1.buckets.length ≠ (filled 64 57).buckets.length ↔
        (filled 64 57).load * 8 > (filled 64 57).buckets.length * 7) ∧
      ((filled 64 57).load * 8 > (filled 64 57).buckets.length * 7 →
        m1.buckets.length = 2 * (filled 64 57).buckets.length ∧
        m1.buckets.length
          = (((filled 64 57).buckets.length * 2 + HASH_SIMD_SIZE - 1) / HASH_SIMD_SIZE)
            * HASH_SIMD_SIZE ∧
        HASH_SIMD_SIZE ∣ m1.buckets.length ∧
        (∀ c, HASH_SIMD_SIZE ∣ c → 2 * (filled 64 57).buckets.length ≤ c →
          m1.buckets.length ≤ c) ∧
        rehash_if_needed (insert_no_growth std_hash_int 16) (filled 64 57) = some m1 ∧
        NoTomb m1 ∧ m1.load = m1._size ∧ m1._size = occupied_count m1) ∧
      (¬ (filled 64 57).load * 8 > (filled 64 57).buckets.length * 7 → m1 = filled 64 57) ∧
      (filled 64 57).buckets.length ≤ m2.buckets.length ∧
      (delete_impl std_hash_int (filled 64 57) 57).2.buckets.length
        = (filled 64 57).buckets.length :=
  ⟨by decide,
   growth_policy std_hash_int (filled 64 57)
    (insert_reachable_reachable _ _ filled_57_reachable) 57 570 16 (by decide)⟩

/-- Witness of C19 on the table after `dup_calls`, which has 16 occupied slots and one
tombstone. -/
theorem size_counts_occupied_witness :
    dup_state.size = occupied_count dup_state ∧
    (dup_state.empty = true ↔
      ¬ ∃ i, i < dup_state.buckets.length ∧ is_occupied (byteAt dup_state i)) :=
  size_counts_occupied identity_hash dup_state dup_state_reachable

/-- Witness of C20 on the table after `wrap_calls`, where a probe wraps from group 3
to group 0. -/
theorem index_safety_witness : IndexSafe identity_hash wrap_state :=
  (index_safety identity_hash wrap_state wrap_state_reachable).1


end hashmap
